import Mathlib

/-!
# SwapStore: page-frame allocator and eviction policies

A shallow embedding of `swapstore_engine.cpp` and a verification of its
natural-language specification.

Modelling conventions.

* C++ `int` and `long` values are integers (`Int`).  The computations whose
  result the arguments of one call can push out of range are reduced to the
  width of their type as the compiled program does (`wrap32`, `wrap64`, two's
  complement): the frame value `processId * 10000 + pageNumber`, the page count
  of a process and the frame count of the engine.  The four counters,
  `nextProcessId`, the LRU clock and the lookahead index `nextUse = j` are kept
  exact: they leave their range only after 2^31 calls or with a lookahead of
  more than `INT_MAX` entries, and the statements that depend on the clock or
  on the lookahead index say so.  Division and remainder are
  the truncating ones of C++ (`Int.tdiv`, `Int.tmod`).
* `vector<int> memory` is a `List Int`; a loop `for (i = 0; i < numFrames; i++)`
  over `memory[i]` is a traversal of that list (the constructor establishes
  `memory.size() == numFrames` and no method changes the size).
* The function-local statics `fifoQueue`, `accessTime` and `currentTime` are
  fields of the engine state.  `std::map<pair<int,int>, long>` is only ever
  accessed through `operator[]`, under which an absent key reads as the
  value-initialised `0`; it is modelled by its total lookup function.
* A method returns `none` where the C++ has undefined behaviour that the
  model tracks: `front()` of an empty queue and the write `memory[-1]`.
* `generateResponse` builds a JSON text; the model keeps its fields as a
  record.
-/

namespace SwapStore

/-! ## Constants -/

/-- The constant `PAGE_SIZE` (4KB page size). -/
def PAGE_SIZE : Int := 4096

/-- The constant `INT_MAX` of a 32-bit `int`. -/
def INT_MAX : Int := 2147483647

/-- The constant `LONG_MAX` of a 64-bit `long`. -/
def LONG_MAX : Int := 9223372036854775807

/-- The value a 32-bit `int` holds for the mathematical result `x`: `x` reduced
modulo 2^32 into `[-2^31, 2^31)`. -/
def wrap32 (x : Int) : Int := (x + 2147483648) % 4294967296 - 2147483648

/-- The value a 64-bit `long` holds for the mathematical result `x`. -/
def wrap64 (x : Int) : Int :=
  (x + 9223372036854775808) % 18446744073709551616 - 9223372036854775808

/-! ## Data model -/

/-- The struct `Page`, with the defaults of its constructor. -/
structure Page where
  pageNumber : Int := -1
  processId : Int := -1
  frameNumber : Int := -1
  inMemory : Bool := false
  lastAccessTime : Int := 0
  frequency : Int := 0
deriving DecidableEq, Repr

/-- The struct `Process`. -/
structure Process where
  processId : Int
  fileName : String
  fileSize : Int
  numPages : Int
  pages : List Page
deriving DecidableEq, Repr

/-- The constructor `Process::Process(id, name, size)`.  The quotient is
computed in `long` and narrowed to the `int` field `numPages`; the page list
is resized to `numPages` default pages whose `pageNumber` and `processId` are
then set.  For a negative `numPages` the `resize` throws, which is `none`
here. -/
def Process.create (id : Int) (name : String) (size : Int) : Option Process :=
  let numPages := wrap32 ((wrap64 (size + PAGE_SIZE - 1)).tdiv PAGE_SIZE)
  if numPages < 0 then none
  else some
    { processId := id
      fileName := name
      fileSize := size
      numPages := numPages
      pages := (List.range numPages.toNat).map
        (fun (i : Nat) => { pageNumber := (i : Int), processId := id }) }

/-- The record rendered by `generateResponse`. -/
structure Response where
  type : String
  processId : Int
  pageNumber : Int
  frameNumber : Int
  victimPage : Int
  pageFaults : Int
  pageHits : Int
  swapOuts : Int
  swapIns : Int
deriving DecidableEq, Repr

/-- The class `MemoryManager`, together with the function-local statics of
its methods (`fifoQueue`, `accessTime`, `currentTime`). -/
structure MemoryManager where
  ramSize : Int
  numFrames : Int
  swapSize : Int
  memory : List Int
  processes : List Process
  nextProcessId : Int
  pageFaults : Int
  pageHits : Int
  swapOuts : Int
  swapIns : Int
  fifoQueue : List (Int × Int)
  accessTime : Int × Int → Int
  currentTime : Int

/-- The constructor `MemoryManager(ramKB)`.  A negative frame count makes
`memory.resize` throw, which is `none` here. -/
def MemoryManager.create (ramKB : Int) : Option MemoryManager :=
  let numFrames := (wrap32 (ramKB * 1024)).tdiv PAGE_SIZE
  if numFrames < 0 then none
  else some
    { ramSize := ramKB
      numFrames := numFrames
      swapSize := wrap32 (ramKB * 2)
      memory := List.replicate numFrames.toNat (-1)
      processes := []
      nextProcessId := 0
      pageFaults := 0
      pageHits := 0
      swapOuts := 0
      swapIns := 0
      fifoQueue := []
      accessTime := fun _ => 0
      currentTime := 0 }

/-- The method `addProcess`: the returned process id and the new state.
`nextProcessId` is incremented before the constructor runs; when the
constructor throws, nothing is registered and no id is returned (`none`). -/
def addProcess (s : MemoryManager) (fileName : String) (fileSize : Int) :
    Option Int × MemoryManager :=
  match Process.create s.nextProcessId fileName fileSize with
  | none => (none, { s with nextProcessId := s.nextProcessId + 1 })
  | some proc =>
    (some proc.processId,
      { s with nextProcessId := s.nextProcessId + 1, processes := s.processes ++ [proc] })

/-- The method `generateResponse`, reading the four counters of the state. -/
def generateResponse (s : MemoryManager) (type : String) (pid page frame victim : Int) :
    Response :=
  { type := type
    processId := pid
    pageNumber := page
    frameNumber := frame
    victimPage := victim
    pageFaults := s.pageFaults
    pageHits := s.pageHits
    swapOuts := s.swapOuts
    swapIns := s.swapIns }

/-! ## The loops shared by the three policies -/

/-- The test of the residency loop on one frame value `m = memory[i]`:
`m != -1` and `m / 10000 == processId && m % 10000 == pageNumber`. -/
def isPage (processId pageNumber : Int) (m : Int) : Bool :=
  decide (m ≠ -1) && (decide (m.tdiv 10000 = processId) && decide (m.tmod 10000 = pageNumber))

/-- The loop "check if page is already in memory": the first frame index
whose occupant decodes to the reference. -/
def findResident (memory : List Int) (processId pageNumber : Int) : Option Nat :=
  memory.findIdx? (isPage processId pageNumber)

/-- The loop "find empty frame": the first index holding `-1`. -/
def findEmpty (memory : List Int) : Option Nat :=
  memory.findIdx? (fun m => decide (m = -1))

/-- The loop "find victim frame" of FIFO: the first index holding the packed
value `v`. -/
def findVictimFrame (memory : List Int) (v : Int) : Option Nat :=
  memory.findIdx? (fun m => decide (m = v))

/-- The assignment `accessTime[key] = t`. -/
def setTime (accessTime : Int × Int → Int) (key : Int × Int) (t : Int) : Int × Int → Int :=
  fun k => if k = key then t else accessTime k

/-! ## FIFO -/

/-- The method `fifoPageReplacement`. -/
def fifoPageReplacement (s : MemoryManager) (processId pageNumber : Int) :
    Option (Response × MemoryManager) :=
  match findResident s.memory processId pageNumber with
  | some i =>
    let s1 := { s with pageHits := s.pageHits + 1 }
    some (generateResponse s1 "HIT" processId pageNumber i (-1), s1)
  | none =>
    let s1 := { s with pageFaults := s.pageFaults + 1 }
    match findEmpty s1.memory with
    | some i =>
      let s2 := { s1 with
        memory := s1.memory.set i (wrap32 (processId * 10000 + pageNumber))
        fifoQueue := s1.fifoQueue ++ [(processId, pageNumber)]
        swapIns := s1.swapIns + 1 }
      some (generateResponse s2 "MISS" processId pageNumber i (-1), s2)
    | none =>
      match s1.fifoQueue with
      | [] => none
      | victim :: rest =>
        match findVictimFrame s1.memory (wrap32 (victim.1 * 10000 + victim.2)) with
        | none => none
        | some victimFrame =>
          let s2 := { s1 with
            memory := s1.memory.set victimFrame (wrap32 (processId * 10000 + pageNumber))
            fifoQueue := rest ++ [(processId, pageNumber)]
            swapOuts := s1.swapOuts + 1
            swapIns := s1.swapIns + 1 }
          some (generateResponse s2 "MISS" processId pageNumber victimFrame
            (wrap32 (victim.1 * 10000 + victim.2)), s2)

/-! ## LRU -/

/-- The loop "find LRU page": the accumulator is
`(minTime, victimFrame, victimPage)` and `i` is the index of the head. -/
def lruScan (accessTime : Int × Int → Int) :
    List Int → Nat → Int × Int × Int → Int × Int × Int
  | [], _, acc => acc
  | m :: ms, i, (minTime, victimFrame, victimPage) =>
    let pid := m.tdiv 10000
    let pnum := m.tmod 10000
    let time := accessTime (pid, pnum)
    if time < minTime then lruScan accessTime ms (i + 1) (time, (i : Int), m)
    else lruScan accessTime ms (i + 1) (minTime, victimFrame, victimPage)

/-- The method `lruPageReplacement`. -/
def lruPageReplacement (s : MemoryManager) (processId pageNumber : Int) :
    Option (Response × MemoryManager) :=
  let s0 := { s with currentTime := s.currentTime + 1 }
  match findResident s0.memory processId pageNumber with
  | some i =>
    -- in this branch `pid == processId` and `pnum == pageNumber`
    let s1 := { s0 with
      pageHits := s0.pageHits + 1
      accessTime := setTime s0.accessTime (processId, pageNumber) s0.currentTime }
    some (generateResponse s1 "HIT" processId pageNumber i (-1), s1)
  | none =>
    let s1 := { s0 with pageFaults := s0.pageFaults + 1 }
    match findEmpty s1.memory with
    | some i =>
      let s2 := { s1 with
        memory := s1.memory.set i (wrap32 (processId * 10000 + pageNumber))
        accessTime := setTime s1.accessTime (processId, pageNumber) s1.currentTime
        swapIns := s1.swapIns + 1 }
      some (generateResponse s2 "MISS" processId pageNumber i (-1), s2)
    | none =>
      match lruScan s1.accessTime s1.memory 0 (LONG_MAX, -1, -1) with
      | (_, victimFrame, victimPage) =>
        if victimFrame < 0 then none
        else
          let s2 := { s1 with
            memory := s1.memory.set victimFrame.toNat (wrap32 (processId * 10000 + pageNumber))
            accessTime := setTime s1.accessTime (processId, pageNumber) s1.currentTime
            swapOuts := s1.swapOuts + 1
            swapIns := s1.swapIns + 1 }
          some (generateResponse s2 "MISS" processId pageNumber victimFrame victimPage, s2)

/-! ## Optimal -/

/-- The inner loop of the optimal policy: the index of the first occurrence
of `(pid, pnum)` in `futureReferences` from position `j` on, else `INT_MAX`. -/
def nextUseFrom (pid pnum : Int) : List (Int × Int) → Nat → Int
  | [], _ => INT_MAX
  | r :: rs, j => if r.1 = pid ∧ r.2 = pnum then (j : Int) else nextUseFrom pid pnum rs (j + 1)

/-- The value of `nextUse` for the frame value `m`. -/
def nextUse (futureReferences : List (Int × Int)) (m : Int) : Int :=
  nextUseFrom (m.tdiv 10000) (m.tmod 10000) futureReferences 0

/-- The loop "find page that won't be used for longest time": the
accumulator is `(farthest, victimFrame, victimPage)`. -/
def optimalScan (futureReferences : List (Int × Int)) :
    List Int → Nat → Int × Int × Int → Int × Int × Int
  | [], _, acc => acc
  | m :: ms, i, (farthest, victimFrame, victimPage) =>
    if nextUse futureReferences m > farthest then
      optimalScan futureReferences ms (i + 1) (nextUse futureReferences m, (i : Int), m)
    else optimalScan futureReferences ms (i + 1) (farthest, victimFrame, victimPage)

/-- The method `optimalPageReplacement`. -/
def optimalPageReplacement (s : MemoryManager) (processId pageNumber : Int)
    (futureReferences : List (Int × Int)) : Option (Response × MemoryManager) :=
  match findResident s.memory processId pageNumber with
  | some i =>
    let s1 := { s with pageHits := s.pageHits + 1 }
    some (generateResponse s1 "HIT" processId pageNumber i (-1), s1)
  | none =>
    let s1 := { s with pageFaults := s.pageFaults + 1 }
    match findEmpty s1.memory with
    | some i =>
      let s2 := { s1 with
        memory := s1.memory.set i (wrap32 (processId * 10000 + pageNumber))
        swapIns := s1.swapIns + 1 }
      some (generateResponse s2 "MISS" processId pageNumber i (-1), s2)
    | none =>
      match optimalScan futureReferences s1.memory 0 (-1, -1, -1) with
      | (_, victimFrame, victimPage) =>
        if victimFrame < 0 then none
        else
          let s2 := { s1 with
            memory := s1.memory.set victimFrame.toNat (wrap32 (processId * 10000 + pageNumber))
            swapOuts := s1.swapOuts + 1
            swapIns := s1.swapIns + 1 }
          some (generateResponse s2 "MISS" processId pageNumber victimFrame victimPage, s2)

/-! ## Reset and event sequences -/

/-- The method `reset`. -/
def reset (s : MemoryManager) : MemoryManager :=
  { s with
    memory := s.memory.map (fun _ => -1)
    pageFaults := 0
    pageHits := 0
    swapOuts := 0
    swapIns := 0 }

/-- One command of the driver loop that reaches the engine. -/
inductive Event where
  | fifo (processId pageNumber : Int)
  | lru (processId pageNumber : Int)
  | optimal (processId pageNumber : Int) (futureReferences : List (Int × Int))
deriving DecidableEq, Repr

/-- The reference of an event. -/
def Event.ref : Event → Int × Int
  | .fifo p n => (p, n)
  | .lru p n => (p, n)
  | .optimal p n _ => (p, n)

/-- One reference event applied to the engine. -/
def step (s : MemoryManager) : Event → Option (Response × MemoryManager)
  | .fifo p n => fifoPageReplacement s p n
  | .lru p n => lruPageReplacement s p n
  | .optimal p n fut => optimalPageReplacement s p n fut

/-- A sequence of reference events: the responses in order and the final
state, or `none` as soon as one call is undefined. -/
def run (s : MemoryManager) : List Event → Option (List Response × MemoryManager)
  | [] => some ([], s)
  | e :: es =>
    match step s e with
    | none => none
    | some (r, s1) =>
      match run s1 es with
      | none => none
      | some (rs, s2) => some (r :: rs, s2)

/-! ## Vocabulary of the specification -/

/-- The packed occupant identity `processId * 10000 + pageNumber`. -/
def pack (r : Int × Int) : Int := r.1 * 10000 + r.2

/-- The `int` the engine computes for `processId * 10000 + pageNumber`: the
frame value it writes. -/
def packInt (r : Int × Int) : Int := wrap32 (r.1 * 10000 + r.2)

/-- The references on which the packed encoding is exact:
`processId >= 0` and `0 <= pageNumber < 10000`. -/
def ValidRef (r : Int × Int) : Prop := 0 ≤ r.1 ∧ 0 ≤ r.2 ∧ r.2 < 10000

instance instDecidableValidRef (r : Int × Int) : Decidable (ValidRef r) := by
  unfold ValidRef; infer_instance

/-- The references the frame value is exact on, negative identifiers included:
`processId * 10000 + pageNumber` fits in an `int`, is not the empty marker `-1`
and decodes back to the reference through `/ 10000` and `% 10000`. -/
def Exact (r : Int × Int) : Prop :=
  wrap32 (pack r) = pack r ∧ pack r ≠ -1 ∧ ((pack r).tdiv 10000, (pack r).tmod 10000) = r

instance instDecidableExact (r : Int × Int) : Decidable (Exact r) := by
  unfold Exact; infer_instance

/-- Frame `i` is the lowest-indexed frame of `memory` holding the value `v`. -/
def LowestAt (memory : List Int) (v : Int) (i : Nat) : Prop :=
  memory[i]? = some v ∧ ∀ j, j < i → memory[j]? ≠ some v

/-- No two occupied frames hold an equal occupant. -/
def Distinct (memory : List Int) : Prop :=
  ∀ (i j : Nat) (x : Int), memory[i]? = some x → memory[j]? = some x → x ≠ -1 → i = j

/-- The number of occupied frames. -/
def occupied (memory : List Int) : Nat :=
  memory.countP (fun m => decide (m ≠ -1))

/-- The timestamp the LRU loop reads for the frame value `m`. -/
def frameTime (accessTime : Int × Int → Int) (m : Int) : Int :=
  accessTime (m.tdiv 10000, m.tmod 10000)

/-- The clock of the LRU policy can still be incremented and the recorded
timestamps are clock values of the past. -/
def ClockOk (s : MemoryManager) : Prop :=
  s.currentTime < LONG_MAX ∧ ∀ k, s.accessTime k ≤ s.currentTime

/-- The three eviction policies. -/
inductive Policy where
  | FIFO
  | LRU
  | Optimal
deriving DecidableEq, Repr

/-- The policy an event is addressed to. -/
def Event.policy : Event → Policy
  | .fifo _ _ => .FIFO
  | .lru _ _ => .LRU
  | .optimal _ _ _ => .Optimal

/-- The packed identities of the pages loaded by a sequence of responses
(one per `MISS`), in order. -/
def loads (out : List Response) : List Int :=
  out.filterMap (fun r => if r.type = "MISS" then some (pack (r.processId, r.pageNumber)) else none)

/-- The packed identities of the pages evicted by a sequence of responses
(one per response carrying a victim), in order. -/
def victims (out : List Response) : List Int :=
  out.filterMap (fun r => if r.victimPage = -1 then none else some r.victimPage)

/-- The position, counted from 1, of the most recent reference to `x` in a
sequence of events; `0` when `x` was never referenced. -/
def lastRef (x : Int × Int) : List Event → Nat
  | [] => 0
  | e :: es => if x ∈ es.map Event.ref then lastRef x es + 1 else if e.ref = x then 1 else 0

/-- The distance of a reference in the lookahead: the index of its first
occurrence, or the length of the lookahead (greater than every index) when it
does not occur. -/
def distance : List (Int × Int) → Int × Int → Nat
  | [], _ => 0
  | x :: xs, r => if x = r then 0 else distance xs r + 1

/-- What one successful reference event does to the frame table and the
counters, whichever the policy: a hit, a load into the lowest empty frame, or
the replacement of the occupant of one frame. -/
def Transition (s : MemoryManager) (ref : Int × Int) (r : Response) (s' : MemoryManager) :
    Prop :=
  s'.numFrames = s.numFrames ∧ r.processId = ref.1 ∧ r.pageNumber = ref.2 ∧
  ((r.type = "HIT" ∧ r.victimPage = -1 ∧ pack ref ∈ s.memory ∧ s'.memory = s.memory ∧
      s'.pageHits = s.pageHits + 1 ∧ s'.pageFaults = s.pageFaults ∧
      s'.swapOuts = s.swapOuts ∧ s'.swapIns = s.swapIns)
   ∨ (r.type = "MISS" ∧ r.victimPage = -1 ∧ pack ref ∉ s.memory ∧
      (∃ i, LowestAt s.memory (-1) i ∧ s'.memory = s.memory.set i (pack ref) ∧
        r.frameNumber = (i : Int)) ∧
      s'.pageHits = s.pageHits ∧ s'.pageFaults = s.pageFaults + 1 ∧
      s'.swapOuts = s.swapOuts ∧ s'.swapIns = s.swapIns + 1)
   ∨ (r.type = "MISS" ∧ pack ref ∉ s.memory ∧ (-1 : Int) ∉ s.memory ∧
      (∃ v old, s.memory[v]? = some old ∧ r.victimPage = old ∧
        s'.memory = s.memory.set v (pack ref) ∧ r.frameNumber = (v : Int)) ∧
      s'.pageHits = s.pageHits ∧ s'.pageFaults = s.pageFaults + 1 ∧
      s'.swapOuts = s.swapOuts + 1 ∧ s'.swapIns = s.swapIns + 1))

/-- What one successful reference event does to the frame table and the
counters in terms of the `int` value `w` it writes, whatever the reference: a
hit, a load into an empty frame, or the replacement of an occupant. -/
def Effect (s : MemoryManager) (w : Int) (r : Response) (s' : MemoryManager) : Prop :=
  (r.type = "HIT" ∧ r.victimPage = -1 ∧ s'.memory = s.memory ∧
      s'.pageHits = s.pageHits + 1 ∧ s'.pageFaults = s.pageFaults ∧
      s'.swapOuts = s.swapOuts ∧ s'.swapIns = s.swapIns)
   ∨ (r.type = "MISS" ∧ r.victimPage = -1 ∧
      (∃ i, s.memory[i]? = some (-1) ∧ s'.memory = s.memory.set i w) ∧
      s'.pageHits = s.pageHits ∧ s'.pageFaults = s.pageFaults + 1 ∧
      s'.swapOuts = s.swapOuts ∧ s'.swapIns = s.swapIns + 1)
   ∨ (r.type = "MISS" ∧ r.victimPage ≠ -1 ∧
      (∃ v old, s.memory[v]? = some old ∧ old ≠ -1 ∧ s'.memory = s.memory.set v w) ∧
      s'.pageHits = s.pageHits ∧ s'.pageFaults = s.pageFaults + 1 ∧
      s'.swapOuts = s.swapOuts + 1 ∧ s'.swapIns = s.swapIns + 1)

/-- A sample state with a full table of four frames holding pages 0 to 3 of
process 0, each loaded once in that order. -/
def sampleFull : MemoryManager :=
  { ramSize := 16
    numFrames := 4
    swapSize := 32
    memory := [0, 1, 2, 3]
    processes := []
    nextProcessId := 0
    pageFaults := 4
    pageHits := 0
    swapOuts := 0
    swapIns := 4
    fifoQueue := [(0, 0), (0, 1), (0, 2), (0, 3)]
    accessTime := fun k => if k.1 = 0 ∧ 0 ≤ k.2 ∧ k.2 < 4 then k.2 + 1 else 0
    currentTime := 4 }

/-- A sample state with four frames of which the last two are empty. -/
def samplePartial : MemoryManager :=
  { sampleFull with
    memory := [0, 1, -1, -1]
    pageFaults := 2
    swapIns := 2
    fifoQueue := [(0, 0), (0, 1)]
    accessTime := fun k => if k.1 = 0 ∧ 0 ≤ k.2 ∧ k.2 < 2 then k.2 + 1 else 0
    currentTime := 2 }

/-- The reference string `(0,0), (0,1), (0,2), (0,3), (0,0), (0,4)` addressed
to FIFO. -/
def fifoSample : List Event :=
  [.fifo 0 0, .fifo 0 1, .fifo 0 2, .fifo 0 3, .fifo 0 0, .fifo 0 4]

/-- The reference string `(0,0), (0,1), (0,2), (0,3), (0,0), (0,4)` addressed
to LRU. -/
def lruSample : List Event :=
  [.lru 0 0, .lru 0 1, .lru 0 2, .lru 0 3, .lru 0 0, .lru 0 4]

/-- The FIFO queue holds exactly the occupants of the occupied frames. -/
def FifoInv (s : MemoryManager) : Prop :=
  (s.fifoQueue.map packInt).Perm (s.memory.filter (fun m => decide (m ≠ -1)))

/-- A sequence that mixes the three policies on the pages 0 to 5 of
process 0. -/
def mixedSample : List Event :=
  [.fifo 0 0, .lru 0 1, .optimal 0 2 [], .fifo 0 3, .lru 0 0, .optimal 0 4 [(0, 0)],
    .fifo 0 5]

/-- The events of running one policy over a reference string: Optimal is
passed, at each step, the remainder of the string after the current
reference. -/
def optimalEvents : List (Int × Int) → List Event
  | [] => []
  | x :: rest => Event.optimal x.1 x.2 rest :: optimalEvents rest

/-- The events of running FIFO over a reference string. -/
def fifoEvents (refs : List (Int × Int)) : List Event :=
  refs.map (fun x => Event.fifo x.1 x.2)

/-- The events of running LRU over a reference string. -/
def lruEvents (refs : List (Int × Int)) : List Event :=
  refs.map (fun x => Event.lru x.1 x.2)

/-- The pages resident in a frame table: the decoded occupants of the
occupied frames. -/
def residents (memory : List Int) : Finset (Int × Int) :=
  ((memory.filter (fun m => decide (m ≠ -1))).map
    (fun m => (m.tdiv 10000, m.tmod 10000))).toFinset

/-- A demand-paging run with `k` faults on `N` frames, from the resident set
`C`, over a reference string: a resident page is a hit and changes nothing; a
page that is not resident is a fault and is loaded, without eviction while
fewer than `N` pages are resident, and otherwise in the place of an arbitrary
resident page `y`. -/
def DemandRun (N : Nat) : Finset (Int × Int) → List (Int × Int) → Nat → Prop
  | _, [], k => k = 0
  | C, z :: rest, k =>
    (z ∈ C ∧ DemandRun N C rest k)
    ∨ (z ∉ C ∧ C.card < N ∧ ∃ k0, k = k0 + 1 ∧ DemandRun N (insert z C) rest k0)
    ∨ (z ∉ C ∧ N ≤ C.card ∧ ∃ y ∈ C, ∃ k0, k = k0 + 1
        ∧ DemandRun N (insert z (C.erase y)) rest k0)

/-- A demand-paging run on a full table, without the bookkeeping of the
number of frames: every fault replaces an arbitrary resident page. -/
def FullRun : Finset (Int × Int) → List (Int × Int) → Nat → Prop
  | _, [], k => k = 0
  | C, z :: rest, k =>
    (z ∈ C ∧ FullRun C rest k)
    ∨ (z ∉ C ∧ ∃ y ∈ C, ∃ k0, k = k0 + 1 ∧ FullRun (insert z (C.erase y)) rest k0)

/-- The reference string `1, 2, 3, 4, 1, 2, 5, 1, 2, 3, 4, 5` on the pages of
process 0. -/
def beladySample : List (Int × Int) :=
  [(0, 1), (0, 2), (0, 3), (0, 4), (0, 1), (0, 2), (0, 5), (0, 1), (0, 2), (0, 3), (0, 4),
    (0, 5)]

/-! ## The packed encoding -/

theorem tdiv_pack {p n : Int} (hp : 0 ≤ p) (hn : 0 ≤ n) (hn2 : n < 10000) :
    (p * 10000 + n).tdiv 10000 = p := by
  rw [Int.tdiv_eq_ediv (by omega) (by omega)]
  omega

theorem tmod_pack {p n : Int} (hp : 0 ≤ p) (hn : 0 ≤ n) (hn2 : n < 10000) :
    (p * 10000 + n).tmod 10000 = n := by
  rw [Int.tmod_eq_emod (by omega) (by omega)]
  omega

theorem pack_decode (m : Int) : pack (m.tdiv 10000, m.tmod 10000) = m :=
  Int.tdiv_add_tmod' m 10000

theorem decode_pack {r : Int × Int} (h : ValidRef r) :
    ((pack r).tdiv 10000, (pack r).tmod 10000) = r := by
  obtain ⟨p, n⟩ := r
  obtain ⟨hp, hn, hn2⟩ := h
  simp only at hp hn hn2
  simp only [pack, tdiv_pack hp hn hn2, tmod_pack hp hn hn2]

theorem pack_nonneg {r : Int × Int} (h : ValidRef r) : 0 ≤ pack r := by
  obtain ⟨p, n⟩ := r
  obtain ⟨hp, hn, hn2⟩ := h
  simp only at hp hn hn2
  simp only [pack]
  omega

theorem pack_ne_neg_one {r : Int × Int} (h : ValidRef r) : pack r ≠ -1 := by
  have := pack_nonneg h
  omega

theorem pack_injective {r u : Int × Int} (hr : ValidRef r) (hu : ValidRef u)
    (h : pack r = pack u) : r = u := by
  rw [← decode_pack hr, ← decode_pack hu, h]

theorem isPage_eq {p n : Int} (h : ValidRef (p, n)) (m : Int) :
    isPage p n m = decide (m = pack (p, n)) := by
  by_cases hm : m = pack (p, n)
  · subst hm
    have h1 := decode_pack h
    have h3 := pack_ne_neg_one h
    simp only [Prod.mk.injEq] at h1
    simp [isPage, h1.1, h1.2, h3]
  · have := pack_decode m
    simp only [isPage, hm, decide_False]
    by_cases h1 : m.tdiv 10000 = p
    · by_cases h2 : m.tmod 10000 = n
      · exfalso; apply hm; rw [← this, h1, h2]
      · simp [h2]
    · simp [h1]

theorem wrap32_of_fits {x : Int} (h1 : -2147483648 ≤ x) (h2 : x ≤ 2147483647) :
    wrap32 x = x := by
  unfold wrap32
  omega

theorem wrap64_of_fits {x : Int} (h1 : -9223372036854775808 ≤ x)
    (h2 : x ≤ 9223372036854775807) : wrap64 x = x := by
  unfold wrap64
  omega

/-- A reference in the range of the data model whose packed value does not
overflow an `int` is exact. -/
theorem exact_of_valid {r : Int × Int} (hv : ValidRef r) (hf : pack r ≤ INT_MAX) :
    Exact r := by
  have h0 := pack_nonneg hv
  have hf' : pack r ≤ 2147483647 := hf
  exact ⟨wrap32_of_fits (by omega) hf', pack_ne_neg_one hv, decode_pack hv⟩

theorem Exact.packInt_eq {r : Int × Int} (h : Exact r) : packInt r = pack r := h.1

theorem Exact.ne_empty_marker {r : Int × Int} (h : Exact r) : pack r ≠ -1 := h.2.1

theorem Exact.decode_eq {r : Int × Int} (h : Exact r) :
    ((pack r).tdiv 10000, (pack r).tmod 10000) = r := h.2.2

theorem Exact.pack_inj {r u : Int × Int} (hr : Exact r) (hu : Exact u)
    (h : pack r = pack u) : r = u := by
  rw [← hr.decode_eq, ← hu.decode_eq, h]

/-- A frame value that decodes to the reference is the packed value of the
reference, whatever the reference. -/
theorem eq_pack_of_isPage {p n m : Int} (h : isPage p n m = true) : m = pack (p, n) := by
  simp only [isPage, Bool.and_eq_true, decide_eq_true_eq] at h
  rw [← pack_decode m, h.2.1, h.2.2]

theorem Exact.isPage_decide {p n : Int} (h : Exact (p, n)) (m : Int) :
    isPage p n m = decide (m = pack (p, n)) := by
  by_cases hm : m = pack (p, n)
  · subst hm
    have h1 := h.decode_eq
    have h3 := h.ne_empty_marker
    simp only [Prod.mk.injEq] at h1
    simp [isPage, h1.1, h1.2, h3]
  · simp only [hm, decide_False]
    cases hi : isPage p n m with
    | false => rfl
    | true => exact absurd (eq_pack_of_isPage hi) hm

/-- The pairs on which the encoding round-trips: the two identifiers do not
have opposite signs and the page number is below 10000 in absolute value. -/
theorem decode_pack_iff (p n : Int) :
    ((pack (p, n)).tdiv 10000, (pack (p, n)).tmod 10000) = (p, n)
      ↔ (0 ≤ p ∧ 0 ≤ n ∧ n < 10000) ∨ (p ≤ 0 ∧ -10000 < n ∧ n ≤ 0) := by
  simp only [pack, Prod.mk.injEq]
  constructor
  · rintro ⟨h1, h2⟩
    by_cases hx : 0 ≤ p * 10000 + n
    · rw [Int.tdiv_eq_ediv hx (by omega)] at h1
      rw [Int.tmod_eq_emod hx (by omega)] at h2
      left; omega
    · have hy : 0 ≤ -(p * 10000 + n) := by omega
      have e1 : (p * 10000 + n).tdiv 10000 = -((-(p * 10000 + n)) / 10000) := by
        rw [← Int.tdiv_eq_ediv hy (by omega), Int.neg_tdiv, neg_neg]
      have hd := Int.tdiv_add_tmod' (p * 10000 + n) 10000
      rw [h2, e1] at hd
      rw [e1] at h1
      right; omega
  · rintro (⟨hp, hn, hn2⟩ | ⟨hp, hn, hn2⟩)
    · exact ⟨tdiv_pack hp hn hn2, tmod_pack hp hn hn2⟩
    · have e : p * 10000 + n = -((-p) * 10000 + (-n)) := by ring
      have e1 : (p * 10000 + n).tdiv 10000 = p := by
        rw [e, Int.neg_tdiv, tdiv_pack (by omega) (by omega) (by omega), neg_neg]
      have hd := Int.tdiv_add_tmod' (p * 10000 + n) 10000
      rw [e1] at hd
      exact ⟨e1, by omega⟩

/-- The references on which the frame value is exact, spelled out. -/
theorem exact_iff (p n : Int) :
    Exact (p, n)
      ↔ (-2147483648 ≤ p * 10000 + n ∧ p * 10000 + n ≤ 2147483647)
        ∧ p * 10000 + n ≠ -1
        ∧ ((0 ≤ p ∧ 0 ≤ n ∧ n < 10000) ∨ (p ≤ 0 ∧ -10000 < n ∧ n ≤ 0)) := by
  unfold Exact
  rw [decode_pack_iff]
  have hw : wrap32 (pack (p, n)) = pack (p, n)
      ↔ (-2147483648 ≤ p * 10000 + n ∧ p * 10000 + n ≤ 2147483647) := by
    simp only [wrap32, pack]
    omega
  rw [hw]
  simp only [pack]

/-- The frame value written for a reference is recognised as that reference by
the residency test exactly when the reference is exact. -/
theorem isPage_packInt_iff (p n : Int) :
    isPage p n (packInt (p, n)) = true ↔ Exact (p, n) := by
  constructor
  · intro h
    have h1 : packInt (p, n) = pack (p, n) := eq_pack_of_isPage h
    rw [h1] at h
    simp only [isPage, Bool.and_eq_true, decide_eq_true_eq] at h
    refine ⟨h1, h.1, ?_⟩
    rw [h.2.1, h.2.2]
  · intro h
    have h1 : packInt (p, n) = pack (p, n) := h.1
    have h2 := h.2.2
    simp only [Prod.mk.injEq] at h2
    rw [h1]
    simp only [isPage, Bool.and_eq_true, decide_eq_true_eq]
    exact ⟨h.2.1, h2.1, h2.2⟩

/-- A reference that is not exact is never found resident: no `int` frame
value decodes to it. -/
theorem isPage_of_not_exact {p n : Int} (h : ¬ Exact (p, n)) (m : Int) (hm : wrap32 m = m) :
    isPage p n m = false := by
  cases hi : isPage p n m with
  | false => rfl
  | true =>
    exfalso
    apply h
    have h1 : m = pack (p, n) := eq_pack_of_isPage hi
    simp only [isPage, Bool.and_eq_true, decide_eq_true_eq] at hi
    rw [h1] at hm hi
    refine ⟨hm, hi.1, ?_⟩
    rw [hi.2.1, hi.2.2]

/-! ## The search loops -/

theorem findResident_eq {p n : Int} (h : ValidRef (p, n)) (memory : List Int) :
    findResident memory p n = findVictimFrame memory (pack (p, n)) := by
  unfold findResident findVictimFrame
  congr 1
  funext m
  exact isPage_eq h m

theorem Exact.findResident_search {p n : Int} (h : Exact (p, n)) (memory : List Int) :
    findResident memory p n = findVictimFrame memory (pack (p, n)) := by
  unfold findResident findVictimFrame
  congr 1
  funext m
  exact h.isPage_decide m

theorem findEmpty_eq (memory : List Int) : findEmpty memory = findVictimFrame memory (-1) := rfl

theorem findVictimFrame_some {memory : List Int} {v : Int} {i : Nat} :
    findVictimFrame memory v = some i ↔ LowestAt memory v i := by
  unfold findVictimFrame LowestAt
  rw [List.findIdx?_eq_some_iff_getElem]
  constructor
  · rintro ⟨h, h1, h2⟩
    refine ⟨?_, ?_⟩
    · rw [List.getElem?_eq_getElem h]; simpa using h1
    · intro j hj hjv
      have hjl : j < memory.length := Nat.lt_trans hj h
      rw [List.getElem?_eq_getElem hjl] at hjv
      have := h2 j hj
      simp at hjv this
      exact this hjv
  · rintro ⟨h1, h2⟩
    obtain ⟨h, hv⟩ := List.getElem?_eq_some_iff.mp h1
    refine ⟨h, by simpa using hv, ?_⟩
    intro j hj
    have hjl : j < memory.length := Nat.lt_trans hj h
    have := h2 j hj
    rw [List.getElem?_eq_getElem hjl] at this
    simpa using this

theorem findVictimFrame_none {memory : List Int} {v : Int} :
    findVictimFrame memory v = none ↔ v ∉ memory := by
  unfold findVictimFrame
  rw [List.findIdx?_eq_none_iff]
  constructor
  · intro h hv
    simpa using h v hv
  · intro h x hx
    simp only [decide_eq_false_iff_not]
    rintro rfl
    exact h hx

theorem exists_lowestAt {memory : List Int} {v : Int} (h : v ∈ memory) :
    ∃ i, LowestAt memory v i := by
  cases hf : findVictimFrame memory v with
  | none => exact absurd h (findVictimFrame_none.mp hf)
  | some i => exact ⟨i, findVictimFrame_some.mp hf⟩

theorem LowestAt.mem {memory : List Int} {v : Int} {i : Nat} (h : LowestAt memory v i) :
    v ∈ memory :=
  List.getElem?_mem h.1

theorem LowestAt.lt_length {memory : List Int} {v : Int} {i : Nat} (h : LowestAt memory v i) :
    i < memory.length :=
  (List.getElem?_eq_some_iff.mp h.1).1

theorem LowestAt.unique {memory : List Int} {v : Int} {i j : Nat}
    (hi : LowestAt memory v i) (hj : LowestAt memory v j) : i = j := by
  rcases Nat.lt_trichotomy i j with h | h | h
  · exact absurd hi.1 (hj.2 i h)
  · exact h
  · exact absurd hj.1 (hi.2 j h)

/-- A table whose occupants are references in the range of the data model
holds a reference exactly when the residency loop finds it, whatever the
reference looked for. -/
theorem findResident_map_pack_none {occs : List (Int × Int)} {p n : Int}
    (hocc : ∀ r ∈ occs, ValidRef r) (hnr : (p, n) ∉ occs) :
    findResident (occs.map pack) p n = none := by
  unfold findResident
  rw [List.findIdx?_eq_none_iff]
  intro m hm
  obtain ⟨r, hr, rfl⟩ := List.mem_map.mp hm
  cases hi : isPage p n (pack r) with
  | false => rfl
  | true =>
    exfalso
    simp only [isPage, Bool.and_eq_true, decide_eq_true_eq] at hi
    have hd := decode_pack (hocc r hr)
    rw [hi.2.1, hi.2.2] at hd
    exact hnr (hd ▸ hr)

/-! ## The victim loops -/

theorem lruScan_spec (accessTime : Int × Int → Int) :
    ∀ (memory : List Int) (i : Nat) (minTime victimFrame victimPage : Int),
      (lruScan accessTime memory i (minTime, victimFrame, victimPage)
          = (minTime, victimFrame, victimPage)
        ∧ ∀ y ∈ memory, minTime ≤ frameTime accessTime y)
      ∨ ∃ k m, memory[k]? = some m
        ∧ lruScan accessTime memory i (minTime, victimFrame, victimPage)
            = (frameTime accessTime m, ((i + k : Nat) : Int), m)
        ∧ frameTime accessTime m < minTime
        ∧ (∀ j y, j < k → memory[j]? = some y → frameTime accessTime m < frameTime accessTime y)
        ∧ ∀ y ∈ memory, frameTime accessTime m ≤ frameTime accessTime y := by
  intro memory
  induction memory with
  | nil => intro i a b c; left; simp [lruScan]
  | cons m ms ih =>
    intro i minTime victimFrame victimPage
    by_cases hlt : frameTime accessTime m < minTime
    · have hstep : lruScan accessTime (m :: ms) i (minTime, victimFrame, victimPage)
          = lruScan accessTime ms (i + 1) (frameTime accessTime m, (i : Int), m) := by
        have hlt2 : accessTime (m.tdiv 10000, m.tmod 10000) < minTime := hlt
        simp only [lruScan]
        rw [if_pos hlt2]; rfl
      right
      rcases ih (i + 1) (frameTime accessTime m) (i : Int) m with
        ⟨h1, h2⟩ | ⟨k, m', hk, h1, h2, h3, h4⟩
      · refine ⟨0, m, by simp, ?_, hlt, ?_, ?_⟩
        · rw [hstep, h1]; simp
        · intro j y hj; omega
        · intro y hy
          rcases List.mem_cons.mp hy with rfl | hy
          · exact le_refl _
          · exact h2 y hy
      · refine ⟨k + 1, m', by simpa using hk, ?_, lt_trans h2 hlt, ?_, ?_⟩
        · rw [hstep, h1]
          have : i + 1 + k = i + (k + 1) := by omega
          rw [this]
        · intro j y hj hy
          cases j with
          | zero => simp at hy; subst hy; exact h2
          | succ j => exact h3 j y (by omega) (by simpa using hy)
        · intro y hy
          rcases List.mem_cons.mp hy with rfl | hy
          · exact le_of_lt h2
          · exact h4 y hy
    · have hstep : lruScan accessTime (m :: ms) i (minTime, victimFrame, victimPage)
          = lruScan accessTime ms (i + 1) (minTime, victimFrame, victimPage) := by
        have hlt2 : ¬ accessTime (m.tdiv 10000, m.tmod 10000) < minTime := hlt
        simp only [lruScan]
        rw [if_neg hlt2]
      rcases ih (i + 1) minTime victimFrame victimPage with
        ⟨h1, h2⟩ | ⟨k, m', hk, h1, h2, h3, h4⟩
      · left
        refine ⟨by rw [hstep, h1], ?_⟩
        intro y hy
        rcases List.mem_cons.mp hy with rfl | hy
        · exact not_lt.mp hlt
        · exact h2 y hy
      · right
        refine ⟨k + 1, m', by simpa using hk, ?_, h2, ?_, ?_⟩
        · rw [hstep, h1]
          have : i + 1 + k = i + (k + 1) := by omega
          rw [this]
        · intro j y hj hy
          cases j with
          | zero => simp at hy; subst hy; exact lt_of_lt_of_le h2 (not_lt.mp hlt)
          | succ j => exact h3 j y (by omega) (by simpa using hy)
        · intro y hy
          rcases List.mem_cons.mp hy with rfl | hy
          · exact le_of_lt (lt_of_lt_of_le h2 (not_lt.mp hlt))
          · exact h4 y hy

theorem optimalScan_spec (fut : List (Int × Int)) :
    ∀ (memory : List Int) (i : Nat) (farthest victimFrame victimPage : Int),
      (optimalScan fut memory i (farthest, victimFrame, victimPage)
          = (farthest, victimFrame, victimPage)
        ∧ ∀ y ∈ memory, nextUse fut y ≤ farthest)
      ∨ ∃ k m, memory[k]? = some m
        ∧ optimalScan fut memory i (farthest, victimFrame, victimPage)
            = (nextUse fut m, ((i + k : Nat) : Int), m)
        ∧ farthest < nextUse fut m
        ∧ (∀ j y, j < k → memory[j]? = some y → nextUse fut y < nextUse fut m)
        ∧ ∀ y ∈ memory, nextUse fut y ≤ nextUse fut m := by
  intro memory
  induction memory with
  | nil => intro i a b c; left; simp [optimalScan]
  | cons m ms ih =>
    intro i farthest victimFrame victimPage
    by_cases hlt : nextUse fut m > farthest
    · have hstep : optimalScan fut (m :: ms) i (farthest, victimFrame, victimPage)
          = optimalScan fut ms (i + 1) (nextUse fut m, (i : Int), m) := by
        simp only [optimalScan]
        rw [if_pos hlt]
      right
      rcases ih (i + 1) (nextUse fut m) (i : Int) m with
        ⟨h1, h2⟩ | ⟨k, m', hk, h1, h2, h3, h4⟩
      · refine ⟨0, m, by simp, ?_, hlt, ?_, ?_⟩
        · rw [hstep, h1]; simp
        · intro j y hj; omega
        · intro y hy
          rcases List.mem_cons.mp hy with rfl | hy
          · exact le_refl _
          · exact h2 y hy
      · refine ⟨k + 1, m', by simpa using hk, ?_, lt_trans hlt h2, ?_, ?_⟩
        · rw [hstep, h1]
          have : i + 1 + k = i + (k + 1) := by omega
          rw [this]
        · intro j y hj hy
          cases j with
          | zero => simp at hy; subst hy; exact h2
          | succ j => exact h3 j y (by omega) (by simpa using hy)
        · intro y hy
          rcases List.mem_cons.mp hy with rfl | hy
          · exact le_of_lt h2
          · exact h4 y hy
    · have hstep : optimalScan fut (m :: ms) i (farthest, victimFrame, victimPage)
          = optimalScan fut ms (i + 1) (farthest, victimFrame, victimPage) := by
        simp only [optimalScan]
        rw [if_neg hlt]
      rcases ih (i + 1) farthest victimFrame victimPage with
        ⟨h1, h2⟩ | ⟨k, m', hk, h1, h2, h3, h4⟩
      · left
        refine ⟨by rw [hstep, h1], ?_⟩
        intro y hy
        rcases List.mem_cons.mp hy with rfl | hy
        · exact not_lt.mp hlt
        · exact h2 y hy
      · right
        refine ⟨k + 1, m', by simpa using hk, ?_, h2, ?_, ?_⟩
        · rw [hstep, h1]
          have : i + 1 + k = i + (k + 1) := by omega
          rw [this]
        · intro j y hj hy
          cases j with
          | zero => simp at hy; subst hy; exact lt_of_le_of_lt (not_lt.mp hlt) h2
          | succ j => exact h3 j y (by omega) (by simpa using hy)
        · intro y hy
          rcases List.mem_cons.mp hy with rfl | hy
          · exact le_of_lt (lt_of_le_of_lt (not_lt.mp hlt) h2)
          · exact h4 y hy

theorem nextUseFrom_nonneg (pid pnum : Int) :
    ∀ (fut : List (Int × Int)) (j : Nat), 0 ≤ nextUseFrom pid pnum fut j := by
  intro fut
  induction fut with
  | nil => intro j; simp [nextUseFrom, INT_MAX]
  | cons r rs ih =>
    intro j
    simp only [nextUseFrom]
    split
    · exact Int.ofNat_nonneg j
    · exact ih (j + 1)

theorem nextUse_nonneg (fut : List (Int × Int)) (m : Int) : 0 ≤ nextUse fut m :=
  nextUseFrom_nonneg _ _ fut 0

/-- The LRU loop from its initial accumulator: when some frame has a
timestamp below `LONG_MAX`, the loop ends at the lowest frame of minimal
timestamp. -/
theorem lruScan_found {accessTime : Int × Int → Int} {memory : List Int}
    (h : ∃ y ∈ memory, frameTime accessTime y < LONG_MAX) :
    ∃ (k : Nat) (m : Int), memory[k]? = some m
      ∧ lruScan accessTime memory 0 (LONG_MAX, -1, -1) = (frameTime accessTime m, (k : Int), m)
      ∧ (∀ (j : Nat) (y : Int), j < k → memory[j]? = some y → frameTime accessTime m < frameTime accessTime y)
      ∧ ∀ y ∈ memory, frameTime accessTime m ≤ frameTime accessTime y := by
  rcases lruScan_spec accessTime memory 0 LONG_MAX (-1) (-1) with
    ⟨_, h2⟩ | ⟨k, m, hk, h1, _, h3, h4⟩
  · obtain ⟨y, hy, hlt⟩ := h
    exact absurd hlt (not_lt.mpr (h2 y hy))
  · refine ⟨k, m, hk, ?_, h3, h4⟩
    rw [h1]; simp

/-- The optimal loop from its initial accumulator: on a non-empty frame
table it ends at the lowest frame of maximal `nextUse`. -/
theorem optimalScan_found (fut : List (Int × Int)) {memory : List Int} (h : memory ≠ []) :
    ∃ (k : Nat) (m : Int), memory[k]? = some m
      ∧ optimalScan fut memory 0 (-1, -1, -1) = (nextUse fut m, (k : Int), m)
      ∧ (∀ (j : Nat) (y : Int), j < k → memory[j]? = some y → nextUse fut y < nextUse fut m)
      ∧ ∀ y ∈ memory, nextUse fut y ≤ nextUse fut m := by
  rcases optimalScan_spec fut memory 0 (-1) (-1) (-1) with
    ⟨_, h2⟩ | ⟨k, m, hk, h1, _, h3, h4⟩
  · obtain ⟨y, ys, rfl⟩ := List.exists_cons_of_ne_nil h
    have h5 := h2 y (List.mem_cons_self _ _)
    have h6 := nextUse_nonneg fut y
    omega
  · refine ⟨k, m, hk, ?_, h3, h4⟩
    rw [h1]; simp

/-! ## The three branches of each policy -/

theorem fifo_hit {s : MemoryManager} {p n : Int} {i : Nat}
    (h : findResident s.memory p n = some i) :
    fifoPageReplacement s p n
      = some (generateResponse { s with pageHits := s.pageHits + 1 } "HIT" p n i (-1),
          { s with pageHits := s.pageHits + 1 }) := by
  simp only [fifoPageReplacement, h]

theorem fifo_load {s : MemoryManager} {p n : Int} {i : Nat}
    (h : findResident s.memory p n = none) (he : findEmpty s.memory = some i) :
    fifoPageReplacement s p n
      = some (generateResponse
            { s with
              pageFaults := s.pageFaults + 1
              memory := s.memory.set i (packInt (p, n))
              fifoQueue := s.fifoQueue ++ [(p, n)]
              swapIns := s.swapIns + 1 } "MISS" p n i (-1),
          { s with
            pageFaults := s.pageFaults + 1
            memory := s.memory.set i (packInt (p, n))
            fifoQueue := s.fifoQueue ++ [(p, n)]
            swapIns := s.swapIns + 1 }) := by
  simp only [fifoPageReplacement, h, he, packInt]

theorem fifo_evict {s : MemoryManager} {p n : Int} {victim : Int × Int}
    {rest : List (Int × Int)} {v : Nat}
    (h : findResident s.memory p n = none) (he : findEmpty s.memory = none)
    (hq : s.fifoQueue = victim :: rest) (hv : findVictimFrame s.memory (packInt victim) = some v) :
    fifoPageReplacement s p n
      = some (generateResponse
            { s with
              pageFaults := s.pageFaults + 1
              memory := s.memory.set v (packInt (p, n))
              fifoQueue := rest ++ [(p, n)]
              swapOuts := s.swapOuts + 1
              swapIns := s.swapIns + 1 } "MISS" p n v (packInt victim),
          { s with
            pageFaults := s.pageFaults + 1
            memory := s.memory.set v (packInt (p, n))
            fifoQueue := rest ++ [(p, n)]
            swapOuts := s.swapOuts + 1
            swapIns := s.swapIns + 1 }) := by
  simp only [packInt] at hv
  simp only [fifoPageReplacement, h, he, hq, hv, packInt]

theorem lru_hit {s : MemoryManager} {p n : Int} {i : Nat}
    (h : findResident s.memory p n = some i) :
    lruPageReplacement s p n
      = some (generateResponse
            { s with
              currentTime := s.currentTime + 1
              pageHits := s.pageHits + 1
              accessTime := setTime s.accessTime (p, n) (s.currentTime + 1) } "HIT" p n i (-1),
          { s with
            currentTime := s.currentTime + 1
            pageHits := s.pageHits + 1
            accessTime := setTime s.accessTime (p, n) (s.currentTime + 1) }) := by
  simp only [lruPageReplacement, h]

theorem lru_load {s : MemoryManager} {p n : Int} {i : Nat}
    (h : findResident s.memory p n = none) (he : findEmpty s.memory = some i) :
    lruPageReplacement s p n
      = some (generateResponse
            { s with
              currentTime := s.currentTime + 1
              pageFaults := s.pageFaults + 1
              memory := s.memory.set i (packInt (p, n))
              accessTime := setTime s.accessTime (p, n) (s.currentTime + 1)
              swapIns := s.swapIns + 1 } "MISS" p n i (-1),
          { s with
            currentTime := s.currentTime + 1
            pageFaults := s.pageFaults + 1
            memory := s.memory.set i (packInt (p, n))
            accessTime := setTime s.accessTime (p, n) (s.currentTime + 1)
            swapIns := s.swapIns + 1 }) := by
  simp only [lruPageReplacement, h, he, packInt]

theorem lru_evict {s : MemoryManager} {p n : Int} {t old : Int} {v : Nat}
    (h : findResident s.memory p n = none) (he : findEmpty s.memory = none)
    (hscan : lruScan s.accessTime s.memory 0 (LONG_MAX, -1, -1) = (t, (v : Int), old)) :
    lruPageReplacement s p n
      = some (generateResponse
            { s with
              currentTime := s.currentTime + 1
              pageFaults := s.pageFaults + 1
              memory := s.memory.set v (packInt (p, n))
              accessTime := setTime s.accessTime (p, n) (s.currentTime + 1)
              swapOuts := s.swapOuts + 1
              swapIns := s.swapIns + 1 } "MISS" p n v old,
          { s with
            currentTime := s.currentTime + 1
            pageFaults := s.pageFaults + 1
            memory := s.memory.set v (packInt (p, n))
            accessTime := setTime s.accessTime (p, n) (s.currentTime + 1)
            swapOuts := s.swapOuts + 1
            swapIns := s.swapIns + 1 }) := by
  have hnn : ¬ ((v : Int) < 0) := by omega
  simp only [lruPageReplacement, h, he, hscan, hnn, if_false, Int.toNat_ofNat, packInt]

theorem optimal_hit {s : MemoryManager} {p n : Int} {fut : List (Int × Int)} {i : Nat}
    (h : findResident s.memory p n = some i) :
    optimalPageReplacement s p n fut
      = some (generateResponse { s with pageHits := s.pageHits + 1 } "HIT" p n i (-1),
          { s with pageHits := s.pageHits + 1 }) := by
  simp only [optimalPageReplacement, h]

theorem optimal_load {s : MemoryManager} {p n : Int} {fut : List (Int × Int)} {i : Nat}
    (h : findResident s.memory p n = none) (he : findEmpty s.memory = some i) :
    optimalPageReplacement s p n fut
      = some (generateResponse
            { s with
              pageFaults := s.pageFaults + 1
              memory := s.memory.set i (packInt (p, n))
              swapIns := s.swapIns + 1 } "MISS" p n i (-1),
          { s with
            pageFaults := s.pageFaults + 1
            memory := s.memory.set i (packInt (p, n))
            swapIns := s.swapIns + 1 }) := by
  simp only [optimalPageReplacement, h, he, packInt]

theorem optimal_evict {s : MemoryManager} {p n : Int} {fut : List (Int × Int)}
    {t old : Int} {v : Nat}
    (h : findResident s.memory p n = none) (he : findEmpty s.memory = none)
    (hscan : optimalScan fut s.memory 0 (-1, -1, -1) = (t, (v : Int), old)) :
    optimalPageReplacement s p n fut
      = some (generateResponse
            { s with
              pageFaults := s.pageFaults + 1
              memory := s.memory.set v (packInt (p, n))
              swapOuts := s.swapOuts + 1
              swapIns := s.swapIns + 1 } "MISS" p n v old,
          { s with
            pageFaults := s.pageFaults + 1
            memory := s.memory.set v (packInt (p, n))
            swapOuts := s.swapOuts + 1
            swapIns := s.swapIns + 1 }) := by
  have hnn : ¬ ((v : Int) < 0) := by omega
  simp only [optimalPageReplacement, h, he, hscan, hnn, if_false, Int.toNat_ofNat, packInt]

/-! ## The lookahead distance -/

theorem distance_le_length (fut : List (Int × Int)) (r : Int × Int) :
    distance fut r ≤ fut.length := by
  induction fut with
  | nil => simp [distance]
  | cons x xs ih =>
    simp only [distance, List.length_cons]
    split <;> omega

theorem distance_lt_length {fut : List (Int × Int)} {r : Int × Int} (h : r ∈ fut) :
    distance fut r < fut.length := by
  induction fut with
  | nil => simp at h
  | cons x xs ih =>
    simp only [distance, List.length_cons]
    split
    · omega
    · rename_i hx
      rcases List.mem_cons.mp h with rfl | h
      · exact absurd rfl hx
      · have := ih h; omega

theorem distance_eq_length {fut : List (Int × Int)} {r : Int × Int} (h : r ∉ fut) :
    distance fut r = fut.length := by
  induction fut with
  | nil => simp [distance]
  | cons x xs ih =>
    simp only [List.mem_cons, not_or] at h
    have hx : ¬ x = r := fun e => h.1 e.symm
    simp only [distance, hx, if_false, List.length_cons, ih h.2]

/-- The distance of a reference that occurs is the index of its first
occurrence. -/
theorem distance_first_occurrence {fut : List (Int × Int)} {r : Int × Int} (h : r ∈ fut) :
    fut[distance fut r]? = some r ∧ ∀ j, j < distance fut r → fut[j]? ≠ some r := by
  induction fut with
  | nil => simp at h
  | cons x xs ih =>
    by_cases hx : x = r
    · simp [distance, hx]
    · have hr : r ∈ xs := by
        rcases List.mem_cons.mp h with rfl | h
        · exact absurd rfl hx
        · exact h
      obtain ⟨h1, h2⟩ := ih hr
      simp only [distance, hx, if_false]
      refine ⟨by simpa using h1, ?_⟩
      intro j hj
      cases j with
      | zero => simpa using hx
      | succ j => simpa using h2 j (by omega)

theorem nextUseFrom_eq (p n : Int) :
    ∀ (fut : List (Int × Int)) (j : Nat),
      nextUseFrom p n fut j
        = if (p, n) ∈ fut then ((j + distance fut (p, n) : Nat) : Int) else INT_MAX := by
  intro fut
  induction fut with
  | nil => intro j; simp [nextUseFrom]
  | cons r rs ih =>
    intro j
    by_cases hr : r.1 = p ∧ r.2 = n
    · have hr2 : r = (p, n) := Prod.ext hr.1 hr.2
      simp [nextUseFrom, hr, distance, hr2]
    · have hr2 : r ≠ (p, n) := fun h => hr (by rw [h]; exact ⟨rfl, rfl⟩)
      have hr3 : (p, n) ≠ r := fun h => hr2 h.symm
      simp only [nextUseFrom, hr, if_false, distance, ih (j + 1), hr2]
      simp only [List.mem_cons, hr3, false_or]
      split
      · congr 1; omega
      · rfl

theorem nextUse_pack {r : Int × Int} (h : ValidRef r) (fut : List (Int × Int)) :
    nextUse fut (pack r) = if r ∈ fut then (distance fut r : Int) else INT_MAX := by
  have hd := decode_pack h
  simp only [Prod.ext_iff] at hd
  unfold nextUse
  rw [hd.1, hd.2, nextUseFrom_eq]
  simp

/-- With a lookahead whose indices fit in an `int`, `nextUse` orders the
frames as the distance of their occupants does. -/
theorem nextUse_lt_iff {r u : Int × Int} (hr : ValidRef r) (hu : ValidRef u)
    {fut : List (Int × Int)} (hlen : (fut.length : Int) ≤ INT_MAX) :
    nextUse fut (pack u) < nextUse fut (pack r) ↔ distance fut u < distance fut r := by
  rw [nextUse_pack hr, nextUse_pack hu]
  by_cases h1 : r ∈ fut <;> by_cases h2 : u ∈ fut
  · simp only [h1, h2, if_true]; omega
  · have := distance_lt_length h1
    have := distance_eq_length h2
    simp only [h1, h2, if_true, if_false]; omega
  · have := distance_lt_length h2
    have := distance_eq_length h1
    simp only [h1, h2, if_true, if_false]; omega
  · have := distance_eq_length h1
    have := distance_eq_length h2
    simp only [h1, h2, if_false]; omega

theorem nextUse_le_iff {r u : Int × Int} (hr : ValidRef r) (hu : ValidRef u)
    {fut : List (Int × Int)} (hlen : (fut.length : Int) ≤ INT_MAX) :
    nextUse fut (pack u) ≤ nextUse fut (pack r) ↔ distance fut u ≤ distance fut r := by
  rw [← not_lt, ← not_lt, nextUse_lt_iff hu hr hlen]

theorem not_mem_of_forall_ne_neg_one {memory : List Int} (h : ∀ m ∈ memory, m ≠ -1) :
    (-1 : Int) ∉ memory := fun hm => h _ hm rfl

/-! ## Single calls on an arbitrary state -/

/-- C5: when the referenced page (`processId >= 0`, `0 <= pageNumber < 10000`)
is resident, each of the three policies reports `HIT` with the lowest frame
holding the page and the no-victim sentinel `-1`, increments `pageHits` by one
and changes nothing else; FIFO leaves its queue as it is, and LRU changes only
its clock and the timestamp of the referenced page. -/
theorem hit_keeps_frames (s : MemoryManager) (p n : Int) (fut : List (Int × Int))
    (hv : ValidRef (p, n)) (hres : pack (p, n) ∈ s.memory) :
    ∃ i, LowestAt s.memory (pack (p, n)) i
      ∧ fifoPageReplacement s p n
          = some ({ type := "HIT", processId := p, pageNumber := n, frameNumber := i,
                    victimPage := -1, pageFaults := s.pageFaults,
                    pageHits := s.pageHits + 1, swapOuts := s.swapOuts,
                    swapIns := s.swapIns },
                  { s with pageHits := s.pageHits + 1 })
      ∧ optimalPageReplacement s p n fut
          = some ({ type := "HIT", processId := p, pageNumber := n, frameNumber := i,
                    victimPage := -1, pageFaults := s.pageFaults,
                    pageHits := s.pageHits + 1, swapOuts := s.swapOuts,
                    swapIns := s.swapIns },
                  { s with pageHits := s.pageHits + 1 })
      ∧ lruPageReplacement s p n
          = some ({ type := "HIT", processId := p, pageNumber := n, frameNumber := i,
                    victimPage := -1, pageFaults := s.pageFaults,
                    pageHits := s.pageHits + 1, swapOuts := s.swapOuts,
                    swapIns := s.swapIns },
                  { s with
                    pageHits := s.pageHits + 1
                    currentTime := s.currentTime + 1
                    accessTime := fun k =>
                      if k = (p, n) then s.currentTime + 1 else s.accessTime k }) := by
  obtain ⟨i, hi⟩ := exists_lowestAt hres
  have hf : findResident s.memory p n = some i := by
    rw [findResident_eq hv]; exact findVictimFrame_some.mpr hi
  exact ⟨i, hi, fifo_hit hf, optimal_hit hf, lru_hit hf⟩

/-- Witness of C5 on the sample full table: page `(0, 2)` sits in frame 2. -/
theorem hit_keeps_frames_witness :
    ValidRef (0, 2) ∧ pack (0, 2) ∈ sampleFull.memory
      ∧ (∃ i, LowestAt sampleFull.memory (pack (0, 2)) i
        ∧ fifoPageReplacement sampleFull 0 2
            = some ({ type := "HIT", processId := 0, pageNumber := 2, frameNumber := i,
                      victimPage := -1, pageFaults := sampleFull.pageFaults,
                      pageHits := sampleFull.pageHits + 1, swapOuts := sampleFull.swapOuts,
                      swapIns := sampleFull.swapIns },
                    { sampleFull with pageHits := sampleFull.pageHits + 1 })
        ∧ optimalPageReplacement sampleFull 0 2 []
            = some ({ type := "HIT", processId := 0, pageNumber := 2, frameNumber := i,
                      victimPage := -1, pageFaults := sampleFull.pageFaults,
                      pageHits := sampleFull.pageHits + 1, swapOuts := sampleFull.swapOuts,
                      swapIns := sampleFull.swapIns },
                    { sampleFull with pageHits := sampleFull.pageHits + 1 })
        ∧ lruPageReplacement sampleFull 0 2
            = some ({ type := "HIT", processId := 0, pageNumber := 2, frameNumber := i,
                      victimPage := -1, pageFaults := sampleFull.pageFaults,
                      pageHits := sampleFull.pageHits + 1, swapOuts := sampleFull.swapOuts,
                      swapIns := sampleFull.swapIns },
                    { sampleFull with
                      pageHits := sampleFull.pageHits + 1
                      currentTime := sampleFull.currentTime + 1
                      accessTime := fun k =>
                        if k = (0, 2) then sampleFull.currentTime + 1
                        else sampleFull.accessTime k }))
      ∧ (fifoPageReplacement sampleFull 0 2).map (fun x => (x.1, x.2.memory))
          = some ({ type := "HIT", processId := 0, pageNumber := 2, frameNumber := 2,
                    victimPage := -1, pageFaults := 4, pageHits := 1, swapOuts := 0,
                    swapIns := 4 }, [0, 1, 2, 3]) :=
  ⟨by decide, by decide, hit_keeps_frames sampleFull 0 2 [] (by decide) (by decide), by decide⟩

/-- C6, the claim as stated fails: on the sample half-empty table the
reference `(429496, 7295)` has `processId >= 0` and `0 <= pageNumber < 10000`,
is not resident, and its packed value 4294967295 is reduced to the `int` -1,
the empty marker: each policy reports `MISS` in frame 2 and frame 2 is still
empty afterwards. The reference `(214749, 0)` leaves -2147477296 in frame 2,
which decodes to `(-214747, -7296)`, not to the referenced page. -/
theorem load_overflow_counterexample :
    ValidRef (429496, 7295) ∧ pack (429496, 7295) ∉ samplePartial.memory
      ∧ (-1 : Int) ∈ samplePartial.memory
      ∧ (fifoPageReplacement samplePartial 429496 7295).map
          (fun x => (x.1.type, x.1.frameNumber, x.1.victimPage, x.2.memory))
          = some ("MISS", 2, -1, [0, 1, -1, -1])
      ∧ (lruPageReplacement samplePartial 429496 7295).map
          (fun x => (x.1.type, x.1.frameNumber, x.1.victimPage, x.2.memory))
          = some ("MISS", 2, -1, [0, 1, -1, -1])
      ∧ (optimalPageReplacement samplePartial 429496 7295 []).map
          (fun x => (x.1.type, x.1.frameNumber, x.1.victimPage, x.2.memory))
          = some ("MISS", 2, -1, [0, 1, -1, -1])
      ∧ isPage 429496 7295 (-1) = false
      ∧ ValidRef (214749, 0)
      ∧ (fifoPageReplacement samplePartial 214749 0).map
          (fun x => (x.1.type, x.1.frameNumber, x.2.memory))
          = some ("MISS", 2, [0, 1, -2147477296, -1])
      ∧ isPage 214749 0 (-2147477296) = false
      ∧ isPage (-214747) (-7296) (-2147477296) = true := by
  refine ⟨by decide, by decide, by decide, by decide, by decide, by decide, by decide,
    by decide, by decide, by decide, by decide⟩

/-- C6 (amended): when the referenced page (`processId >= 0`,
`0 <= pageNumber < 10000`) is not resident and some frame is empty, each of the
three policies reports `MISS` with the lowest empty frame and
`victimPage = -1`; that frame then holds the `int` value of
`processId * 10000 + pageNumber`, which is the packed identity of the page when
it does not exceed `INT_MAX` (no `int` overflow), every other frame is
unchanged, `pageFaults` and `swapIns` grow by one, `pageHits` and `swapOuts` are
unchanged. -/
theorem load_fills_lowest_empty (s : MemoryManager) (p n : Int) (fut : List (Int × Int))
    (hv : ValidRef (p, n)) (hnr : pack (p, n) ∉ s.memory) (hempty : (-1 : Int) ∈ s.memory) :
    ∃ i, LowestAt s.memory (-1) i
      ∧ fifoPageReplacement s p n
          = some ({ type := "MISS", processId := p, pageNumber := n, frameNumber := i,
                    victimPage := -1, pageFaults := s.pageFaults + 1,
                    pageHits := s.pageHits, swapOuts := s.swapOuts,
                    swapIns := s.swapIns + 1 },
                  { s with
                    memory := s.memory.set i (packInt (p, n))
                    pageFaults := s.pageFaults + 1
                    swapIns := s.swapIns + 1
                    fifoQueue := s.fifoQueue ++ [(p, n)] })
      ∧ lruPageReplacement s p n
          = some ({ type := "MISS", processId := p, pageNumber := n, frameNumber := i,
                    victimPage := -1, pageFaults := s.pageFaults + 1,
                    pageHits := s.pageHits, swapOuts := s.swapOuts,
                    swapIns := s.swapIns + 1 },
                  { s with
                    memory := s.memory.set i (packInt (p, n))
                    pageFaults := s.pageFaults + 1
                    swapIns := s.swapIns + 1
                    currentTime := s.currentTime + 1
                    accessTime := fun k =>
                      if k = (p, n) then s.currentTime + 1 else s.accessTime k })
      ∧ optimalPageReplacement s p n fut
          = some ({ type := "MISS", processId := p, pageNumber := n, frameNumber := i,
                    victimPage := -1, pageFaults := s.pageFaults + 1,
                    pageHits := s.pageHits, swapOuts := s.swapOuts,
                    swapIns := s.swapIns + 1 },
                  { s with
                    memory := s.memory.set i (packInt (p, n))
                    pageFaults := s.pageFaults + 1
                    swapIns := s.swapIns + 1 })
      ∧ (s.memory.set i (packInt (p, n)))[i]? = some (packInt (p, n))
      ∧ (∀ j, j ≠ i → (s.memory.set i (packInt (p, n)))[j]? = s.memory[j]?)
      ∧ (pack (p, n) ≤ INT_MAX → packInt (p, n) = pack (p, n)) := by
  obtain ⟨i, hi⟩ := exists_lowestAt hempty
  have hf : findResident s.memory p n = none := by
    rw [findResident_eq hv]; exact findVictimFrame_none.mpr hnr
  have he : findEmpty s.memory = some i := by
    rw [findEmpty_eq]; exact findVictimFrame_some.mpr hi
  refine ⟨i, hi, fifo_load hf he, lru_load hf he, optimal_load hf he, ?_, ?_,
    fun hfit => (exact_of_valid hv hfit).packInt_eq⟩
  · rw [List.getElem?_set]; simp [hi.lt_length]
  · intro j hj
    rw [List.getElem?_set]; simp [Ne.symm hj]

/-- Witness of C6 (amended) on the sample half-empty table: page `(0, 7)`
goes to frame 2. -/
theorem load_fills_lowest_empty_witness :
    (fifoPageReplacement samplePartial 0 7).map (fun x => (x.1, x.2.memory))
        = some ({ type := "MISS", processId := 0, pageNumber := 7, frameNumber := 2,
                  victimPage := -1, pageFaults := 3, pageHits := 0, swapOuts := 0,
                  swapIns := 3 }, [0, 1, 7, -1])
      ∧ ∃ i, LowestAt samplePartial.memory (-1) i
        ∧ fifoPageReplacement samplePartial 0 7
          = some ({ type := "MISS", processId := 0, pageNumber := 7, frameNumber := i,
                    victimPage := -1, pageFaults := samplePartial.pageFaults + 1,
                    pageHits := samplePartial.pageHits, swapOuts := samplePartial.swapOuts,
                    swapIns := samplePartial.swapIns + 1 },
                  { samplePartial with
                    memory := samplePartial.memory.set i (packInt (0, 7))
                    pageFaults := samplePartial.pageFaults + 1
                    swapIns := samplePartial.swapIns + 1
                    fifoQueue := samplePartial.fifoQueue ++ [(0, 7)] })
        ∧ packInt (0, 7) = pack (0, 7) := by
  refine ⟨by decide, ?_⟩
  obtain ⟨i, h1, h2, _, _, _, _, h7⟩ :=
    load_fills_lowest_empty samplePartial 0 7 [] (by decide) (by decide) (by decide)
  exact ⟨i, h1, h2, h7 (by decide)⟩

/-- C7, the claim as stated fails: on the sample full table the reference
`(429496, 7295)` has `processId >= 0` and `0 <= pageNumber < 10000`, is not
resident, and its packed value 4294967295 is reduced to the `int` -1: each
policy reports `MISS` with a victim and the frame of the victim is empty
afterwards instead of holding the new reference (the FIFO head `(0, 0)` is
resident). The reference `(214749, 0)` leaves -2147477296 in that frame, which
does not decode to the referenced page. -/
theorem evict_overflow_counterexample :
    ValidRef (429496, 7295) ∧ sampleFull.memory ≠ []
      ∧ (∀ m ∈ sampleFull.memory, m ≠ -1)
      ∧ pack (429496, 7295) ∉ sampleFull.memory
      ∧ sampleFull.fifoQueue.head? = some (0, 0) ∧ pack (0, 0) ∈ sampleFull.memory
      ∧ (fifoPageReplacement sampleFull 429496 7295).map
          (fun x => (x.1.type, x.1.frameNumber, x.1.victimPage, x.2.memory))
          = some ("MISS", 0, 0, [-1, 1, 2, 3])
      ∧ (lruPageReplacement sampleFull 429496 7295).map
          (fun x => (x.1.type, x.1.frameNumber, x.1.victimPage, x.2.memory))
          = some ("MISS", 0, 0, [-1, 1, 2, 3])
      ∧ (optimalPageReplacement sampleFull 429496 7295 [(0, 0)]).map
          (fun x => (x.1.type, x.1.frameNumber, x.1.victimPage, x.2.memory))
          = some ("MISS", 1, 1, [0, -1, 2, 3])
      ∧ isPage 429496 7295 (-1) = false
      ∧ ValidRef (214749, 0)
      ∧ (lruPageReplacement sampleFull 214749 0).map
          (fun x => (x.1.type, x.1.frameNumber, x.1.victimPage, x.2.memory))
          = some ("MISS", 0, 0, [-2147477296, 1, 2, 3])
      ∧ isPage 214749 0 (-2147477296) = false := by
  refine ⟨by decide, by decide, by decide, by decide, by decide, by decide, by decide,
    by decide, by decide, by decide, by decide, by decide, by decide⟩

/-- C7 (amended): on a full table of `N >= 1` frames, a reference
(`processId >= 0`, `0 <= pageNumber < 10000`) that is not resident makes LRU
(its clock not yet at `LONG_MAX`), Optimal, and FIFO when the head of its queue
is resident (the frame search compares the `int` value of the head), replace
the occupant of exactly one frame: that frame now holds the `int` value of
`processId * 10000 + pageNumber`, which is the packed identity of the new
reference when it does not exceed `INT_MAX` (no `int` overflow), and every
other frame is unchanged, the response is `MISS` with that frame and the packed
identity of the previous occupant as `victimPage`, `pageFaults`, `swapOuts`
and `swapIns` grow by one and `pageHits` is unchanged. -/
theorem evict_replaces_one_frame (s : MemoryManager) (p n : Int) (fut : List (Int × Int))
    (hv : ValidRef (p, n)) (hN : s.memory ≠ []) (hfull : ∀ m ∈ s.memory, m ≠ -1)
    (hnr : pack (p, n) ∉ s.memory) :
    (∀ victim rest, s.fifoQueue = victim :: rest → packInt victim ∈ s.memory →
      ∃ v, LowestAt s.memory (packInt victim) v ∧ packInt victim ≠ pack (p, n)
        ∧ fifoPageReplacement s p n
          = some ({ type := "MISS", processId := p, pageNumber := n, frameNumber := v,
                    victimPage := packInt victim, pageFaults := s.pageFaults + 1,
                    pageHits := s.pageHits, swapOuts := s.swapOuts + 1,
                    swapIns := s.swapIns + 1 },
                  { s with
                    memory := s.memory.set v (packInt (p, n))
                    pageFaults := s.pageFaults + 1
                    swapOuts := s.swapOuts + 1
                    swapIns := s.swapIns + 1
                    fifoQueue := rest ++ [(p, n)] }))
    ∧ (ClockOk s →
      ∃ (v : Nat) (old : Int), s.memory[v]? = some old ∧ old ≠ pack (p, n)
        ∧ lruPageReplacement s p n
          = some ({ type := "MISS", processId := p, pageNumber := n, frameNumber := v,
                    victimPage := old, pageFaults := s.pageFaults + 1,
                    pageHits := s.pageHits, swapOuts := s.swapOuts + 1,
                    swapIns := s.swapIns + 1 },
                  { s with
                    memory := s.memory.set v (packInt (p, n))
                    pageFaults := s.pageFaults + 1
                    swapOuts := s.swapOuts + 1
                    swapIns := s.swapIns + 1
                    currentTime := s.currentTime + 1
                    accessTime := fun k =>
                      if k = (p, n) then s.currentTime + 1 else s.accessTime k }))
    ∧ (∃ (v : Nat) (old : Int), s.memory[v]? = some old ∧ old ≠ pack (p, n)
        ∧ optimalPageReplacement s p n fut
          = some ({ type := "MISS", processId := p, pageNumber := n, frameNumber := v,
                    victimPage := old, pageFaults := s.pageFaults + 1,
                    pageHits := s.pageHits, swapOuts := s.swapOuts + 1,
                    swapIns := s.swapIns + 1 },
                  { s with
                    memory := s.memory.set v (packInt (p, n))
                    pageFaults := s.pageFaults + 1
                    swapOuts := s.swapOuts + 1
                    swapIns := s.swapIns + 1 }))
    ∧ (∀ (v : Nat) (old : Int), s.memory[v]? = some old →
        (s.memory.set v (packInt (p, n)))[v]? = some (packInt (p, n))
        ∧ ∀ j, j ≠ v → (s.memory.set v (packInt (p, n)))[j]? = s.memory[j]?)
    ∧ (pack (p, n) ≤ INT_MAX → packInt (p, n) = pack (p, n)) := by
  have hf : findResident s.memory p n = none := by
    rw [findResident_eq hv]; exact findVictimFrame_none.mpr hnr
  have he : findEmpty s.memory = none := by
    rw [findEmpty_eq]; exact findVictimFrame_none.mpr (not_mem_of_forall_ne_neg_one hfull)
  refine ⟨?_, ?_, ?_, ?_, fun hfit => (exact_of_valid hv hfit).packInt_eq⟩
  · intro victim rest hq hres
    obtain ⟨v, hvf⟩ := exists_lowestAt hres
    exact ⟨v, hvf, fun e => hnr (e ▸ hres), fifo_evict hf he hq (findVictimFrame_some.mpr hvf)⟩
  · intro hclock
    obtain ⟨y, ys, hmem⟩ := List.exists_cons_of_ne_nil hN
    have hy : y ∈ s.memory := by rw [hmem]; exact List.mem_cons_self _ _
    have hlt : frameTime s.accessTime y < LONG_MAX :=
      lt_of_le_of_lt (hclock.2 _) hclock.1
    obtain ⟨v, old, hvo, hscan, _, _⟩ := lruScan_found ⟨y, hy, hlt⟩
    exact ⟨v, old, hvo, fun e => hnr (e ▸ List.getElem?_mem hvo), lru_evict hf he hscan⟩
  · obtain ⟨v, old, hvo, hscan, _, _⟩ := optimalScan_found fut hN
    exact ⟨v, old, hvo, fun e => hnr (e ▸ List.getElem?_mem hvo), optimal_evict hf he hscan⟩
  · intro v old hvo
    have hlt := (List.getElem?_eq_some_iff.mp hvo).1
    refine ⟨by rw [List.getElem?_set]; simp [hlt], ?_⟩
    intro j hj
    rw [List.getElem?_set]; simp [Ne.symm hj]

theorem clockOk_sampleFull : ClockOk sampleFull := by
  refine ⟨by decide, ?_⟩
  intro k
  simp only [sampleFull]
  split <;> omega

/-- Witness of C7 (amended) on the sample full table: the reference `(0, 4)` replaces
page 0 in frame 0 under FIFO and LRU, and page 1 in frame 1 under Optimal with
the lookahead `[(0, 0)]`. -/
theorem evict_replaces_one_frame_witness :
    (fifoPageReplacement sampleFull 0 4).map (fun x => (x.1, x.2.memory))
        = some ({ type := "MISS", processId := 0, pageNumber := 4, frameNumber := 0,
                  victimPage := 0, pageFaults := 5, pageHits := 0, swapOuts := 1,
                  swapIns := 5 }, [4, 1, 2, 3])
      ∧ (lruPageReplacement sampleFull 0 4).map (fun x => (x.1, x.2.memory))
        = some ({ type := "MISS", processId := 0, pageNumber := 4, frameNumber := 0,
                  victimPage := 0, pageFaults := 5, pageHits := 0, swapOuts := 1,
                  swapIns := 5 }, [4, 1, 2, 3])
      ∧ (optimalPageReplacement sampleFull 0 4 [(0, 0)]).map (fun x => (x.1, x.2.memory))
        = some ({ type := "MISS", processId := 0, pageNumber := 4, frameNumber := 1,
                  victimPage := 1, pageFaults := 5, pageHits := 0, swapOuts := 1,
                  swapIns := 5 }, [0, 4, 2, 3])
      ∧ (∃ v, LowestAt sampleFull.memory (packInt (0, 0)) v ∧ packInt (0, 0) ≠ pack (0, 4)
        ∧ fifoPageReplacement sampleFull 0 4
          = some ({ type := "MISS", processId := 0, pageNumber := 4, frameNumber := v,
                    victimPage := packInt (0, 0), pageFaults := sampleFull.pageFaults + 1,
                    pageHits := sampleFull.pageHits, swapOuts := sampleFull.swapOuts + 1,
                    swapIns := sampleFull.swapIns + 1 },
                  { sampleFull with
                    memory := sampleFull.memory.set v (packInt (0, 4))
                    pageFaults := sampleFull.pageFaults + 1
                    swapOuts := sampleFull.swapOuts + 1
                    swapIns := sampleFull.swapIns + 1
                    fifoQueue := [(0, 1), (0, 2), (0, 3)] ++ [(0, 4)] }))
      ∧ (∃ (v : Nat) (old : Int), sampleFull.memory[v]? = some old ∧ old ≠ pack (0, 4)
        ∧ lruPageReplacement sampleFull 0 4
          = some ({ type := "MISS", processId := 0, pageNumber := 4, frameNumber := v,
                    victimPage := old, pageFaults := sampleFull.pageFaults + 1,
                    pageHits := sampleFull.pageHits, swapOuts := sampleFull.swapOuts + 1,
                    swapIns := sampleFull.swapIns + 1 },
                  { sampleFull with
                    memory := sampleFull.memory.set v (packInt (0, 4))
                    pageFaults := sampleFull.pageFaults + 1
                    swapOuts := sampleFull.swapOuts + 1
                    swapIns := sampleFull.swapIns + 1
                    currentTime := sampleFull.currentTime + 1
                    accessTime := fun k =>
                      if k = (0, 4) then sampleFull.currentTime + 1
                      else sampleFull.accessTime k }))
      ∧ (∃ (v : Nat) (old : Int), sampleFull.memory[v]? = some old ∧ old ≠ pack (0, 4)
        ∧ optimalPageReplacement sampleFull 0 4 [(0, 0)]
          = some ({ type := "MISS", processId := 0, pageNumber := 4, frameNumber := v,
                    victimPage := old, pageFaults := sampleFull.pageFaults + 1,
                    pageHits := sampleFull.pageHits, swapOuts := sampleFull.swapOuts + 1,
                    swapIns := sampleFull.swapIns + 1 },
                  { sampleFull with
                    memory := sampleFull.memory.set v (packInt (0, 4))
                    pageFaults := sampleFull.pageFaults + 1
                    swapOuts := sampleFull.swapOuts + 1
                    swapIns := sampleFull.swapIns + 1 }))
      ∧ packInt (0, 4) = pack (0, 4) :=
  have h := evict_replaces_one_frame sampleFull 0 4 [(0, 0)] (by decide) (by decide)
    (by decide) (by decide)
  ⟨by decide, by decide, by decide, h.1 (0, 0) [(0, 1), (0, 2), (0, 3)] rfl (by decide),
    h.2.1 clockOk_sampleFull, h.2.2.1, h.2.2.2.2 (by decide)⟩

/-- C10: after `reset()` every frame is empty and the four counters are 0,
while the frame count and the registered processes are unchanged. -/
theorem reset_clears_frames_and_counters (s : MemoryManager) :
    (reset s).memory.length = s.memory.length
      ∧ (∀ m ∈ (reset s).memory, m = -1)
      ∧ (reset s).memory = List.replicate s.memory.length (-1)
      ∧ (reset s).pageFaults = 0 ∧ (reset s).pageHits = 0
      ∧ (reset s).swapOuts = 0 ∧ (reset s).swapIns = 0
      ∧ (reset s).numFrames = s.numFrames ∧ (reset s).processes = s.processes
      ∧ (reset s).nextProcessId = s.nextProcessId := by
  refine ⟨by simp [reset], ?_, ?_, rfl, rfl, rfl, rfl, rfl, rfl, rfl⟩
  · intro m hm
    simp only [reset, List.mem_map] at hm
    obtain ⟨_, _, h⟩ := hm
    exact h.symm
  · simp only [reset]
    exact List.map_const' _ _

/-- C3: on a full table whose occupants `occs` are valid references
(`processId >= 0`, `0 <= pageNumber < 10000`), every reference that is not
resident makes `optimalPageReplacement` evict the occupant of the lowest frame
`v` whose distance is maximal over all frames, where the distance of a frame
is the index of the first occurrence of its occupant in `futureReferences`, or
the length of `futureReferences` when it does not occur (the indices of
`futureReferences` fit in an `int`).  The frame receives the `int` value of
the packed reference. -/
theorem optimal_evicts_lowest_farthest (s : MemoryManager) (occs : List (Int × Int))
    (p n : Int) (fut : List (Int × Int))
    (hmem : s.memory = occs.map pack) (hN : occs ≠ []) (hocc : ∀ r ∈ occs, ValidRef r)
    (hnr : (p, n) ∉ occs) (hlen : (fut.length : Int) ≤ INT_MAX) :
    ∃ (v : Nat) (r : Int × Int), occs[v]? = some r
      ∧ (∀ u ∈ occs, distance fut u ≤ distance fut r)
      ∧ (∀ (j : Nat) (u : Int × Int), j < v → occs[j]? = some u →
          distance fut u < distance fut r)
      ∧ optimalPageReplacement s p n fut
          = some ({ type := "MISS", processId := p, pageNumber := n, frameNumber := v,
                    victimPage := pack r, pageFaults := s.pageFaults + 1,
                    pageHits := s.pageHits, swapOuts := s.swapOuts + 1,
                    swapIns := s.swapIns + 1 },
                  { s with
                    memory := s.memory.set v (packInt (p, n))
                    pageFaults := s.pageFaults + 1
                    swapOuts := s.swapOuts + 1
                    swapIns := s.swapIns + 1 }) := by
  have hne : s.memory ≠ [] := by
    rw [hmem]; simpa using hN
  have hfull : ∀ m ∈ s.memory, m ≠ -1 := by
    intro m hm
    rw [hmem, List.mem_map] at hm
    obtain ⟨r, hr, rfl⟩ := hm
    exact pack_ne_neg_one (hocc r hr)
  have hf : findResident s.memory p n = none := by
    rw [hmem]; exact findResident_map_pack_none hocc hnr
  have he : findEmpty s.memory = none := by
    rw [findEmpty_eq]; exact findVictimFrame_none.mpr (not_mem_of_forall_ne_neg_one hfull)
  obtain ⟨v, old, hvo, hscan, hlow, hmax⟩ := optimalScan_found fut hne
  rw [hmem, List.getElem?_map] at hvo
  cases hr : occs[v]? with
  | none => rw [hr] at hvo; simp at hvo
  | some r =>
    rw [hr] at hvo
    simp only [Option.map_some', Option.some.injEq] at hvo
    subst hvo
    have hrv : ValidRef r := hocc r (List.getElem?_mem hr)
    refine ⟨v, r, hr, ?_, ?_, optimal_evict hf he hscan⟩
    · intro u hu
      have h1 := hmax (pack u) (by rw [hmem]; exact List.mem_map_of_mem _ hu)
      exact (nextUse_le_iff hrv (hocc u hu) hlen).mp h1
    · intro j u hj hju
      have h1 := hlow j (pack u) hj (by rw [hmem, List.getElem?_map, hju]; rfl)
      exact (nextUse_lt_iff hrv (hocc u (List.getElem?_mem hju)) hlen).mp h1

/-- Witness of C3: frames holding pages 0, 1, 2, 3 of process 0, the
reference `(0, 4)` and the lookahead `[(0, 0)]`: page 1 in frame 1 is evicted,
not page 0. -/
theorem optimal_evicts_lowest_farthest_witness :
    (optimalPageReplacement sampleFull 0 4 [(0, 0)]).map
        (fun x => (x.1.type, x.1.frameNumber, x.1.victimPage, x.2.memory))
        = some ("MISS", 1, 1, [0, 4, 2, 3])
      ∧ ∃ (v : Nat) (r : Int × Int), [((0 : Int), (0 : Int)), (0, 1), (0, 2), (0, 3)][v]? = some r
        ∧ (∀ u ∈ [((0 : Int), (0 : Int)), (0, 1), (0, 2), (0, 3)],
            distance [(0, 0)] u ≤ distance [(0, 0)] r)
        ∧ (∀ (j : Nat) (u : Int × Int), j < v →
            [((0 : Int), (0 : Int)), (0, 1), (0, 2), (0, 3)][j]? = some u →
            distance [(0, 0)] u < distance [(0, 0)] r)
        ∧ optimalPageReplacement sampleFull 0 4 [(0, 0)]
          = some ({ type := "MISS", processId := 0, pageNumber := 4, frameNumber := v,
                    victimPage := pack r, pageFaults := sampleFull.pageFaults + 1,
                    pageHits := sampleFull.pageHits, swapOuts := sampleFull.swapOuts + 1,
                    swapIns := sampleFull.swapIns + 1 },
                  { sampleFull with
                    memory := sampleFull.memory.set v (packInt (0, 4))
                    pageFaults := sampleFull.pageFaults + 1
                    swapOuts := sampleFull.swapOuts + 1
                    swapIns := sampleFull.swapIns + 1 }) :=
  ⟨by decide,
    optimal_evicts_lowest_farthest sampleFull [(0, 0), (0, 1), (0, 2), (0, 3)] 0 4 [(0, 0)]
      (by decide) (by decide) (by decide) (by decide) (by decide)⟩

/-! ## One successful call as a transition -/

/-- What a successful `fifoPageReplacement` does, queue included. -/
theorem fifo_step {s s' : MemoryManager} {p n : Int} {r : Response}
    (hv : Exact (p, n)) (h : fifoPageReplacement s p n = some (r, s')) :
    Transition s (p, n) r s'
      ∧ s'.accessTime = s.accessTime ∧ s'.currentTime = s.currentTime
      ∧ ((r.type = "HIT" ∧ r.victimPage = -1 ∧ s'.fifoQueue = s.fifoQueue
          ∧ s'.memory = s.memory ∧ s'.swapOuts = s.swapOuts)
        ∨ (r.type = "MISS" ∧ r.victimPage = -1 ∧ s'.fifoQueue = s.fifoQueue ++ [(p, n)]
          ∧ s'.swapOuts = s.swapOuts
          ∧ ∃ i, LowestAt s.memory (-1) i ∧ s'.memory = s.memory.set i (pack (p, n)))
        ∨ (r.type = "MISS" ∧ s'.swapOuts = s.swapOuts + 1 ∧ (-1 : Int) ∉ s.memory
          ∧ ∃ victim rest v, s.fifoQueue = victim :: rest ∧ r.victimPage = packInt victim
            ∧ s'.fifoQueue = rest ++ [(p, n)] ∧ LowestAt s.memory (packInt victim) v
            ∧ s'.memory = s.memory.set v (pack (p, n)))) := by
  cases hf : findResident s.memory p n with
  | some i =>
    rw [fifo_hit hf] at h
    simp only [Option.some.injEq, Prod.mk.injEq] at h
    obtain ⟨rfl, rfl⟩ := h
    have hi : LowestAt s.memory (pack (p, n)) i := by
      rw [Exact.findResident_search hv] at hf; exact findVictimFrame_some.mp hf
    refine ⟨⟨rfl, rfl, rfl, Or.inl ⟨rfl, rfl, hi.mem, rfl, rfl, rfl, rfl, rfl⟩⟩, rfl, rfl,
      Or.inl ⟨rfl, rfl, rfl, rfl, rfl⟩⟩
  | none =>
    have hnr : pack (p, n) ∉ s.memory := by
      rw [Exact.findResident_search hv] at hf; exact findVictimFrame_none.mp hf
    cases he : findEmpty s.memory with
    | some i =>
      rw [fifo_load hf he, hv.packInt_eq] at h
      simp only [Option.some.injEq, Prod.mk.injEq] at h
      obtain ⟨rfl, rfl⟩ := h
      have hi : LowestAt s.memory (-1) i := by
        rw [findEmpty_eq] at he; exact findVictimFrame_some.mp he
      refine ⟨⟨rfl, rfl, rfl, Or.inr (Or.inl ⟨rfl, rfl, hnr, ⟨i, hi, rfl, rfl⟩,
        rfl, rfl, rfl, rfl⟩)⟩, rfl, rfl, Or.inr (Or.inl ⟨rfl, rfl, rfl, rfl, i, hi, rfl⟩)⟩
    | none =>
      have hne : (-1 : Int) ∉ s.memory := by
        rw [findEmpty_eq] at he; exact findVictimFrame_none.mp he
      cases hq : s.fifoQueue with
      | nil => simp [fifoPageReplacement, hf, he, hq] at h
      | cons victim rest =>
        cases hvf : findVictimFrame s.memory (packInt victim) with
        | none =>
          simp only [packInt] at hvf
          simp [fifoPageReplacement, hf, he, hq, hvf] at h
        | some v =>
          rw [fifo_evict hf he hq hvf, hv.packInt_eq] at h
          simp only [Option.some.injEq, Prod.mk.injEq] at h
          obtain ⟨rfl, rfl⟩ := h
          have hlow := findVictimFrame_some.mp hvf
          refine ⟨⟨rfl, rfl, rfl, Or.inr (Or.inr ⟨rfl, hnr, hne,
            ⟨v, packInt victim, hlow.1, rfl, rfl, rfl⟩, rfl, rfl, rfl, rfl⟩)⟩, rfl, rfl,
            Or.inr (Or.inr ⟨rfl, rfl, hne, victim, rest, v, rfl, rfl, rfl, hlow, rfl⟩)⟩

/-- The outcome of the LRU loop: the victim index is still `-1`, or it is a
frame of lowest minimal timestamp, reported with its occupant. -/
theorem lruScan_result {accessTime : Int × Int → Int} {memory : List Int}
    {t vf vp : Int} (h : lruScan accessTime memory 0 (LONG_MAX, -1, -1) = (t, vf, vp)) :
    vf = -1 ∨ ∃ (k : Nat), vf = (k : Int) ∧ memory[k]? = some vp
      ∧ (∀ (j : Nat) (y : Int), j < k → memory[j]? = some y →
          frameTime accessTime vp < frameTime accessTime y)
      ∧ ∀ y ∈ memory, frameTime accessTime vp ≤ frameTime accessTime y := by
  rcases lruScan_spec accessTime memory 0 LONG_MAX (-1) (-1) with
    ⟨h1, _⟩ | ⟨k, m, hk, h1, _, h3, h4⟩
  · rw [h1] at h
    simp only [Prod.mk.injEq] at h
    exact Or.inl h.2.1.symm
  · rw [h1] at h
    simp only [Prod.mk.injEq, Nat.zero_add] at h
    obtain ⟨_, rfl, rfl⟩ := h
    exact Or.inr ⟨k, rfl, hk, h3, h4⟩

theorem optimalScan_result {fut : List (Int × Int)} {memory : List Int}
    {t vf vp : Int} (h : optimalScan fut memory 0 (-1, -1, -1) = (t, vf, vp)) :
    vf = -1 ∨ ∃ (k : Nat), vf = (k : Int) ∧ memory[k]? = some vp := by
  rcases optimalScan_spec fut memory 0 (-1) (-1) (-1) with
    ⟨h1, _⟩ | ⟨k, m, hk, h1, _, _, _⟩
  · rw [h1] at h
    simp only [Prod.mk.injEq] at h
    exact Or.inl h.2.1.symm
  · rw [h1] at h
    simp only [Prod.mk.injEq, Nat.zero_add] at h
    obtain ⟨_, rfl, rfl⟩ := h
    exact Or.inr ⟨k, rfl, hk⟩

/-- What a successful `lruPageReplacement` does, clock and timestamps
included. -/
theorem lru_step {s s' : MemoryManager} {p n : Int} {r : Response}
    (hv : Exact (p, n)) (h : lruPageReplacement s p n = some (r, s')) :
    Transition s (p, n) r s'
      ∧ s'.fifoQueue = s.fifoQueue ∧ s'.currentTime = s.currentTime + 1
      ∧ s'.accessTime = setTime s.accessTime (p, n) (s.currentTime + 1)
      ∧ ((-1 : Int) ∉ s.memory → pack (p, n) ∉ s.memory →
          ∃ (v : Nat), s.memory[v]? = some r.victimPage
            ∧ s'.memory = s.memory.set v (pack (p, n)) ∧ r.frameNumber = (v : Int)
            ∧ (∀ (j : Nat) (y : Int), j < v → s.memory[j]? = some y →
                frameTime s.accessTime r.victimPage < frameTime s.accessTime y)
            ∧ ∀ y ∈ s.memory,
                frameTime s.accessTime r.victimPage ≤ frameTime s.accessTime y) := by
  cases hf : findResident s.memory p n with
  | some i =>
    rw [lru_hit hf] at h
    simp only [Option.some.injEq, Prod.mk.injEq] at h
    obtain ⟨rfl, rfl⟩ := h
    have hi : LowestAt s.memory (pack (p, n)) i := by
      rw [Exact.findResident_search hv] at hf; exact findVictimFrame_some.mp hf
    refine ⟨⟨rfl, rfl, rfl, Or.inl ⟨rfl, rfl, hi.mem, rfl, rfl, rfl, rfl, rfl⟩⟩, rfl, rfl,
      rfl, ?_⟩
    intro _ hnr
    exact absurd hi.mem hnr
  | none =>
    have hnr : pack (p, n) ∉ s.memory := by
      rw [Exact.findResident_search hv] at hf; exact findVictimFrame_none.mp hf
    cases he : findEmpty s.memory with
    | some i =>
      rw [lru_load hf he, hv.packInt_eq] at h
      simp only [Option.some.injEq, Prod.mk.injEq] at h
      obtain ⟨rfl, rfl⟩ := h
      have hi : LowestAt s.memory (-1) i := by
        rw [findEmpty_eq] at he; exact findVictimFrame_some.mp he
      refine ⟨⟨rfl, rfl, rfl, Or.inr (Or.inl ⟨rfl, rfl, hnr, ⟨i, hi, rfl, rfl⟩,
        rfl, rfl, rfl, rfl⟩)⟩, rfl, rfl, rfl, ?_⟩
      intro hne _
      exact absurd hi.mem hne
    | none =>
      have hne : (-1 : Int) ∉ s.memory := by
        rw [findEmpty_eq] at he; exact findVictimFrame_none.mp he
      rcases hscan : lruScan s.accessTime s.memory 0 (LONG_MAX, -1, -1) with ⟨t, vf, vp⟩
      rcases lruScan_result hscan with rfl | ⟨k, rfl, hk, hlow, hmin⟩
      · simp [lruPageReplacement, hf, he, hscan] at h
      · rw [lru_evict hf he hscan, hv.packInt_eq] at h
        simp only [Option.some.injEq, Prod.mk.injEq] at h
        obtain ⟨rfl, rfl⟩ := h
        refine ⟨⟨rfl, rfl, rfl, Or.inr (Or.inr ⟨rfl, hnr, hne,
          ⟨k, vp, hk, rfl, rfl, rfl⟩, rfl, rfl, rfl, rfl⟩)⟩, rfl, rfl, rfl, ?_⟩
        intro _ _
        exact ⟨k, hk, rfl, rfl, hlow, hmin⟩

/-- What a successful `optimalPageReplacement` does. -/
theorem optimal_step {s s' : MemoryManager} {p n : Int} {fut : List (Int × Int)}
    {r : Response} (hv : Exact (p, n))
    (h : optimalPageReplacement s p n fut = some (r, s')) :
    Transition s (p, n) r s'
      ∧ s'.fifoQueue = s.fifoQueue ∧ s'.currentTime = s.currentTime
      ∧ s'.accessTime = s.accessTime := by
  cases hf : findResident s.memory p n with
  | some i =>
    rw [optimal_hit hf] at h
    simp only [Option.some.injEq, Prod.mk.injEq] at h
    obtain ⟨rfl, rfl⟩ := h
    have hi : LowestAt s.memory (pack (p, n)) i := by
      rw [Exact.findResident_search hv] at hf; exact findVictimFrame_some.mp hf
    exact ⟨⟨rfl, rfl, rfl, Or.inl ⟨rfl, rfl, hi.mem, rfl, rfl, rfl, rfl, rfl⟩⟩, rfl, rfl, rfl⟩
  | none =>
    have hnr : pack (p, n) ∉ s.memory := by
      rw [Exact.findResident_search hv] at hf; exact findVictimFrame_none.mp hf
    cases he : findEmpty s.memory with
    | some i =>
      rw [optimal_load hf he, hv.packInt_eq] at h
      simp only [Option.some.injEq, Prod.mk.injEq] at h
      obtain ⟨rfl, rfl⟩ := h
      have hi : LowestAt s.memory (-1) i := by
        rw [findEmpty_eq] at he; exact findVictimFrame_some.mp he
      exact ⟨⟨rfl, rfl, rfl, Or.inr (Or.inl ⟨rfl, rfl, hnr, ⟨i, hi, rfl, rfl⟩,
        rfl, rfl, rfl, rfl⟩)⟩, rfl, rfl, rfl⟩
    | none =>
      have hne : (-1 : Int) ∉ s.memory := by
        rw [findEmpty_eq] at he; exact findVictimFrame_none.mp he
      rcases hscan : optimalScan fut s.memory 0 (-1, -1, -1) with ⟨t, vf, vp⟩
      rcases optimalScan_result hscan with rfl | ⟨k, rfl, hk⟩
      · simp [optimalPageReplacement, hf, he, hscan] at h
      · rw [optimal_evict hf he hscan, hv.packInt_eq] at h
        simp only [Option.some.injEq, Prod.mk.injEq] at h
        obtain ⟨rfl, rfl⟩ := h
        exact ⟨⟨rfl, rfl, rfl, Or.inr (Or.inr ⟨rfl, hnr, hne,
          ⟨k, vp, hk, rfl, rfl, rfl⟩, rfl, rfl, rfl, rfl⟩)⟩, rfl, rfl, rfl⟩

theorem step_transition {s s' : MemoryManager} {e : Event} {r : Response}
    (hv : Exact e.ref) (h : step s e = some (r, s')) : Transition s e.ref r s' := by
  cases e with
  | fifo p n => exact (fifo_step hv h).1
  | lru p n => exact (lru_step hv h).1
  | optimal p n fut => exact (optimal_step hv h).1

/-! ## Writing one frame -/

theorem distinct_set {l : List Int} {v : Int} (k : Nat) (hd : Distinct l) (hv : v ∉ l) :
    Distinct (l.set k v) := by
  intro i j x hi hj hx
  rw [List.getElem?_set] at hi hj
  by_cases h1 : k = i <;> by_cases h2 : k = j
  · omega
  · simp only [h1, if_true] at hi
    simp only [h2, if_false] at hj
    split at hi
    · simp only [Option.some.injEq] at hi
      subst hi
      exact absurd (List.getElem?_mem hj) hv
    · simp at hi
  · simp only [h2, if_true] at hj
    simp only [h1, if_false] at hi
    split at hj
    · simp only [Option.some.injEq] at hj
      subst hj
      exact absurd (List.getElem?_mem hi) hv
    · simp at hj
  · simp only [h1, if_false] at hi
    simp only [h2, if_false] at hj
    exact hd i j x hi hj hx

theorem mem_set_cases {l : List Int} {k : Nat} {v x : Int} (h : x ∈ l.set k v) :
    x = v ∨ ∃ j, j ≠ k ∧ l[j]? = some x := by
  obtain ⟨j, hj⟩ := List.mem_iff_getElem?.mp h
  rw [List.getElem?_set] at hj
  by_cases hkj : k = j
  · simp only [hkj, if_true] at hj
    split at hj
    · simp only [Option.some.injEq] at hj
      exact Or.inl hj.symm
    · simp at hj
  · simp only [hkj, if_false] at hj
    exact Or.inr ⟨j, fun e => hkj e.symm, hj⟩

theorem mem_set_self {l : List Int} {k : Nat} (v : Int) (hk : k < l.length) :
    v ∈ l.set k v := by
  apply List.mem_iff_getElem?.mpr
  exact ⟨k, by rw [List.getElem?_set]; simp [hk]⟩

theorem filter_set_empty {v : Int} (hv : v ≠ -1) :
    ∀ (l : List Int) (k : Nat), l[k]? = some (-1) →
      ((l.set k v).filter (fun m => decide (m ≠ -1))).Perm
        (v :: l.filter (fun m => decide (m ≠ -1))) := by
  intro l
  induction l with
  | nil => intro k hk; simp at hk
  | cons x xs ih =>
    intro k hk
    cases k with
    | zero =>
      simp only [List.getElem?_cons_zero, Option.some.injEq] at hk
      subst hk
      simp [List.set, hv]
    | succ k =>
      simp only [List.getElem?_cons_succ] at hk
      have := ih k hk
      simp only [List.set, List.filter_cons]
      split
      · exact (List.Perm.cons x this).trans (List.Perm.swap v x _)
      · exact this

theorem filter_set_occupied {v old : Int} (hv : v ≠ -1) (hold : old ≠ -1) :
    ∀ (l : List Int) (k : Nat), l[k]? = some old →
      (old :: (l.set k v).filter (fun m => decide (m ≠ -1))).Perm
        (v :: l.filter (fun m => decide (m ≠ -1))) := by
  intro l
  induction l with
  | nil => intro k hk; simp at hk
  | cons x xs ih =>
    intro k hk
    cases k with
    | zero =>
      simp only [List.getElem?_cons_zero, Option.some.injEq] at hk
      subst hk
      simp only [List.set, List.filter_cons, hv, hold, ne_eq, not_false_eq_true, decide_True,
        if_true]
      exact List.Perm.swap v x _
    | succ k =>
      simp only [List.getElem?_cons_succ] at hk
      have := ih k hk
      simp only [List.set, List.filter_cons]
      split
      · exact (List.Perm.swap x old _).trans
          ((List.Perm.cons x this).trans (List.Perm.swap v x _))
      · exact this

theorem occupied_eq_length_filter (l : List Int) :
    occupied l = (l.filter (fun m => decide (m ≠ -1))).length := by
  unfold occupied
  exact List.countP_eq_length_filter _ _

theorem occupied_set_empty {l : List Int} {k : Nat} {v : Int} (hv : v ≠ -1)
    (hk : l[k]? = some (-1)) : occupied (l.set k v) = occupied l + 1 := by
  rw [occupied_eq_length_filter, occupied_eq_length_filter,
    (filter_set_empty hv l k hk).length_eq]
  rfl

theorem occupied_set_occupied {l : List Int} {k : Nat} {v old : Int} (hv : v ≠ -1)
    (hold : old ≠ -1) (hk : l[k]? = some old) : occupied (l.set k v) = occupied l := by
  have := (filter_set_occupied hv hold l k hk).length_eq
  rw [occupied_eq_length_filter, occupied_eq_length_filter]
  simpa using this

theorem occupied_le_length (l : List Int) : occupied l ≤ l.length := by
  unfold occupied
  exact List.countP_le_length _

theorem occupied_replicate (k : Nat) : occupied (List.replicate k (-1)) = 0 := by
  unfold occupied
  rw [List.countP_eq_zero]
  intro a ha
  simp only [List.mem_replicate] at ha
  simp [ha.2]

theorem filter_eq_self_of_full {l : List Int} (h : (-1 : Int) ∉ l) :
    l.filter (fun m => decide (m ≠ -1)) = l := by
  rw [List.filter_eq_self]
  intro a ha
  simp only [ne_eq, decide_eq_true_eq]
  rintro rfl
  exact h ha

/-! ## Consequences of a transition -/

theorem Transition.length_eq {s s' : MemoryManager} {ref : Int × Int} {r : Response}
    (h : Transition s ref r s') : s'.memory.length = s.memory.length := by
  obtain ⟨_, _, _, h | h | h⟩ := h
  · rw [h.2.2.2.1]
  · obtain ⟨_, _, _, ⟨i, _, hm, _⟩, _⟩ := h
    rw [hm, List.length_set]
  · obtain ⟨_, _, _, ⟨v, old, _, _, hm, _⟩, _⟩ := h
    rw [hm, List.length_set]

theorem Transition.distinct {s s' : MemoryManager} {ref : Int × Int} {r : Response}
    (h : Transition s ref r s') (hd : Distinct s.memory) : Distinct s'.memory := by
  obtain ⟨_, _, _, h | h | h⟩ := h
  · rw [h.2.2.2.1]; exact hd
  · obtain ⟨_, _, hnr, ⟨i, _, hm, _⟩, _⟩ := h
    rw [hm]; exact distinct_set i hd hnr
  · obtain ⟨_, hnr, _, ⟨v, old, _, _, hm, _⟩, _⟩ := h
    rw [hm]; exact distinct_set v hd hnr

theorem Transition.resident {s s' : MemoryManager} {ref : Int × Int} {r : Response}
    (h : Transition s ref r s') : pack ref ∈ s'.memory := by
  obtain ⟨_, _, _, h | h | h⟩ := h
  · rw [h.2.2.2.1]; exact h.2.2.1
  · obtain ⟨_, _, _, ⟨i, hi, hm, _⟩, _⟩ := h
    rw [hm]; exact mem_set_self _ hi.lt_length
  · obtain ⟨_, _, _, ⟨v, old, hvo, _, hm, _⟩, _⟩ := h
    rw [hm]; exact mem_set_self _ (List.getElem?_eq_some_iff.mp hvo).1

theorem Transition.mem_cases {s s' : MemoryManager} {ref : Int × Int} {r : Response}
    (h : Transition s ref r s') {m : Int} (hm : m ∈ s'.memory) :
    m ∈ s.memory ∨ m = pack ref := by
  obtain ⟨_, _, _, h | h | h⟩ := h
  · rw [h.2.2.2.1] at hm; exact Or.inl hm
  · obtain ⟨_, _, _, ⟨i, _, he, _⟩, _⟩ := h
    rw [he] at hm; exact List.mem_or_eq_of_mem_set hm
  · obtain ⟨_, _, _, ⟨v, old, _, _, he, _⟩, _⟩ := h
    rw [he] at hm; exact List.mem_or_eq_of_mem_set hm

/-! ## Sequences of events -/

theorem run_cons_some {s s' : MemoryManager} {e : Event} {es : List Event}
    {out : List Response} (h : run s (e :: es) = some (out, s')) :
    ∃ r s1 rs, step s e = some (r, s1) ∧ run s1 es = some (rs, s') ∧ out = r :: rs := by
  simp only [run] at h
  cases hs : step s e with
  | none => simp [hs] at h
  | some x =>
    obtain ⟨r, s1⟩ := x
    simp only [hs] at h
    cases hr : run s1 es with
    | none => simp [hr] at h
    | some y =>
      obtain ⟨rs, s2⟩ := y
      simp only [hr, Option.some.injEq, Prod.mk.injEq] at h
      obtain ⟨rfl, rfl⟩ := h
      exact ⟨r, s1, rs, rfl, hr, rfl⟩

theorem run_cons_of {s s1 s' : MemoryManager} {e : Event} {es : List Event}
    {r : Response} {rs : List Response} (h1 : step s e = some (r, s1))
    (h2 : run s1 es = some (rs, s')) : run s (e :: es) = some (r :: rs, s') := by
  simp only [run, h1, h2]

theorem run_append_some {es1 es2 : List Event} :
    ∀ {s s' : MemoryManager} {out : List Response},
      run s (es1 ++ es2) = some (out, s') →
      ∃ out1 s1 out2, run s es1 = some (out1, s1) ∧ run s1 es2 = some (out2, s')
        ∧ out = out1 ++ out2 := by
  induction es1 with
  | nil =>
    intro s s' out h
    exact ⟨[], s, out, rfl, h, rfl⟩
  | cons e es ih =>
    intro s s' out h
    obtain ⟨r, s1, rs, h1, h2, rfl⟩ := run_cons_some h
    obtain ⟨out1, s2, out2, h3, h4, rfl⟩ := ih h2
    exact ⟨r :: out1, s2, out2, run_cons_of h1 h3, h4, rfl⟩

theorem run_append_of {es1 es2 : List Event} :
    ∀ {s s1 s' : MemoryManager} {out1 out2 : List Response},
      run s es1 = some (out1, s1) → run s1 es2 = some (out2, s') →
      run s (es1 ++ es2) = some (out1 ++ out2, s') := by
  induction es1 with
  | nil =>
    intro s s1 s' out1 out2 h1 h2
    simp only [run, Option.some.injEq, Prod.mk.injEq] at h1
    obtain ⟨rfl, rfl⟩ := h1
    exact h2
  | cons e es ih =>
    intro s s1 s' out1 out2 h1 h2
    obtain ⟨r, s2, rs, h3, h4, rfl⟩ := run_cons_some h1
    exact run_cons_of h3 (ih h4 h2)

/-- A property of the state kept by every successful event of a class of
events is kept by every sequence of such events. -/
theorem run_invariant {P : MemoryManager → Prop} {Q : Event → Prop}
    (hstep : ∀ s e r s', P s → Q e → step s e = some (r, s') → P s') :
    ∀ (evs : List Event) (s s' : MemoryManager) (out : List Response),
      (∀ e ∈ evs, Q e) → P s → run s evs = some (out, s') → P s' := by
  intro evs
  induction evs with
  | nil =>
    intro s s' out _ hp h
    simp only [run, Option.some.injEq, Prod.mk.injEq] at h
    exact h.2 ▸ hp
  | cons e es ih =>
    intro s s' out hq hp h
    obtain ⟨r, s1, rs, h1, h2, _⟩ := run_cons_some h
    exact ih s1 s' rs (fun x hx => hq x (List.mem_cons_of_mem _ hx))
      (hstep s e r s1 hp (hq e (List.mem_cons_self _ _)) h1) h2

theorem fifo_length {s s' : MemoryManager} {p n : Int} {r : Response}
    (h : fifoPageReplacement s p n = some (r, s')) : s'.memory.length = s.memory.length := by
  unfold fifoPageReplacement at h
  split at h
  · simp only [Option.some.injEq, Prod.mk.injEq] at h
    rw [← h.2]
  · simp only at h
    split at h
    · simp only [Option.some.injEq, Prod.mk.injEq] at h
      rw [← h.2]; simp
    · split at h
      · simp at h
      · split at h
        · simp at h
        · simp only [Option.some.injEq, Prod.mk.injEq] at h
          rw [← h.2]; simp

theorem lru_length {s s' : MemoryManager} {p n : Int} {r : Response}
    (h : lruPageReplacement s p n = some (r, s')) : s'.memory.length = s.memory.length := by
  unfold lruPageReplacement at h
  simp only at h
  split at h
  · simp only [Option.some.injEq, Prod.mk.injEq] at h
    rw [← h.2]
  · split at h
    · simp only [Option.some.injEq, Prod.mk.injEq] at h
      rw [← h.2]; simp
    · split at h
      · simp at h
      · simp only [Option.some.injEq, Prod.mk.injEq] at h
        rw [← h.2]; simp

theorem optimal_length {s s' : MemoryManager} {p n : Int} {fut : List (Int × Int)}
    {r : Response} (h : optimalPageReplacement s p n fut = some (r, s')) :
    s'.memory.length = s.memory.length := by
  unfold optimalPageReplacement at h
  split at h
  · simp only [Option.some.injEq, Prod.mk.injEq] at h
    rw [← h.2]
  · simp only at h
    split at h
    · simp only [Option.some.injEq, Prod.mk.injEq] at h
      rw [← h.2]; simp
    · split at h
      · simp at h
      · simp only [Option.some.injEq, Prod.mk.injEq] at h
        rw [← h.2]; simp

/-- No event changes the number of frames, whatever the reference. -/
theorem step_length {s s' : MemoryManager} {e : Event} {r : Response}
    (h : step s e = some (r, s')) : s'.memory.length = s.memory.length := by
  cases e with
  | fifo p n => exact fifo_length h
  | lru p n => exact lru_length h
  | optimal p n fut => exact optimal_length h

theorem run_length_any {evs : List Event} {s s' : MemoryManager} {out : List Response}
    (h : run s evs = some (out, s')) : s'.memory.length = s.memory.length :=
  run_invariant (P := fun t => t.memory.length = s.memory.length) (Q := fun _ => True)
    (fun _ _ _ _ hp _ hs => (step_length hs).trans hp) evs s s' out (fun _ _ => trivial) rfl h

/-! ## The freshly constructed engine -/

theorem create_spec {ramKB : Int} {s0 : MemoryManager}
    (h : MemoryManager.create ramKB = some s0) :
    0 ≤ s0.numFrames ∧ s0.memory = List.replicate s0.numFrames.toNat (-1)
      ∧ s0.pageFaults = 0 ∧ s0.pageHits = 0 ∧ s0.swapOuts = 0 ∧ s0.swapIns = 0
      ∧ s0.fifoQueue = [] ∧ s0.accessTime = (fun _ => 0) ∧ s0.currentTime = 0 := by
  unfold MemoryManager.create at h
  simp only at h
  split at h
  · simp at h
  · rename_i hn
    simp only [Option.some.injEq] at h
    subst h
    exact ⟨by simpa using hn, rfl, rfl, rfl, rfl, rfl, rfl, rfl, rfl⟩

theorem create_distinct {ramKB : Int} {s0 : MemoryManager}
    (h : MemoryManager.create ramKB = some s0) : Distinct s0.memory := by
  intro i j x hi _ hx
  rw [(create_spec h).2.1] at hi
  have := List.getElem?_mem hi
  simp only [List.mem_replicate] at this
  exact absurd this.2 hx

theorem create_length {ramKB : Int} {s0 : MemoryManager}
    (h : MemoryManager.create ramKB = some s0) : (s0.memory.length : Int) = s0.numFrames := by
  obtain ⟨h0, hm, _⟩ := create_spec h
  rw [hm, List.length_replicate]
  exact Int.toNat_of_nonneg h0

theorem run_distinct {evs : List Event} {s s' : MemoryManager} {out : List Response}
    (hv : ∀ e ∈ evs, Exact e.ref) (hd : Distinct s.memory)
    (h : run s evs = some (out, s')) : Distinct s'.memory :=
  run_invariant (P := fun s => Distinct s.memory) (Q := fun e => Exact e.ref)
    (fun _ _ _ _ hp hq hs => (step_transition hq hs).distinct hp) evs s s' out hv hd h

theorem run_length {evs : List Event} {s s' : MemoryManager} {out : List Response}
    (hv : ∀ e ∈ evs, Exact e.ref)
    (h : run s evs = some (out, s')) : s'.memory.length = s.memory.length :=
  run_invariant (P := fun t => t.memory.length = s.memory.length)
    (Q := fun e => Exact e.ref)
    (fun _ _ _ _ hp hq hs => (step_transition hq hs).length_eq.trans hp) evs s s' out hv rfl h

/-- C4, the claim as stated fails: with two frames, the FIFO references
`(0, 10000)`, `(0, 10000)` (a `pageNumber` of 10000) both fault, because the
frame value 10000 decodes to page `(1, 0)`, and the page is loaded twice: both
frames end holding the occupant 10000.  The same happens below 10000 when the
packed value does not fit in an `int`: the FIFO references `(214749, 0)`,
`(214749, 0)` leave -2147477296 in both frames. -/
theorem frames_distinct_counterexample :
    (∃ s0 out s, MemoryManager.create 8 = some s0
      ∧ run s0 [Event.fifo 0 10000, Event.fifo 0 10000] = some (out, s)
      ∧ out.map (fun r => r.type) = ["MISS", "MISS"]
      ∧ s.memory = [10000, 10000] ∧ ¬ Distinct s.memory)
    ∧ ∃ s0 out s, MemoryManager.create 8 = some s0
      ∧ run s0 [Event.fifo 214749 0, Event.fifo 214749 0] = some (out, s)
      ∧ out.map (fun r => r.type) = ["MISS", "MISS"]
      ∧ s.memory = [-2147477296, -2147477296] ∧ ¬ Distinct s.memory := by
  refine ⟨⟨_, _, _, rfl, rfl, by decide, rfl, ?_⟩, ⟨_, _, _, rfl, rfl, by decide, rfl, ?_⟩⟩
  · intro h
    have := h 0 1 10000 rfl rfl (by decide)
    omega
  · intro h
    have := h 0 1 (-2147477296) (by decide) (by decide) (by decide)
    omega

/-- C4 (amended): for every frame count and every sequence of reference
events of one policy applied to a freshly constructed engine, whatever the
references: in every state reached the number of occupied frames does not
exceed the frame count; and no two occupied frames hold an equal occupant
provided every reference has `processId >= 0`, `0 <= pageNumber < 10000` and
`processId * 10000 + pageNumber <= INT_MAX` (no `int` overflow). -/
theorem frames_stay_distinct (ramKB : Int) (s0 s : MemoryManager) (pol : Policy)
    (evs : List Event) (out : List Response)
    (hnew : MemoryManager.create ramKB = some s0)
    (hpol : ∀ e ∈ evs, e.policy = pol)
    (hrun : run s0 evs = some (out, s)) :
    (occupied s.memory : Int) ≤ s0.numFrames
      ∧ (s.memory.length : Int) = s0.numFrames
      ∧ ((∀ e ∈ evs, ValidRef e.ref) → (∀ e ∈ evs, pack e.ref ≤ INT_MAX) →
          Distinct s.memory) := by
  have _ := hpol
  have hl := run_length_any hrun
  have hc := create_length hnew
  have ho := occupied_le_length s.memory
  refine ⟨by omega, by rw [hl]; exact hc, ?_⟩
  intro hvalid hfit
  exact run_distinct (fun e he => exact_of_valid (hvalid e he) (hfit e he))
    (create_distinct hnew) hrun

/-- Witness of C4 (amended): the FIFO sample string on four frames. -/
theorem frames_stay_distinct_witness :
    ∃ s0 out s, MemoryManager.create 16 = some s0 ∧ run s0 fifoSample = some (out, s)
      ∧ s.memory = [4, 1, 2, 3]
      ∧ ((occupied s.memory : Int) ≤ s0.numFrames
        ∧ (s.memory.length : Int) = s0.numFrames
        ∧ ((∀ e ∈ fifoSample, ValidRef e.ref) → (∀ e ∈ fifoSample, pack e.ref ≤ INT_MAX) →
            Distinct s.memory))
      ∧ (∀ e ∈ fifoSample, ValidRef e.ref) ∧ (∀ e ∈ fifoSample, pack e.ref ≤ INT_MAX) := by
  refine ⟨_, _, _, rfl, rfl, rfl, ?_, by decide, by decide⟩
  exact frames_stay_distinct 16 _ _ Policy.FIFO fifoSample _ rfl (by decide) rfl

/-! ## FIFO: the queue and the frame table -/

theorem loads_cons (r : Response) (rs : List Response) :
    loads (r :: rs) = loads [r] ++ loads rs := by
  unfold loads
  rw [← List.filterMap_append]
  rfl

theorem victims_cons (r : Response) (rs : List Response) :
    victims (r :: rs) = victims [r] ++ victims rs := by
  unfold victims
  rw [← List.filterMap_append]
  rfl

theorem fifo_progress {s : MemoryManager} (p n : Int)
    (hinv : FifoInv s) (hne : s.memory ≠ []) :
    ∃ r s', fifoPageReplacement s p n = some (r, s') := by
  cases hf : findResident s.memory p n with
  | some i => exact ⟨_, _, fifo_hit hf⟩
  | none =>
    cases he : findEmpty s.memory with
    | some i => exact ⟨_, _, fifo_load hf he⟩
    | none =>
      have hfull : (-1 : Int) ∉ s.memory := by
        rw [findEmpty_eq] at he; exact findVictimFrame_none.mp he
      unfold FifoInv at hinv
      rw [filter_eq_self_of_full hfull] at hinv
      cases hq : s.fifoQueue with
      | nil =>
        rw [hq] at hinv
        exact absurd (List.Perm.nil_eq hinv).symm hne
      | cons victim rest =>
        have hmem : packInt victim ∈ s.memory := by
          apply hinv.subset
          rw [hq]
          simp
        obtain ⟨v, hlow⟩ := exists_lowestAt hmem
        exact ⟨_, _, fifo_evict hf he hq (findVictimFrame_some.mpr hlow)⟩

theorem fifo_step_inv {s s' : MemoryManager} {p n : Int} {r : Response}
    (hv : Exact (p, n)) (hinv : FifoInv s)
    (h : fifoPageReplacement s p n = some (r, s')) :
    FifoInv s'
      ∧ s.fifoQueue.map packInt ++ loads [r] = victims [r] ++ s'.fifoQueue.map packInt
      ∧ s'.swapOuts = s.swapOuts + ((victims [r]).length : Int)
      ∧ s'.pageFaults = s.pageFaults + ((loads [r]).length : Int) := by
  have hp := Exact.ne_empty_marker hv
  obtain ⟨⟨_, hpid, hpn, htr⟩, _, _, hc⟩ := fifo_step hv h
  simp only at hpid hpn
  rcases hc with ⟨ht, hvp, hq, hm, hso⟩ | ⟨ht, hvp, hq, hso, i, hi, hm⟩ |
    ⟨ht, hso, hfull, victim, rest, v, hq, hvp, hq', hlow, hm⟩
  · have hpf : s'.pageFaults = s.pageFaults := by
      rcases htr with h1 | h1 | h1
      · exact h1.2.2.2.2.2.1
      · rw [h1.1] at ht; exact absurd ht (by decide)
      · rw [h1.1] at ht; exact absurd ht (by decide)
    refine ⟨?_, ?_, ?_, ?_⟩
    · unfold FifoInv; rw [hq, hm]; exact hinv
    · simp [loads, victims, ht, hvp, hq]
    · simp [victims, hvp, hso]
    · simp [loads, ht, hpf]
  · have hpf : s'.pageFaults = s.pageFaults + 1 := by
      rcases htr with h1 | h1 | h1
      · rw [h1.1] at ht; exact absurd ht (by decide)
      · exact h1.2.2.2.2.2.1
      · exact h1.2.2.2.2.2.1
    refine ⟨?_, ?_, ?_, ?_⟩
    · unfold FifoInv
      rw [hq, hm, List.map_append]
      simp only [List.map_cons, List.map_nil, hv.packInt_eq]
      refine List.Perm.trans ?_ (filter_set_empty hp s.memory i hi.1).symm
      exact List.perm_append_comm.trans (List.Perm.cons _ hinv)
    · simp [loads, victims, ht, hvp, hq, hpid, hpn, hv.packInt_eq]
    · simp [victims, hvp, hso]
    · simp [loads, ht, hpf]
  · have hpf : s'.pageFaults = s.pageFaults + 1 := by
      rcases htr with h1 | h1 | h1
      · rw [h1.1] at ht; exact absurd ht (by decide)
      · exact h1.2.2.2.2.2.1
      · exact h1.2.2.2.2.2.1
    have hold : packInt victim ≠ -1 := fun e => hfull (e ▸ hlow.mem)
    refine ⟨?_, ?_, ?_, ?_⟩
    · unfold FifoInv at hinv ⊢
      rw [hq] at hinv
      rw [hq', hm, List.map_append]
      simp only [List.map_cons, List.map_nil, hv.packInt_eq]
      have h1 := filter_set_occupied hp hold s.memory v hlow.1
      have h2 : (packInt victim :: (pack (p, n) :: rest.map packInt)).Perm
          (packInt victim :: (s.memory.set v (pack (p, n))).filter
            (fun m => decide (m ≠ -1))) :=
        (List.Perm.swap _ _ _).trans ((List.Perm.cons _ hinv).trans h1.symm)
      exact List.perm_append_comm.trans h2.cons_inv
    · simp [loads, victims, ht, hvp, hq, hq', hpid, hpn, hold, hv.packInt_eq]
    · simp [victims, hvp, hso, hold]
    · simp [loads, ht, hpf]

theorem fifo_run :
    ∀ (evs : List Event) (s : MemoryManager),
      (∀ e ∈ evs, e.policy = Policy.FIFO) → (∀ e ∈ evs, Exact e.ref) →
      FifoInv s → s.memory ≠ [] →
      ∃ out s', run s evs = some (out, s') ∧ FifoInv s'
        ∧ s.fifoQueue.map packInt ++ loads out = victims out ++ s'.fifoQueue.map packInt
        ∧ s'.swapOuts = s.swapOuts + ((victims out).length : Int)
        ∧ s'.pageFaults = s.pageFaults + ((loads out).length : Int) := by
  intro evs
  induction evs with
  | nil =>
    intro s _ _ hinv _
    exact ⟨[], s, rfl, hinv, by simp [loads, victims], by simp [victims], by simp [loads]⟩
  | cons e es ih =>
    intro s hpol hvalid hinv hne
    have hpe := hpol e (List.mem_cons_self _ _)
    have hve := hvalid e (List.mem_cons_self _ _)
    cases e with
    | lru p n => simp [Event.policy] at hpe
    | optimal p n fut => simp [Event.policy] at hpe
    | fifo p n =>
      simp only [Event.ref] at hve
      obtain ⟨r, s1, hstep⟩ := fifo_progress p n hinv hne
      obtain ⟨hinv1, hq1, hso1, hpf1⟩ := fifo_step_inv hve hinv hstep
      have hne1 : s1.memory ≠ [] := by
        have hl := (fifo_step hve hstep).1.length_eq
        intro e
        rw [e] at hl
        exact hne (List.length_eq_zero.mp hl.symm)
      obtain ⟨rs, s2, hrun, hinv2, hq2, hso2, hpf2⟩ :=
        ih s1 (fun x hx => hpol x (List.mem_cons_of_mem _ hx))
          (fun x hx => hvalid x (List.mem_cons_of_mem _ hx)) hinv1 hne1
      refine ⟨r :: rs, s2, run_cons_of hstep hrun, hinv2, ?_, ?_, ?_⟩
      · rw [loads_cons, victims_cons, ← List.append_assoc, hq1, List.append_assoc, hq2,
          List.append_assoc]
      · rw [victims_cons, List.length_append, hso2, hso1]; push_cast; omega
      · rw [loads_cons, List.length_append, hpf2, hpf1]; push_cast; omega

/-- Every reference in the FIFO queue was in it at the start or was referenced
since: a property of the references is a property of the queue. -/
theorem fifo_run_queue_valid {P : Int × Int → Prop} {evs : List Event} {s s' : MemoryManager}
    {out : List Response}
    (hpol : ∀ e ∈ evs, e.policy = Policy.FIFO) (hvalid : ∀ e ∈ evs, Exact e.ref)
    (hP : ∀ e ∈ evs, P e.ref)
    (hq : ∀ r ∈ s.fifoQueue, P r) (h : run s evs = some (out, s')) :
    ∀ r ∈ s'.fifoQueue, P r :=
  run_invariant (P := fun t => ∀ r ∈ t.fifoQueue, P r)
    (Q := fun e => e.policy = Policy.FIFO ∧ Exact e.ref ∧ P e.ref)
    (fun t e r t' hp hq hs => by
      cases e with
      | lru p n => simp [Event.policy] at hq
      | optimal p n fut => simp [Event.policy] at hq
      | fifo p n =>
        obtain ⟨_, _, _, hc⟩ := fifo_step hq.2.1 hs
        rcases hc with ⟨_, _, h1, _⟩ | ⟨_, _, h1, _⟩ | ⟨_, _, _, victim, rest, v, h0, _, h1, _⟩
        · rw [h1]; exact hp
        · rw [h1]
          intro x hx
          rcases List.mem_append.mp hx with hx | hx
          · exact hp x hx
          · rw [List.mem_singleton.mp hx]; exact hq.2.2
        · rw [h1]
          intro x hx
          rcases List.mem_append.mp hx with hx | hx
          · exact hp x (by rw [h0]; exact List.mem_cons_of_mem _ hx)
          · rw [List.mem_singleton.mp hx]; exact hq.2.2)
    evs s s' out (fun e he => ⟨hpol e he, hvalid e he, hP e he⟩) hq h

theorem map_packInt_eq_map_pack {q : List (Int × Int)} (h : ∀ r ∈ q, Exact r) :
    q.map packInt = q.map pack :=
  List.map_congr_left (fun r hr => (h r hr).packInt_eq)

theorem create_fifoInv {ramKB : Int} {s0 : MemoryManager}
    (h : MemoryManager.create ramKB = some s0) : FifoInv s0 := by
  obtain ⟨_, hm, _, _, _, _, hq, _⟩ := create_spec h
  unfold FifoInv
  rw [hq, hm]
  have : (List.replicate s0.numFrames.toNat (-1 : Int)).filter (fun m => decide (m ≠ -1))
      = [] := by
    rw [List.filter_eq_nil_iff]
    intro a ha
    simp only [List.mem_replicate] at ha
    simp [ha.2]
  rw [this]
  exact List.Perm.refl _

theorem create_ne_nil {ramKB : Int} {s0 : MemoryManager}
    (h : MemoryManager.create ramKB = some s0) (hN : 1 ≤ s0.numFrames) : s0.memory ≠ [] := by
  have := create_length h
  intro e
  rw [e] at this
  simp at this
  omega

/-- C1: for every frame count `N >= 1` and every sequence of
`fifoPageReplacement` calls (`processId >= 0`, `0 <= pageNumber < 10000`, no
`int` overflow: `processId * 10000 + pageNumber <= INT_MAX`) on a
freshly constructed engine, every call returns, and the victims evicted, in
order, are a prefix of the pages loaded, in order: the k-th eviction evicts
the k-th page that was loaded.  The loaded pages not yet evicted are the FIFO
queue, there is one load per fault and one victim per swap-out. -/
theorem fifo_evicts_in_load_order (ramKB : Int) (s0 : MemoryManager) (evs : List Event)
    (hnew : MemoryManager.create ramKB = some s0) (hN : 1 ≤ s0.numFrames)
    (hpol : ∀ e ∈ evs, e.policy = Policy.FIFO) (hvalid : ∀ e ∈ evs, ValidRef e.ref)
    (hfit : ∀ e ∈ evs, pack e.ref ≤ INT_MAX) :
    ∃ out s, run s0 evs = some (out, s)
      ∧ victims out <+: loads out
      ∧ loads out = victims out ++ s.fifoQueue.map pack
      ∧ ((victims out).length : Int) = s.swapOuts
      ∧ ((loads out).length : Int) = s.pageFaults := by
  have hex : ∀ e ∈ evs, Exact e.ref := fun e he => exact_of_valid (hvalid e he) (hfit e he)
  obtain ⟨out, s, hrun, _, hq, hso, hpf⟩ :=
    fifo_run evs s0 hpol hex (create_fifoInv hnew) (create_ne_nil hnew hN)
  obtain ⟨_, _, h1, _, h3, _, h5, _⟩ := create_spec hnew
  have hqe : ∀ r ∈ s.fifoQueue, Exact r :=
    fifo_run_queue_valid hpol hex hex (by rw [h5]; simp) hrun
  rw [h5, map_packInt_eq_map_pack hqe] at hq
  simp only [List.map_nil, List.nil_append] at hq
  refine ⟨out, s, hrun, ⟨_, hq.symm⟩, hq, by rw [hso, h3]; simp, by rw [hpf, h1]; simp⟩

/-- Witness of C1: the FIFO sample string on four frames loads pages
0, 1, 2, 3, 4 and evicts page 0. -/
theorem fifo_evicts_in_load_order_witness :
    ∃ s0, MemoryManager.create 16 = some s0
      ∧ (run s0 fifoSample).map (fun x => (victims x.1, loads x.1)) = some ([0], [0, 1, 2, 3, 4])
      ∧ ∃ out s, run s0 fifoSample = some (out, s)
        ∧ victims out <+: loads out
        ∧ loads out = victims out ++ s.fifoQueue.map pack
        ∧ ((victims out).length : Int) = s.swapOuts
        ∧ ((loads out).length : Int) = s.pageFaults := by
  refine ⟨_, rfl, by decide, ?_⟩
  exact fifo_evicts_in_load_order 16 _ fifoSample rfl (by decide) (by decide) (by decide)
    (by decide)

/-! ## LRU: the clock and the timestamps -/

theorem lastRef_le_length (x : Int × Int) (evs : List Event) : lastRef x evs ≤ evs.length := by
  induction evs with
  | nil => simp [lastRef]
  | cons e es ih =>
    simp only [lastRef, List.length_cons]
    split
    · omega
    · split <;> omega

theorem lastRef_pos_iff (x : Int × Int) (evs : List Event) :
    0 < lastRef x evs ↔ x ∈ evs.map Event.ref := by
  induction evs with
  | nil => simp [lastRef]
  | cons e es ih =>
    simp only [lastRef, List.map_cons, List.mem_cons]
    by_cases h1 : x ∈ es.map Event.ref
    · simp [h1]
    · by_cases h2 : e.ref = x
      · simp [h1, h2]
      · have h3 : ¬ x = e.ref := fun h => h2 h.symm
        simp [h1, h2, h3]

/-- Two references with the same position of last use are the same
reference. -/
theorem lastRef_inj {x y : Int × Int} {evs : List Event} (hpos : 0 < lastRef x evs)
    (h : lastRef x evs = lastRef y evs) : x = y := by
  induction evs with
  | nil => simp [lastRef] at hpos
  | cons e es ih =>
    simp only [lastRef] at h hpos
    by_cases hx : x ∈ es.map Event.ref <;> by_cases hy : y ∈ es.map Event.ref
    · simp only [hx, hy, if_true] at h
      exact ih ((lastRef_pos_iff x es).mpr hx) (by omega)
    · simp only [hx, hy, if_true, if_false] at h
      have := (lastRef_pos_iff x es).mpr hx
      split at h <;> omega
    · simp only [hx, hy, if_true, if_false] at h
      have := (lastRef_pos_iff y es).mpr hy
      split at h <;> omega
    · simp only [hx, hy, if_false] at h hpos
      by_cases h1 : e.ref = x
      · by_cases h2 : e.ref = y
        · rw [← h1, ← h2]
        · rw [if_pos h1, if_neg h2] at h
          omega
      · simp [h1] at hpos

/-- The clock counts the LRU calls and the timestamp of a reference is the
clock value of its most recent call. -/
theorem lru_run_time :
    ∀ (evs : List Event) (s s' : MemoryManager) (out : List Response),
      (∀ e ∈ evs, e.policy = Policy.LRU) → (∀ e ∈ evs, Exact e.ref) →
      run s evs = some (out, s') →
      s'.currentTime = s.currentTime + (evs.length : Int)
        ∧ ∀ x, s'.accessTime x
            = if x ∈ evs.map Event.ref then s.currentTime + (lastRef x evs : Int)
              else s.accessTime x := by
  intro evs
  induction evs with
  | nil =>
    intro s s' out _ _ h
    simp only [run, Option.some.injEq, Prod.mk.injEq] at h
    obtain ⟨_, rfl⟩ := h
    simp
  | cons e es ih =>
    intro s s' out hpol hvalid h
    obtain ⟨r, s1, rs, h1, h2, _⟩ := run_cons_some h
    have hpe := hpol e (List.mem_cons_self _ _)
    have hve := hvalid e (List.mem_cons_self _ _)
    obtain ⟨hct, hat⟩ := ih s1 s' rs (fun x hx => hpol x (List.mem_cons_of_mem _ hx))
      (fun x hx => hvalid x (List.mem_cons_of_mem _ hx)) h2
    cases e with
    | fifo p n => simp [Event.policy] at hpe
    | optimal p n fut => simp [Event.policy] at hpe
    | lru p n =>
      obtain ⟨_, _, hc1, ha1, _⟩ := lru_step hve h1
      refine ⟨by rw [hct, hc1, List.length_cons]; push_cast; omega, ?_⟩
      intro x
      rw [hat x, hc1, ha1]
      simp only [lastRef, List.map_cons, List.mem_cons, Event.ref, setTime]
      by_cases hx : x ∈ es.map Event.ref
      · simp only [hx, if_true, or_true]
        push_cast; omega
      · simp only [hx, if_false, or_false]
        by_cases hx2 : x = (p, n)
        · have hx3 : (p, n) = x := hx2.symm
          simp [hx2]
        · have hx3 : ¬ (p, n) = x := fun e => hx2 e.symm
          simp [hx2, hx3]

theorem lru_progress {s : MemoryManager} (p n : Int) (hne : s.memory ≠ [])
    (hclock : ClockOk s) : ∃ r s', lruPageReplacement s p n = some (r, s') := by
  cases hf : findResident s.memory p n with
  | some i => exact ⟨_, _, lru_hit hf⟩
  | none =>
    cases he : findEmpty s.memory with
    | some i => exact ⟨_, _, lru_load hf he⟩
    | none =>
      obtain ⟨y, ys, hmem⟩ := List.exists_cons_of_ne_nil hne
      have hy : y ∈ s.memory := by rw [hmem]; exact List.mem_cons_self _ _
      have hlt : frameTime s.accessTime y < LONG_MAX :=
        lt_of_le_of_lt (hclock.2 _) hclock.1
      obtain ⟨v, old, _, hscan, _, _⟩ := lruScan_found ⟨y, hy, hlt⟩
      exact ⟨_, _, lru_evict hf he hscan⟩

theorem lru_run_total :
    ∀ (evs : List Event) (s : MemoryManager),
      (∀ e ∈ evs, e.policy = Policy.LRU) → (∀ e ∈ evs, Exact e.ref) →
      s.memory ≠ [] → (∀ k, s.accessTime k ≤ s.currentTime) →
      s.currentTime + (evs.length : Int) ≤ LONG_MAX →
      ∃ out s', run s evs = some (out, s') := by
  intro evs
  induction evs with
  | nil => intro s _ _ _ _ _; exact ⟨[], s, rfl⟩
  | cons e es ih =>
    intro s hpol hvalid hne hle hclock
    have hpe := hpol e (List.mem_cons_self _ _)
    have hve := hvalid e (List.mem_cons_self _ _)
    simp only [List.length_cons] at hclock
    push_cast at hclock
    cases e with
    | fifo p n => simp [Event.policy] at hpe
    | optimal p n fut => simp [Event.policy] at hpe
    | lru p n =>
      obtain ⟨r, s1, hstep⟩ := lru_progress p n hne ⟨by omega, hle⟩
      obtain ⟨htr, _, hc1, ha1, _⟩ := lru_step hve hstep
      have hne1 : s1.memory ≠ [] := by
        have hl := htr.length_eq
        intro e
        rw [e] at hl
        exact hne (List.length_eq_zero.mp hl.symm)
      have hle1 : ∀ k, s1.accessTime k ≤ s1.currentTime := by
        intro k
        rw [ha1, hc1]
        simp only [setTime]
        split
        · exact le_refl _
        · have := hle k; omega
      obtain ⟨rs, s2, hrun⟩ := ih s1 (fun x hx => hpol x (List.mem_cons_of_mem _ hx))
        (fun x hx => hvalid x (List.mem_cons_of_mem _ hx)) hne1 hle1 (by rw [hc1]; omega)
      exact ⟨r :: rs, s2, run_cons_of hstep hrun⟩

/-- Every occupant was loaded by one of the events. -/
theorem run_occupants {evs : List Event} {s s' : MemoryManager} {out : List Response}
    (hv : ∀ e ∈ evs, Exact e.ref) (hs : ∀ m ∈ s.memory, m = -1)
    (h : run s evs = some (out, s')) :
    ∀ m ∈ s'.memory, m = -1 ∨ ∃ e ∈ evs, m = pack e.ref :=
  run_invariant (P := fun t => ∀ m ∈ t.memory, m = -1 ∨ ∃ e ∈ evs, m = pack e.ref)
    (Q := fun e => e ∈ evs ∧ Exact e.ref)
    (fun _ e _ _ hp hq hstep m hm => by
      rcases (step_transition hq.2 hstep).mem_cases hm with h1 | h1
      · exact hp m h1
      · exact Or.inr ⟨e, hq.1, h1⟩)
    evs s s' out (fun e he => ⟨he, hv e he⟩) (fun m hm => Or.inl (hs m hm)) h

theorem create_all_empty {ramKB : Int} {s0 : MemoryManager}
    (h : MemoryManager.create ramKB = some s0) : ∀ m ∈ s0.memory, m = -1 := by
  intro m hm
  rw [(create_spec h).2.1] at hm
  exact (List.mem_replicate.mp hm).2

/-- The state reached by LRU calls on a fresh engine: the run is defined
while the clock stays below `LONG_MAX`, the clock is the number of calls and
the timestamps are the positions of last use. -/
theorem lru_run_fresh {ramKB : Int} {s0 : MemoryManager} {evs : List Event}
    (hnew : MemoryManager.create ramKB = some s0) (hN : 1 ≤ s0.numFrames)
    (hpol : ∀ e ∈ evs, e.policy = Policy.LRU) (hvalid : ∀ e ∈ evs, Exact e.ref)
    (hclock : (evs.length : Int) ≤ LONG_MAX) :
    ∃ out s, run s0 evs = some (out, s)
      ∧ s.currentTime = (evs.length : Int)
      ∧ (∀ x, s.accessTime x = (lastRef x evs : Int))
      ∧ Distinct s.memory ∧ (s.memory.length : Int) = s0.numFrames
      ∧ ∀ m ∈ s.memory, m = -1 ∨ ∃ e ∈ evs, m = pack e.ref := by
  obtain ⟨_, _, _, _, _, _, _, hat, hct⟩ := create_spec hnew
  obtain ⟨out, s, hrun⟩ := lru_run_total evs s0 hpol hvalid (create_ne_nil hnew hN)
    (by intro k; rw [hat, hct]) (by rw [hct]; omega)
  obtain ⟨h1, h2⟩ := lru_run_time evs s0 s out hpol hvalid hrun
  refine ⟨out, s, hrun, by rw [h1, hct]; omega, ?_, run_distinct hvalid (create_distinct hnew) hrun,
    by rw [run_length hvalid hrun]; exact create_length hnew,
    run_occupants hvalid (create_all_empty hnew) hrun⟩
  intro x
  rw [h2 x, hct, hat]
  split
  · omega
  · rename_i hx
    have : ¬ 0 < lastRef x evs := fun hp => hx ((lastRef_pos_iff x evs).mp hp)
    simp only
    omega

theorem frameTime_pack {accessTime : Int × Int → Int} {r : Int × Int} (h : ValidRef r) :
    frameTime accessTime (pack r) = accessTime r := by
  unfold frameTime
  rw [decode_pack h]

/-- A fault on a full table is answered by `MISS`. -/
theorem Transition.miss_of_full {s s' : MemoryManager} {ref : Int × Int} {r : Response}
    (h : Transition s ref r s') (hnr : pack ref ∉ s.memory) : r.type = "MISS" := by
  obtain ⟨_, _, _, h | h | h⟩ := h
  · exact absurd h.2.2.1 hnr
  · exact h.1
  · exact h.1

/-- C2, the claim as stated fails: on two frames the LRU references `(0, 0)`,
`(214749, 0)`, `(0, 1)` have `processId >= 0` and `0 <= pageNumber < 10000`,
and the third one, a fault on a full table, evicts frame 1, the frame loaded by
the most recent reference, while page `(0, 0)` in frame 0 was referenced
earlier: 214749 * 10000 does not fit in an `int`, frame 1 holds -2147477296,
which decodes to `(-214747, -7296)`, a page without timestamp. -/
theorem lru_least_recent_counterexample :
    ∃ s0 out s, MemoryManager.create 8 = some s0
      ∧ (∀ e ∈ [Event.lru 0 0, Event.lru 214749 0, Event.lru 0 1], ValidRef e.ref)
      ∧ run s0 [Event.lru 0 0, Event.lru 214749 0] = some (out, s)
      ∧ out.map (fun r => (r.type, r.frameNumber)) = [("MISS", 0), ("MISS", 1)]
      ∧ s.memory = [0, -2147477296]
      ∧ lastRef (0, 0) [Event.lru 0 0, Event.lru 214749 0] = 1
      ∧ lastRef (214749, 0) [Event.lru 0 0, Event.lru 214749 0] = 2
      ∧ (lruPageReplacement s 0 1).map
          (fun x => (x.1.type, x.1.frameNumber, x.1.victimPage, x.2.memory))
          = some ("MISS", 1, -2147477296, [0, 1]) := by
  refine ⟨_, _, _, rfl, by decide, rfl, by decide, rfl, by decide, by decide, by decide⟩

/-- C2 (amended): for every frame count `N >= 1` and every sequence `pre` of
`lruPageReplacement` calls (`processId >= 0`, `0 <= pageNumber < 10000`,
`processId * 10000 + pageNumber <= INT_MAX`, the clock below `LONG_MAX`) on a
freshly constructed engine, every call returns, and when the next call faults
while all frames are occupied, the page it evicts is the resident page whose
most recent reference in `pre` is the earliest among all resident pages. -/
theorem lru_evicts_least_recent (ramKB : Int) (s0 : MemoryManager) (pre : List Event)
    (p n : Int) (hnew : MemoryManager.create ramKB = some s0) (hN : 1 ≤ s0.numFrames)
    (hpol : ∀ e ∈ pre, e.policy = Policy.LRU) (hvalid : ∀ e ∈ pre, ValidRef e.ref)
    (hfit : ∀ e ∈ pre, pack e.ref ≤ INT_MAX)
    (hv : ValidRef (p, n)) (hfitp : pack (p, n) ≤ INT_MAX)
    (hclock : (pre.length : Int) < LONG_MAX) :
    ∃ out s, run s0 pre = some (out, s)
      ∧ ((-1 : Int) ∉ s.memory → pack (p, n) ∉ s.memory →
          ∃ (k : Nat) (v : Int × Int) (resp : Response) (s' : MemoryManager),
            lruPageReplacement s p n = some (resp, s')
              ∧ ValidRef v ∧ s.memory[k]? = some (pack v)
              ∧ resp.type = "MISS" ∧ resp.victimPage = pack v ∧ resp.frameNumber = (k : Int)
              ∧ s'.memory = s.memory.set k (pack (p, n)) ∧ pack v ∉ s'.memory
              ∧ 0 < lastRef v pre
              ∧ ∀ u, ValidRef u → pack u ∈ s.memory → u ≠ v →
                  lastRef v pre < lastRef u pre) := by
  have hex : ∀ e ∈ pre, Exact e.ref := fun e he => exact_of_valid (hvalid e he) (hfit e he)
  obtain ⟨out, s, hrun, hct, hat, hd, hlen, hocc⟩ :=
    lru_run_fresh hnew hN hpol hex (le_of_lt hclock)
  refine ⟨out, s, hrun, ?_⟩
  intro hfull hnr
  have hne : s.memory ≠ [] := by
    intro e
    rw [e] at hlen
    simp at hlen
    omega
  have hck : ClockOk s := by
    refine ⟨by rw [hct]; exact hclock, ?_⟩
    intro k
    rw [hat k, hct]
    have := lastRef_le_length k pre
    omega
  obtain ⟨resp, s', hstep⟩ := lru_progress p n hne hck
  obtain ⟨htr, _, _, _, hvic⟩ := lru_step (exact_of_valid hv hfitp) hstep
  obtain ⟨k, hk, hm, hfn, _, hmin⟩ := hvic hfull hnr
  have hvm : resp.victimPage ∈ s.memory := List.getElem?_mem hk
  rcases hocc _ hvm with h1 | ⟨e, he, h1⟩
  · exact absurd (h1 ▸ hvm) hfull
  · have hve := hvalid e he
    rw [h1] at hk hmin
    refine ⟨k, e.ref, resp, s', hstep, hve, hk, htr.miss_of_full hnr, h1, hfn, hm, ?_, ?_, ?_⟩
    · intro hin
      rw [hm] at hin
      rcases mem_set_cases hin with h2 | ⟨j, hj, h2⟩
      · exact hnr (h2 ▸ List.getElem?_mem hk)
      · exact hj (hd j k _ h2 hk (pack_ne_neg_one hve))
    · exact (lastRef_pos_iff _ _).mpr (List.mem_map_of_mem _ he)
    · intro u hu hum hne2
      have h3 := hmin (pack u) hum
      rw [frameTime_pack hve, frameTime_pack hu, hat, hat] at h3
      have h4 : lastRef e.ref pre ≠ lastRef u pre := by
        intro heq
        exact hne2 (lastRef_inj ((lastRef_pos_iff _ _).mpr (List.mem_map_of_mem _ he)) heq).symm
      omega

/-- Witness of C2 (amended): with four frames the string
`(0,0), (0,1), (0,2), (0,3), (0,0), (0,4)` evicts page 1 at the last step and
ends with the resident set `{0, 2, 3, 4}`. -/
theorem lru_evicts_least_recent_witness :
    ∃ s0, MemoryManager.create 16 = some s0
      ∧ (run s0 lruSample).map (fun x => (x.1.map (fun r => r.victimPage), x.2.memory))
          = some ([-1, -1, -1, -1, -1, 1], [0, 4, 2, 3])
      ∧ ∃ out s, run s0 (lruSample.take 5) = some (out, s)
        ∧ ((-1 : Int) ∉ s.memory → pack (0, 4) ∉ s.memory →
          ∃ (k : Nat) (v : Int × Int) (resp : Response) (s' : MemoryManager),
            lruPageReplacement s 0 4 = some (resp, s')
              ∧ ValidRef v ∧ s.memory[k]? = some (pack v)
              ∧ resp.type = "MISS" ∧ resp.victimPage = pack v ∧ resp.frameNumber = (k : Int)
              ∧ s'.memory = s.memory.set k (pack (0, 4)) ∧ pack v ∉ s'.memory
              ∧ 0 < lastRef v (lruSample.take 5)
              ∧ ∀ u, ValidRef u → pack u ∈ s.memory → u ≠ v →
                  lastRef v (lruSample.take 5) < lastRef u (lruSample.take 5)) := by
  refine ⟨_, rfl, by decide, ?_⟩
  exact lru_evicts_least_recent 16 _ (lruSample.take 5) 0 4 rfl (by decide) (by decide)
    (by decide) (by decide) (by decide) (by decide) (by decide)

/-- C9, the claim as stated fails: on two frames, after the LRU reference
`(0, 0)`, the reference `R = (214749, 0)` (`processId >= 0`,
`0 <= pageNumber < 10000`) is a fresh load into frame 1, the very next
reference `(0, 1)` is a fault with both frames occupied, and its victim is the
occupant of frame 1, the frame `R` was loaded into, although `R` is not the
only occupant: frame 1 holds the `int` -2147477296, which carries no
timestamp. -/
theorem lru_last_touched_counterexample :
    ∃ s0 out1 s1 r1 s2 r2 s3, MemoryManager.create 8 = some s0 ∧ s0.numFrames = 2
      ∧ ValidRef (0, 0) ∧ ValidRef (214749, 0) ∧ ValidRef (0, 1)
      ∧ run s0 [Event.lru 0 0] = some (out1, s1)
      ∧ lruPageReplacement s1 214749 0 = some (r1, s2)
      ∧ r1.type = "MISS" ∧ r1.victimPage = -1 ∧ r1.frameNumber = 1
      ∧ s2.memory = [0, -2147477296] ∧ (-1 : Int) ∉ s2.memory
      ∧ lruPageReplacement s2 0 1 = some (r2, s3)
      ∧ r2.type = "MISS" ∧ r2.frameNumber = 1 ∧ r2.victimPage = -2147477296
      ∧ s3.memory = [0, 1] := by
  refine ⟨_, _, _, _, _, _, _, rfl, rfl, by decide, by decide, by decide, rfl, rfl, rfl, rfl,
    rfl, rfl, by decide, rfl, rfl, rfl, rfl, rfl⟩

/-- C9 (amended): for every sequence `pre` of `lruPageReplacement` calls
(`processId >= 0`, `0 <= pageNumber < 10000`,
`processId * 10000 + pageNumber <= INT_MAX`, the clock below `LONG_MAX`) on a
freshly constructed engine with `N >= 1` frames: after one more call
referencing `R = (p, n)` (a hit or a fresh load), `R` is resident, and if the
very next call faults with all frames occupied, its victim is not `R` when
`N >= 2`, and is `R` when `N = 1`. -/
theorem lru_spares_last_touched (ramKB : Int) (s0 : MemoryManager) (pre : List Event)
    (p n q m : Int) (hnew : MemoryManager.create ramKB = some s0) (hN : 1 ≤ s0.numFrames)
    (hpol : ∀ e ∈ pre, e.policy = Policy.LRU) (hvalid : ∀ e ∈ pre, ValidRef e.ref)
    (hfit : ∀ e ∈ pre, pack e.ref ≤ INT_MAX)
    (hv : ValidRef (p, n)) (hfitp : pack (p, n) ≤ INT_MAX)
    (hv2 : ValidRef (q, m)) (hfitq : pack (q, m) ≤ INT_MAX)
    (hclock : (pre.length : Int) + 1 < LONG_MAX) :
    ∃ out s1 r1 s2, run s0 pre = some (out, s1)
      ∧ lruPageReplacement s1 p n = some (r1, s2) ∧ pack (p, n) ∈ s2.memory
      ∧ ((-1 : Int) ∉ s2.memory → pack (q, m) ∉ s2.memory →
          ∃ r2 s3, lruPageReplacement s2 q m = some (r2, s3)
            ∧ r2.type = "MISS" ∧ r2.victimPage ∈ s2.memory
            ∧ (2 ≤ s0.numFrames → r2.victimPage ≠ pack (p, n))
            ∧ (s0.numFrames = 1 → r2.victimPage = pack (p, n))) := by
  have hex : ∀ e ∈ pre, Exact e.ref := fun e he => exact_of_valid (hvalid e he) (hfit e he)
  obtain ⟨out, s1, hrun, hct, hat, hd, hlen, _⟩ :=
    lru_run_fresh hnew hN hpol hex (by omega)
  have hne : s1.memory ≠ [] := by
    intro e
    rw [e] at hlen
    simp at hlen
    omega
  have hle1 : ∀ k, s1.accessTime k ≤ s1.currentTime := by
    intro k
    rw [hat k, hct]
    have := lastRef_le_length k pre
    omega
  obtain ⟨r1, s2, hstep1⟩ := lru_progress p n hne ⟨by rw [hct]; omega, hle1⟩
  obtain ⟨htr1, _, hc2, ha2, _⟩ := lru_step (exact_of_valid hv hfitp) hstep1
  have hlen2 : (s2.memory.length : Int) = s0.numFrames := by rw [htr1.length_eq]; exact hlen
  have hd2 : Distinct s2.memory := htr1.distinct hd
  refine ⟨out, s1, r1, s2, hrun, hstep1, htr1.resident, ?_⟩
  intro hfull hnr
  have hne2 : s2.memory ≠ [] := by
    intro e
    rw [e] at hlen2
    simp at hlen2
    omega
  have hck2 : ClockOk s2 := by
    refine ⟨by rw [hc2, hct]; exact hclock, ?_⟩
    intro k
    rw [ha2, hc2]
    simp only [setTime]
    split
    · exact le_refl _
    · have := hle1 k; omega
  obtain ⟨r2, s3, hstep2⟩ := lru_progress q m hne2 hck2
  obtain ⟨htr2, _, _, _, hvic⟩ := lru_step (exact_of_valid hv2 hfitq) hstep2
  obtain ⟨k, hk, _, _, _, hmin⟩ := hvic hfull hnr
  refine ⟨r2, s3, hstep2, htr2.miss_of_full hnr, List.getElem?_mem hk, ?_, ?_⟩
  · intro hN2 heq
    -- two frames exist, so some frame holds an occupant other than `R`
    have hl2 : 2 ≤ s2.memory.length := by omega
    obtain ⟨y0, hy0⟩ : ∃ y, s2.memory[0]? = some y :=
      ⟨_, List.getElem?_eq_getElem (by omega)⟩
    obtain ⟨y1, hy1⟩ : ∃ y, s2.memory[1]? = some y :=
      ⟨_, List.getElem?_eq_getElem (by omega)⟩
    have hother : ∃ y ∈ s2.memory, y ≠ pack (p, n) := by
      by_cases h0 : y0 = pack (p, n)
      · refine ⟨y1, List.getElem?_mem hy1, ?_⟩
        intro h1
        have := hd2 0 1 (pack (p, n)) (h0 ▸ hy0) (h1 ▸ hy1) (pack_ne_neg_one hv)
        omega
      · exact ⟨y0, List.getElem?_mem hy0, h0⟩
    obtain ⟨y, hy, hyne⟩ := hother
    have h1 := hmin y hy
    rw [heq, frameTime_pack hv, ha2] at h1
    have hdec : (y.tdiv 10000, y.tmod 10000) ≠ (p, n) := by
      intro e
      apply hyne
      rw [← pack_decode y, e]
    have h2 : frameTime (setTime s1.accessTime (p, n) (s1.currentTime + 1)) y
        ≤ s1.currentTime := by
      simp only [frameTime, setTime, hdec, if_false]
      exact hle1 _
    simp only [setTime, if_true] at h1
    omega
  · intro hN1
    have hl1 : s2.memory.length = 1 := by omega
    obtain ⟨a, ha⟩ := List.length_eq_one.mp hl1
    have h1 := htr1.resident
    have h2 := List.getElem?_mem hk
    rw [ha] at h1 h2
    simp only [List.mem_singleton] at h1 h2
    rw [h2, h1]

/-- Witness of C9 (amended): on four frames, after the five first references of the
sample string (the last one a hit on page 0), the fault on page 4 evicts
page 1, not page 0. -/
theorem lru_spares_last_touched_witness :
    ∃ s0, MemoryManager.create 16 = some s0
      ∧ (run s0 lruSample).map (fun x => x.1.map (fun r => (r.type, r.victimPage)))
          = some [("MISS", -1), ("MISS", -1), ("MISS", -1), ("MISS", -1), ("HIT", -1),
              ("MISS", 1)]
      ∧ ∃ out s1 r1 s2, run s0 (lruSample.take 4) = some (out, s1)
        ∧ lruPageReplacement s1 0 0 = some (r1, s2) ∧ pack (0, 0) ∈ s2.memory
        ∧ ((-1 : Int) ∉ s2.memory → pack (0, 4) ∉ s2.memory →
            ∃ r2 s3, lruPageReplacement s2 0 4 = some (r2, s3)
              ∧ r2.type = "MISS" ∧ r2.victimPage ∈ s2.memory
              ∧ (2 ≤ s0.numFrames → r2.victimPage ≠ pack (0, 0))
              ∧ (s0.numFrames = 1 → r2.victimPage = pack (0, 0))) := by
  refine ⟨_, rfl, by decide, ?_⟩
  exact lru_spares_last_touched 16 _ (lruSample.take 4) 0 0 0 4 rfl (by decide) (by decide)
    (by decide) (by decide) (by decide) (by decide) (by decide) (by decide) (by decide)

/-! ## One successful call, whatever the reference -/

theorem fifo_effect {s s' : MemoryManager} {p n : Int} {r : Response}
    (h : fifoPageReplacement s p n = some (r, s')) : Effect s (packInt (p, n)) r s' := by
  cases hf : findResident s.memory p n with
  | some i =>
    rw [fifo_hit hf] at h
    simp only [Option.some.injEq, Prod.mk.injEq] at h
    obtain ⟨rfl, rfl⟩ := h
    exact Or.inl ⟨rfl, rfl, rfl, rfl, rfl, rfl, rfl⟩
  | none =>
    cases he : findEmpty s.memory with
    | some i =>
      rw [fifo_load hf he] at h
      simp only [Option.some.injEq, Prod.mk.injEq] at h
      obtain ⟨rfl, rfl⟩ := h
      have hi : LowestAt s.memory (-1) i := by
        rw [findEmpty_eq] at he; exact findVictimFrame_some.mp he
      exact Or.inr (Or.inl ⟨rfl, rfl, ⟨i, hi.1, rfl⟩, rfl, rfl, rfl, rfl⟩)
    | none =>
      have hne : (-1 : Int) ∉ s.memory := by
        rw [findEmpty_eq] at he; exact findVictimFrame_none.mp he
      cases hq : s.fifoQueue with
      | nil => simp [fifoPageReplacement, hf, he, hq] at h
      | cons victim rest =>
        cases hvf : findVictimFrame s.memory (packInt victim) with
        | none =>
          simp only [packInt] at hvf
          simp [fifoPageReplacement, hf, he, hq, hvf] at h
        | some v =>
          rw [fifo_evict hf he hq hvf] at h
          simp only [Option.some.injEq, Prod.mk.injEq] at h
          obtain ⟨rfl, rfl⟩ := h
          have hlow := findVictimFrame_some.mp hvf
          have hold : packInt victim ≠ -1 := fun e => hne (e ▸ hlow.mem)
          exact Or.inr (Or.inr ⟨rfl, hold, ⟨v, packInt victim, hlow.1, hold, rfl⟩,
            rfl, rfl, rfl, rfl⟩)

theorem lru_effect {s s' : MemoryManager} {p n : Int} {r : Response}
    (h : lruPageReplacement s p n = some (r, s')) : Effect s (packInt (p, n)) r s' := by
  cases hf : findResident s.memory p n with
  | some i =>
    rw [lru_hit hf] at h
    simp only [Option.some.injEq, Prod.mk.injEq] at h
    obtain ⟨rfl, rfl⟩ := h
    exact Or.inl ⟨rfl, rfl, rfl, rfl, rfl, rfl, rfl⟩
  | none =>
    cases he : findEmpty s.memory with
    | some i =>
      rw [lru_load hf he] at h
      simp only [Option.some.injEq, Prod.mk.injEq] at h
      obtain ⟨rfl, rfl⟩ := h
      have hi : LowestAt s.memory (-1) i := by
        rw [findEmpty_eq] at he; exact findVictimFrame_some.mp he
      exact Or.inr (Or.inl ⟨rfl, rfl, ⟨i, hi.1, rfl⟩, rfl, rfl, rfl, rfl⟩)
    | none =>
      have hne : (-1 : Int) ∉ s.memory := by
        rw [findEmpty_eq] at he; exact findVictimFrame_none.mp he
      rcases hscan : lruScan s.accessTime s.memory 0 (LONG_MAX, -1, -1) with ⟨t, vf, vp⟩
      rcases lruScan_result hscan with rfl | ⟨k, rfl, hk, _, _⟩
      · simp [lruPageReplacement, hf, he, hscan] at h
      · rw [lru_evict hf he hscan] at h
        simp only [Option.some.injEq, Prod.mk.injEq] at h
        obtain ⟨rfl, rfl⟩ := h
        have hold : vp ≠ -1 := fun e => hne (e ▸ List.getElem?_mem hk)
        exact Or.inr (Or.inr ⟨rfl, hold, ⟨k, vp, hk, hold, rfl⟩, rfl, rfl, rfl, rfl⟩)

theorem optimal_effect {s s' : MemoryManager} {p n : Int} {fut : List (Int × Int)}
    {r : Response} (h : optimalPageReplacement s p n fut = some (r, s')) :
    Effect s (packInt (p, n)) r s' := by
  cases hf : findResident s.memory p n with
  | some i =>
    rw [optimal_hit hf] at h
    simp only [Option.some.injEq, Prod.mk.injEq] at h
    obtain ⟨rfl, rfl⟩ := h
    exact Or.inl ⟨rfl, rfl, rfl, rfl, rfl, rfl, rfl⟩
  | none =>
    cases he : findEmpty s.memory with
    | some i =>
      rw [optimal_load hf he] at h
      simp only [Option.some.injEq, Prod.mk.injEq] at h
      obtain ⟨rfl, rfl⟩ := h
      have hi : LowestAt s.memory (-1) i := by
        rw [findEmpty_eq] at he; exact findVictimFrame_some.mp he
      exact Or.inr (Or.inl ⟨rfl, rfl, ⟨i, hi.1, rfl⟩, rfl, rfl, rfl, rfl⟩)
    | none =>
      have hne : (-1 : Int) ∉ s.memory := by
        rw [findEmpty_eq] at he; exact findVictimFrame_none.mp he
      rcases hscan : optimalScan fut s.memory 0 (-1, -1, -1) with ⟨t, vf, vp⟩
      rcases optimalScan_result hscan with rfl | ⟨k, rfl, hk⟩
      · simp [optimalPageReplacement, hf, he, hscan] at h
      · rw [optimal_evict hf he hscan] at h
        simp only [Option.some.injEq, Prod.mk.injEq] at h
        obtain ⟨rfl, rfl⟩ := h
        have hold : vp ≠ -1 := fun e => hne (e ▸ List.getElem?_mem hk)
        exact Or.inr (Or.inr ⟨rfl, hold, ⟨k, vp, hk, hold, rfl⟩, rfl, rfl, rfl, rfl⟩)

theorem step_effect {s s' : MemoryManager} {e : Event} {r : Response}
    (h : step s e = some (r, s')) : Effect s (packInt e.ref) r s' := by
  cases e with
  | fifo p n => exact fifo_effect h
  | lru p n => exact lru_effect h
  | optimal p n fut => exact optimal_effect h

/-- The counters after one event, whatever the reference: one more hit or
fault, one swap-in per fault, one swap-out per response that reports a victim;
and, unless the value written is the empty marker, one more occupied frame per
fault that did not evict. -/
theorem Effect.counters {s s' : MemoryManager} {w : Int} {r : Response}
    (h : Effect s w r s') :
    s'.pageHits + s'.pageFaults = s.pageHits + s.pageFaults + 1
      ∧ s'.swapIns - s'.pageFaults = s.swapIns - s.pageFaults
      ∧ s'.swapOuts = s.swapOuts + ((victims [r]).length : Int)
      ∧ s'.pageFaults = s.pageFaults + ((loads [r]).length : Int)
      ∧ (w ≠ -1 → s'.pageFaults - s'.swapOuts - (occupied s'.memory : Int)
          = s.pageFaults - s.swapOuts - (occupied s.memory : Int)) := by
  rcases h with h | h | h
  · obtain ⟨ht, hvp, hm, h1, h2, h3, h4⟩ := h
    refine ⟨by omega, by omega, by simp [victims, hvp, h3], by simp [loads, ht, h2], ?_⟩
    intro _
    rw [hm, h2, h3]
  · obtain ⟨ht, hvp, ⟨i, hi, hm⟩, h1, h2, h3, h4⟩ := h
    refine ⟨by omega, by omega, by simp [victims, hvp, h3], by simp [loads, ht, h2], ?_⟩
    intro hw
    rw [hm, h2, h3, occupied_set_empty hw hi]
    push_cast; omega
  · obtain ⟨ht, hvp, ⟨v, old, hvo, hold, hm⟩, h1, h2, h3, h4⟩ := h
    refine ⟨by omega, by omega, by simp [victims, hvp, h3], by simp [loads, ht, h2], ?_⟩
    intro hw
    rw [hm, h2, h3, occupied_set_occupied hw hold hvo]
    omega

/-- The counters along a run, whatever the references. -/
theorem run_counters :
    ∀ (evs : List Event) (s s' : MemoryManager) (out : List Response),
      run s evs = some (out, s') →
      s'.pageHits + s'.pageFaults = s.pageHits + s.pageFaults + (evs.length : Int)
        ∧ s'.swapIns - s'.pageFaults = s.swapIns - s.pageFaults
        ∧ s'.swapOuts = s.swapOuts + ((victims out).length : Int)
        ∧ s'.pageFaults = s.pageFaults + ((loads out).length : Int)
        ∧ ((∀ e ∈ evs, packInt e.ref ≠ -1) →
            s'.pageFaults - s'.swapOuts - (occupied s'.memory : Int)
              = s.pageFaults - s.swapOuts - (occupied s.memory : Int)) := by
  intro evs
  induction evs with
  | nil =>
    intro s s' out h
    simp only [run, Option.some.injEq, Prod.mk.injEq] at h
    obtain ⟨rfl, rfl⟩ := h
    simp [victims, loads]
  | cons e es ih =>
    intro s s' out h
    obtain ⟨r, s1, rs, h1, h2, rfl⟩ := run_cons_some h
    obtain ⟨a1, a2, a3, a4, a5⟩ := (step_effect h1).counters
    obtain ⟨b1, b2, b3, b4, b5⟩ := ih s1 s' rs h2
    rw [victims_cons, loads_cons, List.length_append, List.length_append]
    refine ⟨by simp only [List.length_cons]; push_cast; omega, by omega,
      by push_cast; omega, by push_cast; omega, ?_⟩
    intro hw
    have c1 := a5 (hw e (List.mem_cons_self _ _))
    have c2 := b5 (fun x hx => hw x (List.mem_cons_of_mem _ hx))
    omega

/-! ## The counters and the responses -/

/-- C8, the claim as stated fails: on one frame the FIFO reference
`(429496, 7295)` (`processId >= 0`, `0 <= pageNumber < 10000`) faults and
writes the `int` -1, since its packed value is 4294967295: the state reached
has `pageFaults = 1`, `swapOuts = 0` and no occupied frame, so `swapOuts` is
not `pageFaults` minus the number of occupied frames.  A second such reference
faults again without any eviction. -/
theorem counters_overflow_counterexample :
    ∃ s0 out s, MemoryManager.create 4 = some s0 ∧ s0.numFrames = 1
      ∧ ValidRef (429496, 7295)
      ∧ run s0 [Event.fifo 429496 7295] = some (out, s)
      ∧ s.memory = [-1] ∧ occupied s.memory = 0
      ∧ (s.pageFaults, s.pageHits, s.swapOuts, s.swapIns) = (1, 0, 0, 1)
      ∧ s.swapOuts ≠ s.pageFaults - (occupied s.memory : Int)
      ∧ (run s0 [Event.lru 429496 7295, Event.lru 429496 7295]).map
          (fun x => (x.2.memory, x.2.pageFaults, x.2.swapOuts)) = some ([-1], 2, 0) := by
  refine ⟨_, _, _, rfl, rfl, by decide, rfl, rfl, by decide, rfl, by decide, by decide⟩

/-- C8 (amended): in every state reached from a freshly constructed engine
with `N >= 1` frames by reference events of one policy (`processId >= 0`,
`0 <= pageNumber < 10000`), `swapIns` equals `pageFaults` (the number of `MISS`
responses), `swapOuts` equals the number of responses that report a victim,
and `pageHits + pageFaults` is the number of events processed; `swapOuts` is
`pageFaults` minus the number of occupied frames provided no reference has the
empty marker `-1` as the `int` value of `processId * 10000 + pageNumber`, in
particular when `processId * 10000 + pageNumber <= INT_MAX` for every
reference (no `int` overflow). -/
theorem counters_account_for_events (ramKB : Int) (s0 s : MemoryManager) (pol : Policy)
    (evs : List Event) (out : List Response)
    (hnew : MemoryManager.create ramKB = some s0) (hN : 1 ≤ s0.numFrames)
    (hpol : ∀ e ∈ evs, e.policy = pol) (hvalid : ∀ e ∈ evs, ValidRef e.ref)
    (hrun : run s0 evs = some (out, s)) :
    s.swapIns = s.pageFaults
      ∧ s.pageFaults = ((loads out).length : Int)
      ∧ s.swapOuts = ((victims out).length : Int)
      ∧ s.pageHits + s.pageFaults = (evs.length : Int)
      ∧ ((∀ e ∈ evs, packInt e.ref ≠ -1) →
          s.swapOuts = s.pageFaults - (occupied s.memory : Int))
      ∧ ((∀ e ∈ evs, pack e.ref ≤ INT_MAX) →
          s.swapOuts = s.pageFaults - (occupied s.memory : Int)) := by
  have _ := hpol
  have _ := hN
  obtain ⟨_, hm, h1, h2, h3, h4, _⟩ := create_spec hnew
  obtain ⟨a1, a2, a3, a4, a5⟩ := run_counters evs s0 s out hrun
  rw [hm, occupied_replicate] at a5
  rw [h1, h2] at a1
  rw [h1, h4] at a2
  rw [h3] at a3
  rw [h1] at a4
  rw [h1, h3] at a5
  have hocc : (∀ e ∈ evs, packInt e.ref ≠ -1) →
      s.swapOuts = s.pageFaults - (occupied s.memory : Int) := by
    intro hw
    have := a5 hw
    simp only [Nat.cast_zero] at this
    omega
  refine ⟨by omega, by omega, by omega, by omega, hocc, ?_⟩
  intro hfit
  apply hocc
  intro e he
  have hx := exact_of_valid (hvalid e he) (hfit e he)
  rw [hx.packInt_eq]
  exact hx.ne_empty_marker

/-- Witness of C8 (amended): the LRU sample string on four frames ends with
5 faults, 1 hit, 1 swap-out and 5 swap-ins. -/
theorem counters_account_for_events_witness :
    ∃ s0 out s, MemoryManager.create 16 = some s0 ∧ run s0 lruSample = some (out, s)
      ∧ (s.pageFaults, s.pageHits, s.swapOuts, s.swapIns) = (5, 1, 1, 5)
      ∧ occupied s.memory = 4
      ∧ (s.swapIns = s.pageFaults
        ∧ s.pageFaults = ((loads out).length : Int)
        ∧ s.swapOuts = ((victims out).length : Int)
        ∧ s.pageHits + s.pageFaults = (lruSample.length : Int)
        ∧ ((∀ e ∈ lruSample, packInt e.ref ≠ -1) →
            s.swapOuts = s.pageFaults - (occupied s.memory : Int))
        ∧ ((∀ e ∈ lruSample, pack e.ref ≤ INT_MAX) →
            s.swapOuts = s.pageFaults - (occupied s.memory : Int)))
      ∧ (∀ e ∈ lruSample, pack e.ref ≤ INT_MAX) := by
  refine ⟨_, _, _, rfl, rfl, rfl, by decide, ?_, by decide⟩
  exact counters_account_for_events 16 _ _ Policy.LRU lruSample _ rfl (by decide) (by decide)
    (by decide) rfl

/-! ## Reset -/

theorem reset_memory (s : MemoryManager) :
    (reset s).memory = List.replicate s.memory.length (-1) := by
  simp only [reset]
  exact List.map_const' _ _

theorem isPage_neg_one (p n : Int) : isPage p n (-1) = false := by
  simp [isPage]

theorem findResident_all_empty {memory : List Int} (p n : Int)
    (h : ∀ m ∈ memory, m = -1) : findResident memory p n = none := by
  unfold findResident
  rw [List.findIdx?_eq_none_iff]
  intro x hx
  rw [h x hx]
  exact isPage_neg_one p n

theorem findEmpty_all_empty {memory : List Int} (h : ∀ m ∈ memory, m = -1)
    (hne : memory ≠ []) : findEmpty memory = some 0 := by
  rw [findEmpty_eq, findVictimFrame_some]
  obtain ⟨y, ys, rfl⟩ := List.exists_cons_of_ne_nil hne
  refine ⟨?_, fun j hj => absurd hj (Nat.not_lt_zero j)⟩
  rw [h y (List.mem_cons_self _ _)]
  simp

/-- On a table of empty frames every policy loads the reference into frame 0,
whatever the auxiliary state of the policy. -/
theorem step_all_empty {s : MemoryManager} (e : Event) (h : ∀ m ∈ s.memory, m = -1)
    (hne : s.memory ≠ []) :
    ∃ s', step s e
        = some ({ type := "MISS", processId := e.ref.1, pageNumber := e.ref.2,
                  frameNumber := 0, victimPage := -1, pageFaults := s.pageFaults + 1,
                  pageHits := s.pageHits, swapOuts := s.swapOuts,
                  swapIns := s.swapIns + 1 }, s')
      ∧ s'.memory = s.memory.set 0 (packInt e.ref)
      ∧ s'.pageFaults = s.pageFaults + 1 ∧ s'.pageHits = s.pageHits
      ∧ s'.swapOuts = s.swapOuts ∧ s'.swapIns = s.swapIns + 1 := by
  cases e with
  | fifo p n =>
    exact ⟨_, fifo_load (findResident_all_empty p n h) (findEmpty_all_empty h hne),
      rfl, rfl, rfl, rfl, rfl⟩
  | lru p n =>
    exact ⟨_, lru_load (findResident_all_empty p n h) (findEmpty_all_empty h hne),
      rfl, rfl, rfl, rfl, rfl⟩
  | optimal p n fut =>
    exact ⟨_, optimal_load (findResident_all_empty p n h) (findEmpty_all_empty h hne),
      rfl, rfl, rfl, rfl, rfl⟩

/-- C11: for every engine with `N >= 1` frames in a state reached by earlier
reference events, and every reference event `e` of any policy: `e` applied
right after `reset()` returns the same response record and leaves the same
frame table and the same four counters as `e` applied to the freshly
constructed engine of the same RAM size. -/
theorem reset_then_event_like_fresh (ramKB : Int) (s0 s : MemoryManager)
    (evs : List Event) (out : List Response) (e : Event)
    (hnew : MemoryManager.create ramKB = some s0) (hN : 1 ≤ s0.numFrames)
    (hrun : run s0 evs = some (out, s)) :
    ∃ r s1 s2, step (reset s) e = some (r, s1) ∧ step s0 e = some (r, s2)
      ∧ s1.memory = s2.memory
      ∧ s1.pageFaults = s2.pageFaults ∧ s1.pageHits = s2.pageHits
      ∧ s1.swapOuts = s2.swapOuts ∧ s1.swapIns = s2.swapIns := by
  obtain ⟨_, hm, h1, h2, h3, h4, _⟩ := create_spec hnew
  have hlen := run_length_any hrun
  have hmem : (reset s).memory = s0.memory := by
    rw [reset_memory, hlen, hm, List.length_replicate]
  have hne0 := create_ne_nil hnew hN
  obtain ⟨s2, hs2, hm2, a2, b2, c2, d2⟩ := step_all_empty e (create_all_empty hnew) hne0
  obtain ⟨s1, hs1, hm1, a1, b1, c1, d1⟩ :=
    step_all_empty (s := reset s) e (by rw [hmem]; exact create_all_empty hnew)
      (by rw [hmem]; exact hne0)
  have hr : (reset s).pageFaults = 0 ∧ (reset s).pageHits = 0 ∧ (reset s).swapOuts = 0
      ∧ (reset s).swapIns = 0 := ⟨rfl, rfl, rfl, rfl⟩
  simp only [hr.1, hr.2.1, hr.2.2.1, hr.2.2.2] at hs1 a1 b1 c1 d1
  simp only [h1, h2, h3, h4] at hs2 a2 b2 c2 d2
  refine ⟨_, s1, s2, hs1, hs2, ?_, ?_, ?_, ?_, ?_⟩
  · rw [hm1, hm2, hmem]
  · rw [a1, a2]
  · rw [b1, b2]
  · rw [c1, c2]
  · rw [d1, d2]

/-- Witness of C11: on four frames, after the FIFO sample string and a
`reset()`, the LRU reference `(0, 7)` is answered as on a fresh engine: `MISS`
in frame 0 with counters 1, 0, 0, 1. -/
theorem reset_then_event_like_fresh_witness :
    ∃ s0 out s, MemoryManager.create 16 = some s0 ∧ run s0 fifoSample = some (out, s)
      ∧ (step (reset s) (Event.lru 0 7)).map (fun x => (x.1, x.2.memory))
          = some ({ type := "MISS", processId := 0, pageNumber := 7, frameNumber := 0,
                    victimPage := -1, pageFaults := 1, pageHits := 0, swapOuts := 0,
                    swapIns := 1 }, [7, -1, -1, -1])
      ∧ ∃ r s1 s2, step (reset s) (Event.lru 0 7) = some (r, s1)
        ∧ step s0 (Event.lru 0 7) = some (r, s2)
        ∧ s1.memory = s2.memory
        ∧ s1.pageFaults = s2.pageFaults ∧ s1.pageHits = s2.pageHits
        ∧ s1.swapOuts = s2.swapOuts ∧ s1.swapIns = s2.swapIns := by
  refine ⟨_, _, _, rfl, rfl, by decide, ?_⟩
  exact reset_then_event_like_fresh 16 _ _ fifoSample _ (Event.lru 0 7) rfl (by decide) rfl

/-! ## The FIFO scenario of the specification -/

/-- C12: on a freshly constructed engine with 4 frames (RAM 16 KB) the FIFO
reference string `(0,0), (0,1), (0,2), (0,3), (0,0), (0,4)` produces `MISS`,
`MISS`, `MISS`, `MISS`, `HIT`, `MISS`; only the last reference evicts, and it
evicts page 0, the head of the queue; the final frames hold the pages
`{1, 2, 3, 4}`; the final counters are `pageFaults = 5`, `pageHits = 1`,
`swapOuts = 1`, `swapIns = 5`. -/
theorem fifo_sample_trace :
    ∃ s0 out s, MemoryManager.create 16 = some s0 ∧ s0.numFrames = 4
      ∧ s0.memory = [-1, -1, -1, -1]
      ∧ run s0 fifoSample = some (out, s)
      ∧ out.map (fun r => r.type) = ["MISS", "MISS", "MISS", "MISS", "HIT", "MISS"]
      ∧ out.map (fun r => r.victimPage) = [-1, -1, -1, -1, -1, pack (0, 0)]
      ∧ out.map (fun r => r.frameNumber) = [0, 1, 2, 3, 0, 0]
      ∧ s.memory = [pack (0, 4), pack (0, 1), pack (0, 2), pack (0, 3)]
      ∧ s.memory.Perm [1, 2, 3, 4]
      ∧ s.fifoQueue = [(0, 1), (0, 2), (0, 3), (0, 4)]
      ∧ s.pageFaults = 5 ∧ s.pageHits = 1 ∧ s.swapOuts = 1 ∧ s.swapIns = 5 := by
  refine ⟨_, _, _, rfl, rfl, rfl, rfl, by decide, by decide, by decide, by decide, by decide,
    rfl, rfl, rfl, rfl, rfl⟩

/-! ## References outside the exact range of the encoding -/

/-- C14, the claim as stated fails: on two frames the LRU reference
`(0, 10000)` is loaded as the frame value 10000, which the residency test
decodes as page `(1, 0)`; the repeated reference is a `MISS` that writes a
second frame and increments `pageFaults`.  The same happens under FIFO with the
negative `processId` of `(-1, 5)`, whose frame value -9995 decodes as
`(0, -9995)`, under Optimal with `(214749, 0)`, whose packed value does not
fit in an `int`, and under LRU with `(0, -1)`, whose packed value is the empty
marker. -/
theorem repeated_reference_counterexample :
    ∃ s0 r1 s1 r2 s2 r3 s3 r4 s4, MemoryManager.create 8 = some s0
      ∧ lruPageReplacement s0 0 10000 = some (r1, s1)
      ∧ lruPageReplacement s1 0 10000 = some (r2, s2)
      ∧ s1.memory = [10000, -1] ∧ r2.type = "MISS" ∧ s2.memory = [10000, 10000]
      ∧ s1.pageFaults = 1 ∧ s2.pageFaults = 2
      ∧ fifoPageReplacement s0 (-1) 5 = some (r3, s3)
      ∧ fifoPageReplacement s3 (-1) 5 = some (r4, s4)
      ∧ s3.memory = [-9995, -1] ∧ r4.type = "MISS" ∧ s4.memory = [-9995, -9995]
      ∧ s3.pageFaults = 1 ∧ s4.pageFaults = 2
      ∧ (run s0 [Event.optimal 214749 0 [], Event.optimal 214749 0 []]).map
          (fun x => (x.1.map (fun r => r.type), x.2.memory, x.2.pageFaults))
          = some (["MISS", "MISS"], [-2147477296, -2147477296], 2)
      ∧ (run s0 [Event.lru 0 (-1), Event.lru 0 (-1)]).map
          (fun x => (x.1.map (fun r => r.type), x.2.memory, x.2.pageFaults))
          = some (["MISS", "MISS"], [-1, -1], 2) := by
  refine ⟨_, _, _, _, _, _, _, _, _, rfl, rfl, rfl, rfl, rfl, rfl, rfl, rfl, rfl, rfl, rfl, rfl,
    rfl, rfl, rfl, by decide, by decide⟩

/-- A reference to a resident page is a hit under every policy: no frame
changes and `pageFaults` keeps its value. -/
theorem step_hit_of_resident {s : MemoryManager} {e : Event} (hv : Exact e.ref)
    (hres : pack e.ref ∈ s.memory) :
    ∃ r s', step s e = some (r, s') ∧ r.type = "HIT" ∧ r.victimPage = -1
      ∧ s'.memory = s.memory ∧ s'.pageFaults = s.pageFaults
      ∧ s'.pageHits = s.pageHits + 1 := by
  obtain ⟨i, hi⟩ := exists_lowestAt hres
  cases e with
  | fifo p n =>
    have hf : findResident s.memory p n = some i := by
      rw [Exact.findResident_search hv]; exact findVictimFrame_some.mpr hi
    exact ⟨_, _, fifo_hit hf, rfl, rfl, rfl, rfl, rfl⟩
  | lru p n =>
    have hf : findResident s.memory p n = some i := by
      rw [Exact.findResident_search hv]; exact findVictimFrame_some.mpr hi
    exact ⟨_, _, lru_hit hf, rfl, rfl, rfl, rfl, rfl⟩
  | optimal p n fut =>
    have hf : findResident s.memory p n = some i := by
      rw [Exact.findResident_search hv]; exact findVictimFrame_some.mpr hi
    exact ⟨_, _, optimal_hit hf, rfl, rfl, rfl, rfl, rfl⟩

/-- C14 (amended): for any pair of integers `(p, n)`, negative ones included,
on which the frame value is exact (`p * 10000 + n` fits in an `int`, is not the
empty marker `-1` and decodes back to `(p, n)` through `/ 10000` and
`% 10000`, that is `p >= 0` and `0 <= n < 10000`, or `p <= 0` and
`-10000 < n <= 0`), under every policy and from every state: after a reference to
`(p, n)` that did not fail, `(p, n)` is resident, and an immediately repeated
reference to `(p, n)` under the same policy is a `HIT` that changes no frame
and does not increment `pageFaults`. -/
theorem repeated_reference_hits (s s1 : MemoryManager) (e e' : Event) (r1 : Response)
    (hv : Exact e.ref) (hpol : e'.policy = e.policy) (href : e'.ref = e.ref)
    (h1 : step s e = some (r1, s1)) :
    pack e.ref ∈ s1.memory
      ∧ ∃ r2 s2, step s1 e' = some (r2, s2) ∧ r2.type = "HIT" ∧ r2.victimPage = -1
        ∧ s2.memory = s1.memory ∧ s2.pageFaults = s1.pageFaults
        ∧ s2.pageHits = s1.pageHits + 1 := by
  have _ := hpol
  have hres := (step_transition hv h1).resident
  refine ⟨hres, ?_⟩
  exact step_hit_of_resident (href ▸ hv) (href ▸ hres)

/-- Witness of C14 (amended): on the sample half-empty table the LRU reference
`(0, -5)`, with a negative page number, faults once and is a hit when
repeated. -/
theorem repeated_reference_hits_witness :
    ∃ r1 s1, step samplePartial (Event.lru 0 (-5)) = some (r1, s1)
      ∧ r1.type = "MISS" ∧ Exact (0, -5) ∧ ¬ ValidRef (0, -5)
      ∧ (step s1 (Event.lru 0 (-5))).map (fun x => (x.1.type, x.2.memory, x.2.pageFaults))
          = some ("HIT", [0, 1, -5, -1], 3)
      ∧ (pack (Event.lru 0 (-5)).ref ∈ s1.memory
        ∧ ∃ r2 s2, step s1 (Event.lru 0 (-5)) = some (r2, s2) ∧ r2.type = "HIT"
          ∧ r2.victimPage = -1
          ∧ s2.memory = s1.memory ∧ s2.pageFaults = s1.pageFaults
          ∧ s2.pageHits = s1.pageHits + 1) := by
  refine ⟨_, _, rfl, rfl, by decide, by decide, by decide, ?_⟩
  exact repeated_reference_hits samplePartial _ (Event.lru 0 (-5)) (Event.lru 0 (-5)) _
    (by decide) rfl rfl rfl

/-- C15: for references with `processId >= 0` and `0 <= pageNumber < 10000`
the packed identity `processId * 10000 + pageNumber` is injective, round-trips
through the decoding `(v / 10000, v % 10000)` of the residency loop, which then
recognises exactly that value, and is never the empty marker `-1`; with
`pageNumber >= 10000` distinct references collide: `(0, 10000)` and `(1, 0)`
have the same packed value. -/
theorem pack_exact_below_10000 (r u : Int × Int) (hr : ValidRef r) (hu : ValidRef u) :
    (pack r = pack u → r = u)
      ∧ ((pack r).tdiv 10000, (pack r).tmod 10000) = r
      ∧ pack r ≠ -1
      ∧ (∀ m, isPage r.1 r.2 m = true ↔ m = pack r)
      ∧ pack (0, 10000) = pack (1, 0) ∧ ((0 : Int), (10000 : Int)) ≠ (1, 0)
      ∧ isPage 0 10000 (pack (0, 10000)) = false
      ∧ isPage 1 0 (pack (0, 10000)) = true := by
  refine ⟨pack_injective hr hu, decode_pack hr, pack_ne_neg_one hr, ?_, by decide, by decide,
    by decide, by decide⟩
  intro m
  have : ValidRef (r.1, r.2) := hr
  rw [isPage_eq this]
  simp

/-- Witness of C15 at the references `(3, 9999)` and `(4, 0)`. -/
theorem pack_exact_below_10000_witness :
    pack (3, 9999) = 39999 ∧ pack (4, 0) = 40000
      ∧ ((pack (3, 9999) = pack (4, 0) → ((3 : Int), (9999 : Int)) = (4, 0))
      ∧ ((pack (3, 9999)).tdiv 10000, (pack (3, 9999)).tmod 10000) = (3, 9999)
      ∧ pack (3, 9999) ≠ -1
      ∧ (∀ m, isPage 3 9999 m = true ↔ m = pack (3, 9999))
      ∧ pack (0, 10000) = pack (1, 0) ∧ ((0 : Int), (10000 : Int)) ≠ (1, 0)
      ∧ isPage 0 10000 (pack (0, 10000)) = false
      ∧ isPage 1 0 (pack (0, 10000)) = true) :=
  ⟨by decide, by decide, pack_exact_below_10000 (3, 9999) (4, 0) (by decide) (by decide)⟩

/-! ## Process registration -/

/-- The page count of the constructor when the quotient fits in an `int`. -/
theorem numPages_of_fits {size : Int} (h : 0 ≤ size) (hfit : size ≤ INT_MAX * PAGE_SIZE) :
    wrap32 ((wrap64 (size + PAGE_SIZE - 1)).tdiv PAGE_SIZE) = (size + 4095) / 4096 := by
  have hfit2 : size ≤ 2147483647 * 4096 := hfit
  have h1 : wrap64 (size + PAGE_SIZE - 1) = size + 4095 := by
    rw [wrap64_of_fits (by simp only [PAGE_SIZE]; omega) (by simp only [PAGE_SIZE]; omega)]
    simp only [PAGE_SIZE]; omega
  rw [h1]
  simp only [PAGE_SIZE]
  rw [Int.tdiv_eq_ediv (by omega) (by omega)]
  exact wrap32_of_fits (by omega) (by omega)

/-- C16, the claim as stated fails: for the size 2^44 (and 2^44 + 4095 does
not overflow a `long`) the quotient 2^32 is narrowed to the `int` 0, so the
process has `numPages = 0` and no page, although `0 * 4096 < 2^44`.  For the
size 2^43 the quotient 2^31 is narrowed to -2^31, the `resize` throws and
`addProcess` registers no process, having consumed a process id. -/
theorem page_count_counterexample :
    (0 : Int) ≤ 17592186044416 ∧ (17592186044416 : Int) + 4095 ≤ LONG_MAX
      ∧ (Process.create 7 "a.bin" 17592186044416).map (fun pr => (pr.numPages, pr.pages))
          = some (0, [])
      ∧ ¬ ((17592186044416 : Int) ≤ 0 * 4096)
      ∧ (0 : Int) ≤ 8796093022208
      ∧ Process.create 7 "a.bin" 8796093022208 = none
      ∧ (addProcess sampleFull "a.bin" 8796093022208).1 = none
      ∧ (addProcess sampleFull "a.bin" 8796093022208).2.nextProcessId = 1
      ∧ (addProcess sampleFull "a.bin" 8796093022208).2.processes = [] := by
  refine ⟨by decide, by decide, by decide, by decide, by decide, by decide, by decide,
    by decide, by decide⟩

/-- C16 (amended): for every byte size `size >= 0`, a process constructed
with that size has a page list of exactly `numPages` entries, the `i`-th of
which has `pageNumber = i` and the id of the process, and `addProcess`
registers that process under the next process id and returns the id; when the
page count fits in an `int` (`size <= INT_MAX * 4096`) the constructor returns
and `numPages = ceil(size / 4096)`, the least `k >= 0` with
`k * 4096 >= size`. -/
theorem process_page_count (id : Int) (name : String) (size : Int) (h : 0 ≤ size) :
    (∀ proc, Process.create id name size = some proc →
        0 ≤ proc.numPages
        ∧ (proc.pages.length : Int) = proc.numPages
        ∧ (∀ i : Nat, i < proc.pages.length →
            proc.pages[i]? = some { pageNumber := (i : Int), processId := id })
        ∧ proc.processId = id)
      ∧ (∀ (s : MemoryManager) (registered : Process),
          Process.create s.nextProcessId name size = some registered →
          addProcess s name size
            = (some s.nextProcessId,
                { s with
                  nextProcessId := s.nextProcessId + 1
                  processes := s.processes ++ [registered] }))
      ∧ (size ≤ INT_MAX * PAGE_SIZE →
          ∃ proc, Process.create id name size = some proc
            ∧ 0 ≤ proc.numPages
            ∧ size ≤ proc.numPages * 4096
            ∧ ∀ k : Int, 0 ≤ k → size ≤ k * 4096 → proc.numPages ≤ k) := by
  have hshape : ∀ (i : Int) (proc : Process), Process.create i name size = some proc →
      0 ≤ proc.numPages
        ∧ proc.pages = (List.range proc.numPages.toNat).map
            (fun (k : Nat) => ({ pageNumber := (k : Int), processId := i } : Page))
        ∧ proc.processId = i := by
    intro i proc hc
    unfold Process.create at hc
    simp only at hc
    split at hc
    · simp at hc
    · rename_i hn
      simp only [Option.some.injEq] at hc
      subst hc
      exact ⟨by simpa using hn, rfl, rfl⟩
  refine ⟨?_, ?_, ?_⟩
  · intro proc hc
    obtain ⟨h0, hp, hid⟩ := hshape id proc hc
    refine ⟨h0, ?_, ?_, hid⟩
    · rw [hp, List.length_map, List.length_range]
      exact Int.toNat_of_nonneg h0
    · intro i hi
      rw [hp] at hi ⊢
      rw [List.length_map, List.length_range] at hi
      rw [List.getElem?_map, List.getElem?_range hi]
      rfl
  · intro s registered hc
    have hid := (hshape s.nextProcessId registered hc).2.2
    unfold addProcess
    rw [hc]
    simp only [hid]
  · intro hfit
    have hnum := numPages_of_fits h hfit
    have hfit2 : size ≤ 2147483647 * 4096 := hfit
    have hcreate : Process.create id name size
        = some { processId := id, fileName := name, fileSize := size,
                 numPages := (size + 4095) / 4096,
                 pages := (List.range ((size + 4095) / 4096).toNat).map
                   (fun (k : Nat) => ({ pageNumber := (k : Int), processId := id } : Page)) } := by
      unfold Process.create
      simp only [hnum]
      rw [if_neg (by omega)]
    refine ⟨_, hcreate, by simp only; omega, by simp only; omega, ?_⟩
    intro k hk hs
    simp only; omega

/-- Witness of C16 (amended): 8193 bytes take three pages. -/
theorem process_page_count_witness :
    (Process.create 7 "a.bin" 8193).map
        (fun pr => (pr.numPages, pr.pages.map (fun pg => (pg.pageNumber, pg.processId))))
        = some (3, [(0, 7), (1, 7), (2, 7)])
      ∧ (∀ proc, Process.create 7 "a.bin" 8193 = some proc →
          0 ≤ proc.numPages
          ∧ (proc.pages.length : Int) = proc.numPages
          ∧ (∀ i : Nat, i < proc.pages.length →
              proc.pages[i]? = some { pageNumber := (i : Int), processId := 7 })
          ∧ proc.processId = 7)
      ∧ (∀ (s : MemoryManager) (registered : Process),
          Process.create s.nextProcessId "a.bin" 8193 = some registered →
          addProcess s "a.bin" 8193
            = (some s.nextProcessId,
                { s with
                  nextProcessId := s.nextProcessId + 1
                  processes := s.processes ++ [registered] }))
      ∧ ∃ proc, Process.create 7 "a.bin" 8193 = some proc
          ∧ 0 ≤ proc.numPages
          ∧ (8193 : Int) ≤ proc.numPages * 4096
          ∧ ∀ k : Int, 0 ≤ k → (8193 : Int) ≤ k * 4096 → proc.numPages ≤ k := by
  refine ⟨by decide, ?_⟩
  obtain ⟨h1, h2, h3⟩ := process_page_count 7 "a.bin" 8193 (by decide)
  exact ⟨h1, h2, h3 (by decide)⟩

/-! ## The tie-break of LRU -/

/-- C17: on a full table of `N >= 1` frames, for every timestamp map (an
occupant without recorded timestamp reads as 0; the smallest timestamp is below
`LONG_MAX`, the value the loop starts from) and every reference that is not
resident (the residency loop finds it in no frame), `lruPageReplacement` evicts
the occupant of the lowest frame among the frames whose occupant has the
smallest timestamp.  That frame is determined by the order of the frames and
the timestamps of their occupants alone.  The frame receives the `int` value
of the packed reference. -/
theorem lru_tie_break_lowest_frame (s : MemoryManager) (p n : Int)
    (hfull : ∀ m ∈ s.memory, m ≠ -1)
    (hnr : findResident s.memory p n = none)
    (hmin : ∃ m ∈ s.memory, frameTime s.accessTime m < LONG_MAX) :
    ∃ (v : Nat) (old : Int), s.memory[v]? = some old
      ∧ (∀ y ∈ s.memory, frameTime s.accessTime old ≤ frameTime s.accessTime y)
      ∧ (∀ (j : Nat) (y : Int), j < v → s.memory[j]? = some y →
          frameTime s.accessTime old < frameTime s.accessTime y)
      ∧ lruPageReplacement s p n
          = some ({ type := "MISS", processId := p, pageNumber := n, frameNumber := v,
                    victimPage := old, pageFaults := s.pageFaults + 1,
                    pageHits := s.pageHits, swapOuts := s.swapOuts + 1,
                    swapIns := s.swapIns + 1 },
                  { s with
                    memory := s.memory.set v (packInt (p, n))
                    pageFaults := s.pageFaults + 1
                    swapOuts := s.swapOuts + 1
                    swapIns := s.swapIns + 1
                    currentTime := s.currentTime + 1
                    accessTime := fun k =>
                      if k = (p, n) then s.currentTime + 1 else s.accessTime k })
      ∧ ∀ (t : Int × Int → Int) (w : Nat) (old' : Int),
          (∀ m ∈ s.memory, frameTime t m = frameTime s.accessTime m) →
          s.memory[w]? = some old' →
          (∀ y ∈ s.memory, frameTime t old' ≤ frameTime t y) →
          (∀ (j : Nat) (y : Int), j < w → s.memory[j]? = some y →
            frameTime t old' < frameTime t y) →
          w = v := by
  have he : findEmpty s.memory = none := by
    rw [findEmpty_eq]; exact findVictimFrame_none.mpr (not_mem_of_forall_ne_neg_one hfull)
  obtain ⟨v, old, hvo, hscan, hlow, hmn⟩ := lruScan_found hmin
  refine ⟨v, old, hvo, hmn, hlow, lru_evict hnr he hscan, ?_⟩
  intro t w old' ht hw hmn' hlow'
  have hold : old ∈ s.memory := List.getElem?_mem hvo
  have hold' : old' ∈ s.memory := List.getElem?_mem hw
  rcases Nat.lt_trichotomy w v with h | h | h
  · have h1 := hlow w old' h hw
    have h2 := hmn' old hold
    rw [ht old hold, ht old' hold'] at h2
    omega
  · exact h
  · have h1 := hlow' v old h hvo
    have h2 := hmn old' hold'
    rw [ht old hold, ht old' hold'] at h1
    omega

/-- Witness of C17: frames `[0, 1, 2, 3]` in which pages 1 and 3 share the
smallest timestamp 2: the fault on `(0, 4)` evicts page 1 from frame 1. -/
theorem lru_tie_break_lowest_frame_witness :
    (lruPageReplacement
        { sampleFull with
          accessTime := fun k => if k = (0, 1) ∨ k = (0, 3) then 2 else 5 } 0 4).map
        (fun x => (x.1.frameNumber, x.1.victimPage, x.2.memory))
        = some (1, 1, [0, 4, 2, 3])
      ∧ ∃ (v : Nat) (old : Int), sampleFull.memory[v]? = some old
        ∧ lruPageReplacement
            { sampleFull with
              accessTime := fun k => if k = (0, 1) ∨ k = (0, 3) then 2 else 5 } 0 4
          = some ({ type := "MISS", processId := 0, pageNumber := 4, frameNumber := v,
                    victimPage := old, pageFaults := sampleFull.pageFaults + 1,
                    pageHits := sampleFull.pageHits, swapOuts := sampleFull.swapOuts + 1,
                    swapIns := sampleFull.swapIns + 1 },
                  { sampleFull with
                    memory := sampleFull.memory.set v (packInt (0, 4))
                    pageFaults := sampleFull.pageFaults + 1
                    swapOuts := sampleFull.swapOuts + 1
                    swapIns := sampleFull.swapIns + 1
                    currentTime := sampleFull.currentTime + 1
                    accessTime := fun k =>
                      if k = (0, 4) then sampleFull.currentTime + 1
                      else if k = (0, 1) ∨ k = (0, 3) then 2 else 5 }) := by
  refine ⟨by decide, ?_⟩
  obtain ⟨v, old, h1, _, _, h4, _⟩ := lru_tie_break_lowest_frame
    { sampleFull with accessTime := fun k => if k = (0, 1) ∨ k = (0, 3) then 2 else 5 } 0 4
    (by decide) (by decide) ⟨0, by decide, by decide⟩
  exact ⟨v, old, h1, h4⟩

/-! ## Reset and the FIFO queue -/

/-- C18: `reset()` leaves the FIFO queue, the LRU timestamps and the LRU clock
as they were; as a result, with one frame, after `FIFO(0,0)`, `reset()`,
`FIFO(0,1)` the queue still starts with `(0, 0)`, which no frame holds, and in
`FIFO(0,2)` the page is not resident, no frame is empty, the search for the
frame of the dequeued victim finds nothing (`victimFrame` stays `-1`) and the
call has no defined result: its frame write is out of range. -/
theorem reset_keeps_queue_and_breaks_fifo :
    (∀ s : MemoryManager, (reset s).fifoQueue = s.fifoQueue
        ∧ (reset s).accessTime = s.accessTime ∧ (reset s).currentTime = s.currentTime)
      ∧ ∃ s0 r1 s1 r2 s2, MemoryManager.create 4 = some s0 ∧ s0.memory = [-1]
        ∧ fifoPageReplacement s0 0 0 = some (r1, s1)
        ∧ fifoPageReplacement (reset s1) 0 1 = some (r2, s2)
        ∧ s2.memory = [pack (0, 1)] ∧ s2.fifoQueue = [(0, 0), (0, 1)]
        ∧ pack (0, 0) ∉ s2.memory
        ∧ findResident s2.memory 0 2 = none ∧ findEmpty s2.memory = none
        ∧ findVictimFrame s2.memory (pack (0, 0)) = none
        ∧ fifoPageReplacement s2 0 2 = none := by
  refine ⟨fun s => ⟨rfl, rfl, rfl⟩, _, _, _, _, _, rfl, rfl, rfl, rfl, rfl, rfl, by decide,
    by decide, by decide, by decide, rfl⟩

/-! ## FIFO: the queue mirrors the frame table -/

theorem Distinct.tail {x : Int} {xs : List Int} (h : Distinct (x :: xs)) : Distinct xs := by
  intro i j y hi hj hy
  have := h (i + 1) (j + 1) y (by simpa using hi) (by simpa using hj) hy
  omega

theorem Distinct.head_not_mem {x : Int} {xs : List Int} (h : Distinct (x :: xs))
    (hx : x ≠ -1) : x ∉ xs := by
  intro hm
  obtain ⟨j, hj⟩ := List.mem_iff_getElem?.mp hm
  have := h 0 (j + 1) x (by simp) (by simpa using hj) hx
  omega

theorem Distinct.nodup_filter {l : List Int} (h : Distinct l) :
    (l.filter (fun m => decide (m ≠ -1))).Nodup := by
  induction l with
  | nil => simp
  | cons x xs ih =>
    rw [List.filter_cons]
    split
    · rename_i hx
      simp only [ne_eq, decide_eq_true_eq] at hx
      rw [List.nodup_cons]
      exact ⟨fun hm => h.head_not_mem hx (List.mem_of_mem_filter hm), ih h.tail⟩
    · exact ih h.tail

/-- C19, the claim as stated fails: on one frame the FIFO references
`(429496, 7295)`, `(0, 0)` (`processId >= 0`, `0 <= pageNumber < 10000`) reach
a state whose queue holds two references while the only frame holds page
`(0, 0)`: the first reference wrote the `int` -1 (its packed value is
4294967295) and left the frame empty.  The next fault on the full table,
`(0, 1)`, dequeues `(429496, 7295)`, finds it in no frame (`victimFrame` stays
-1) and writes `memory[-1]`. -/
theorem fifo_queue_counterexample :
    ∃ s0 out s, MemoryManager.create 4 = some s0 ∧ s0.numFrames = 1
      ∧ ValidRef (429496, 7295) ∧ ValidRef (0, 0) ∧ ValidRef (0, 1)
      ∧ run s0 [Event.fifo 429496 7295, Event.fifo 0 0] = some (out, s)
      ∧ out.map (fun r => r.type) = ["MISS", "MISS"]
      ∧ s.memory = [0] ∧ s.fifoQueue = [(429496, 7295), (0, 0)]
      ∧ (-1 : Int) ∉ s.memory ∧ findResident s.memory 0 1 = none
      ∧ findVictimFrame s.memory (packInt (429496, 7295)) = none
      ∧ fifoPageReplacement s 0 1 = none
      ∧ run s0 [Event.fifo 429496 7295, Event.fifo 0 0, Event.fifo 0 1] = none := by
  refine ⟨_, _, _, rfl, rfl, by decide, by decide, by decide, rfl, by decide, rfl, rfl,
    by decide, by decide, by decide, rfl, rfl⟩

/-- C19 (amended): in every state reached from a freshly constructed engine
with `N >= 1` frames by `fifoPageReplacement` calls only (`processId >= 0`,
`0 <= pageNumber < 10000`, `processId * 10000 + pageNumber <= INT_MAX`), the
FIFO queue holds exactly the occupants of the occupied frames, each exactly
once, in the order in which they were loaded (the loads that were not
evicted); hence on every full-table fault the dequeued head is found in a
frame and `victimFrame` is an index in `[0, N)`. -/
theorem fifo_queue_mirrors_frames (ramKB : Int) (s0 : MemoryManager) (evs : List Event)
    (p n : Int) (hnew : MemoryManager.create ramKB = some s0) (hN : 1 ≤ s0.numFrames)
    (hpol : ∀ e ∈ evs, e.policy = Policy.FIFO) (hvalid : ∀ e ∈ evs, ValidRef e.ref)
    (hfit : ∀ e ∈ evs, pack e.ref ≤ INT_MAX)
    (hv : ValidRef (p, n)) (hfitp : pack (p, n) ≤ INT_MAX) :
    ∃ out s, run s0 evs = some (out, s)
      ∧ (s.fifoQueue.map pack).Perm (s.memory.filter (fun m => decide (m ≠ -1)))
      ∧ s.fifoQueue.Nodup ∧ (∀ r ∈ s.fifoQueue, ValidRef r)
      ∧ loads out = victims out ++ s.fifoQueue.map pack
      ∧ ((-1 : Int) ∉ s.memory → pack (p, n) ∉ s.memory →
          ∃ victim rest v r s', s.fifoQueue = victim :: rest
            ∧ findVictimFrame s.memory (pack victim) = some v
            ∧ s.memory[v]? = some (pack victim) ∧ (v : Int) < s0.numFrames
            ∧ fifoPageReplacement s p n = some (r, s')
            ∧ r.frameNumber = (v : Int) ∧ r.victimPage = pack victim) := by
  have hex : ∀ e ∈ evs, Exact e.ref := fun e he => exact_of_valid (hvalid e he) (hfit e he)
  have hexp : Exact (p, n) := exact_of_valid hv hfitp
  obtain ⟨out, s, hrun, hinv0, hq, _, _⟩ :=
    fifo_run evs s0 hpol hex (create_fifoInv hnew) (create_ne_nil hnew hN)
  obtain ⟨_, _, _, _, _, _, hq0, _⟩ := create_spec hnew
  have hqe : ∀ r ∈ s.fifoQueue, Exact r :=
    fifo_run_queue_valid hpol hex hex (by rw [hq0]; simp) hrun
  have hpk := map_packInt_eq_map_pack hqe
  have hinv : (s.fifoQueue.map pack).Perm (s.memory.filter (fun m => decide (m ≠ -1))) := by
    rw [← hpk]; exact hinv0
  rw [hq0, hpk] at hq
  simp only [List.map_nil, List.nil_append] at hq
  have hd : Distinct s.memory := run_distinct hex (create_distinct hnew) hrun
  have hlen : (s.memory.length : Int) = s0.numFrames := by
    rw [run_length hex hrun]; exact create_length hnew
  have hne : s.memory ≠ [] := by
    intro e
    rw [e] at hlen
    simp at hlen
    omega
  have hnd : (s.fifoQueue.map pack).Nodup := (List.Perm.nodup_iff hinv).mpr hd.nodup_filter
  refine ⟨out, s, hrun, hinv, List.Nodup.of_map _ hnd,
    fifo_run_queue_valid hpol hex hvalid (by rw [hq0]; simp) hrun, hq, ?_⟩
  intro hfull hnr
  obtain ⟨r, s', hstep⟩ := fifo_progress p n hinv0 hne
  obtain ⟨_, _, _, hc⟩ := fifo_step hexp hstep
  have hmiss := (fifo_step hexp hstep).1.miss_of_full hnr
  rcases hc with ⟨ht, _, _, _⟩ | ⟨_, _, _, _, i, hi, _⟩ |
    ⟨_, _, _, victim, rest, v, h0, h1, _, hlow, _⟩
  · rw [hmiss] at ht
    exact absurd ht (by decide)
  · exact absurd hi.mem hfull
  · have hve : packInt victim = pack victim :=
      (hqe victim (by rw [h0]; exact List.mem_cons_self _ _)).packInt_eq
    rw [hve] at h1 hlow
    have hfn : r.frameNumber = (v : Int) := by
      obtain ⟨_, _, _, h | h | h⟩ := (fifo_step hexp hstep).1
      · exact absurd h.2.2.1 hnr
      · obtain ⟨_, _, _, ⟨i, hi, _⟩, _⟩ := h
        exact absurd hi.mem hfull
      · obtain ⟨_, _, _, ⟨w, old, hw, hvp, _, hfr⟩, _⟩ := h
        rw [hfr]
        have hold : old ≠ -1 := fun e => hfull (e ▸ List.getElem?_mem hw)
        have := hd w v old hw (by rw [← hvp, h1]; exact hlow.1) hold
        rw [this]
    have hvl := hlow.lt_length
    exact ⟨victim, rest, v, r, s', h0, findVictimFrame_some.mpr hlow, hlow.1, by omega, hstep,
      hfn, h1⟩

/-- Witness of C19 (amended): after the first five references of the FIFO sample string
on four frames the queue is `[(0,0), (0,1), (0,2), (0,3)]`, and the fault on
`(0, 4)` finds the head `(0, 0)` in frame 0. -/
theorem fifo_queue_mirrors_frames_witness :
    ∃ s0, MemoryManager.create 16 = some s0
      ∧ (run s0 (fifoSample.take 5)).map (fun x => (x.2.fifoQueue, x.2.memory))
          = some ([(0, 0), (0, 1), (0, 2), (0, 3)], [0, 1, 2, 3])
      ∧ ∃ out s, run s0 (fifoSample.take 5) = some (out, s)
        ∧ (s.fifoQueue.map pack).Perm (s.memory.filter (fun m => decide (m ≠ -1)))
        ∧ s.fifoQueue.Nodup ∧ (∀ r ∈ s.fifoQueue, ValidRef r)
        ∧ loads out = victims out ++ s.fifoQueue.map pack
        ∧ ((-1 : Int) ∉ s.memory → pack (0, 4) ∉ s.memory →
            ∃ victim rest v r s', s.fifoQueue = victim :: rest
              ∧ findVictimFrame s.memory (pack victim) = some v
              ∧ s.memory[v]? = some (pack victim) ∧ (v : Int) < s0.numFrames
              ∧ fifoPageReplacement s 0 4 = some (r, s')
              ∧ r.frameNumber = (v : Int) ∧ r.victimPage = pack victim) := by
  refine ⟨_, rfl, by decide, ?_⟩
  exact fifo_queue_mirrors_frames 16 _ (fifoSample.take 5) 0 4 rfl (by decide) (by decide)
    (by decide) (by decide) (by decide) (by decide)

/-! ## Mixing the policies -/

/-- C20: for every frame count `N >= 1` and every sequence that freely mixes
`fifoPageReplacement`, `lruPageReplacement` and `optimalPageReplacement` calls
(`processId >= 0`, `0 <= pageNumber < 10000`, no `int` overflow:
`processId * 10000 + pageNumber <= INT_MAX`) on a freshly constructed engine,
as long as every call is defined (every FIFO eviction finds its dequeued
victim resident): every state reached has pairwise distinct occupants in its
occupied frames, and the referenced page is resident right after each call. -/
theorem mixed_policies_keep_frames_distinct (ramKB : Int) (s0 : MemoryManager)
    (hnew : MemoryManager.create ramKB = some s0) (hN : 1 ≤ s0.numFrames) :
    (∀ (evs : List Event) (out : List Response) (s : MemoryManager),
        (∀ e ∈ evs, ValidRef e.ref) → (∀ e ∈ evs, pack e.ref ≤ INT_MAX) →
        run s0 evs = some (out, s) → Distinct s.memory)
      ∧ ∀ (evs : List Event) (e : Event) (out : List Response) (s : MemoryManager),
          (∀ x ∈ evs, ValidRef x.ref) → (∀ x ∈ evs, pack x.ref ≤ INT_MAX) →
          ValidRef e.ref → pack e.ref ≤ INT_MAX →
          run s0 (evs ++ [e]) = some (out, s) → pack e.ref ∈ s.memory := by
  have _ := hN
  refine ⟨fun evs out s hv hf hrun =>
    run_distinct (fun e he => exact_of_valid (hv e he) (hf e he)) (create_distinct hnew) hrun,
    ?_⟩
  intro evs e out s _ _ he hfe hrun
  obtain ⟨out1, s1, out2, _, h2, _⟩ := run_append_some hrun
  obtain ⟨r, s2, rs, h3, h4, _⟩ := run_cons_some h2
  simp only [run, Option.some.injEq, Prod.mk.injEq] at h4
  rw [← h4.2]
  exact (step_transition (exact_of_valid he hfe) h3).resident

/-- Witness of C20: a sequence mixing the three policies on four frames ends
with the frames `[5, 4, 2, 3]`. -/
theorem mixed_policies_keep_frames_distinct_witness :
    ∃ s0 out s, MemoryManager.create 16 = some s0 ∧ run s0 mixedSample = some (out, s)
      ∧ s.memory = [5, 4, 2, 3] ∧ out.map (fun r => r.victimPage) = [-1, -1, -1, -1, -1, 1, 0]
      ∧ Distinct s.memory ∧ pack (0, 5) ∈ s.memory := by
  refine ⟨_, _, _, rfl, rfl, rfl, by decide, ?_, ?_⟩
  · exact (mixed_policies_keep_frames_distinct 16 _ rfl (by decide)).1 mixedSample _ _
      (by decide) (by decide) rfl
  · exact (mixed_policies_keep_frames_distinct 16 _ rfl (by decide)).2 (mixedSample.take 6)
      (Event.fifo 0 5) _ _ (by decide) (by decide) (by decide) (by decide) rfl

/-! ## Demand paging: exchanging one resident page -/

theorem insert_erase_insert {D : Finset (Int × Int)} {b y : Int × Int} (z : Int × Int)
    (hby : b ≠ y) :
    insert z ((insert b D).erase y) = insert b (insert z (D.erase y)) := by
  rw [Finset.erase_insert_of_ne hby, Finset.Insert.comm]

theorem insert_insert_erase {D : Finset (Int × Int)} {y : Int × Int} (a : Int × Int)
    (hy : y ∈ D) : insert y (insert a (D.erase y)) = insert a D := by
  rw [Finset.Insert.comm, Finset.insert_erase hy]

/-- Two full tables that differ in one page: a run from one is matched from the
other with at most one more fault. -/
theorem fullRun_exchange (refs : List (Int × Int)) :
    ∀ (D : Finset (Int × Int)) (a b : Int × Int) (k : Nat), a ∉ D → b ∉ D →
      FullRun (insert b D) refs k → ∃ k', k' ≤ k + 1 ∧ FullRun (insert a D) refs k' := by
  induction refs with
  | nil =>
    intro D a b k _ _ h
    exact ⟨0, by omega, rfl⟩
  | cons z rest ih =>
    intro D a b k ha hb h
    by_cases hab : a = b
    · subst hab; exact ⟨k, by omega, h⟩
    simp only [FullRun] at h
    rcases h with ⟨hz, h⟩ | ⟨hz, y, hy, k0, rfl, h⟩
    · rcases Finset.mem_insert.mp hz with rfl | hzD
      · -- the page `b` is referenced: the other table evicts `a` for it
        have hnb : z ∉ insert a D := by
          simp only [Finset.mem_insert, not_or]
          exact ⟨fun e => hab e.symm, hb⟩
        refine ⟨k + 1, le_refl _, ?_⟩
        simp only [FullRun]
        refine Or.inr ⟨hnb, a, Finset.mem_insert_self _ _, k, rfl, ?_⟩
        rw [Finset.erase_insert ha]; exact h
      · obtain ⟨k', hk', h'⟩ := ih D a b k ha hb h
        refine ⟨k', hk', ?_⟩
        simp only [FullRun]
        exact Or.inl ⟨Finset.mem_insert_of_mem hzD, h'⟩
    · simp only [Finset.mem_insert, not_or] at hz
      obtain ⟨hzb, hzD⟩ := hz
      by_cases hza : z = a
      · subst hza
        rcases Finset.mem_insert.mp hy with rfl | hyD
        · rw [Finset.erase_insert hb] at h
          refine ⟨k0, by omega, ?_⟩
          simp only [FullRun]
          exact Or.inl ⟨Finset.mem_insert_self _ _, h⟩
        · have hyb : b ≠ y := fun e => hb (e ▸ hyD)
          have hyz : y ≠ z := fun e => ha (e ▸ hyD)
          rw [insert_erase_insert z hyb] at h
          have h1 : y ∉ insert z (D.erase y) := by
            simp only [Finset.mem_insert, Finset.mem_erase, not_or, not_and]
            exact ⟨hyz, fun hne => absurd rfl hne⟩
          have h2 : b ∉ insert z (D.erase y) := by
            simp only [Finset.mem_insert, Finset.mem_erase, not_or, not_and]
            exact ⟨fun e => hzb e.symm, fun _ => hb⟩
          obtain ⟨k', hk', h'⟩ := ih _ y b k0 h1 h2 h
          rw [insert_insert_erase z hyD] at h'
          refine ⟨k', by omega, ?_⟩
          simp only [FullRun]
          exact Or.inl ⟨Finset.mem_insert_self _ _, h'⟩
      · have hnz : z ∉ insert a D := by
          simp only [Finset.mem_insert, not_or]
          exact ⟨hza, hzD⟩
        rcases Finset.mem_insert.mp hy with rfl | hyD
        · rw [Finset.erase_insert hb] at h
          refine ⟨k0 + 1, by omega, ?_⟩
          simp only [FullRun]
          refine Or.inr ⟨hnz, a, Finset.mem_insert_self _ _, k0, rfl, ?_⟩
          rw [Finset.erase_insert ha]; exact h
        · have hyb : b ≠ y := fun e => hb (e ▸ hyD)
          have hya : a ≠ y := fun e => ha (e ▸ hyD)
          rw [insert_erase_insert z hyb] at h
          have h1 : a ∉ insert z (D.erase y) := by
            simp only [Finset.mem_insert, Finset.mem_erase, not_or, not_and]
            exact ⟨fun e => hza e.symm, fun _ => ha⟩
          have h2 : b ∉ insert z (D.erase y) := by
            simp only [Finset.mem_insert, Finset.mem_erase, not_or, not_and]
            exact ⟨fun e => hzb e.symm, fun _ => hb⟩
          obtain ⟨k', hk', h'⟩ := ih _ a b k0 h1 h2 h
          refine ⟨k' + 1, by omega, ?_⟩
          simp only [FullRun]
          refine Or.inr ⟨hnz, y, Finset.mem_insert_of_mem hyD, k', rfl, ?_⟩
          rw [insert_erase_insert z hya]; exact h'

/-- Two full tables that differ in one page, where the page `a` of the first
is referenced no later than the page `b` of the second: a run from the second
is matched from the first without more faults. -/
theorem fullRun_sooner (refs : List (Int × Int)) :
    ∀ (D : Finset (Int × Int)) (a b : Int × Int) (k : Nat), a ∉ D → b ∉ D →
      distance refs a ≤ distance refs b →
      FullRun (insert b D) refs k → ∃ k', k' ≤ k ∧ FullRun (insert a D) refs k' := by
  induction refs with
  | nil =>
    intro D a b k _ _ _ h
    exact ⟨0, by omega, rfl⟩
  | cons z rest ih =>
    intro D a b k ha hb hd h
    by_cases hab : a = b
    · subst hab; exact ⟨k, le_refl _, h⟩
    have hzb : z ≠ b := by
      intro e
      simp only [distance, e, if_true] at hd
      split at hd
      · rename_i e2; exact hab e2.symm
      · omega
    simp only [FullRun] at h
    rcases h with ⟨hz, h⟩ | ⟨hz, y, hy, k0, rfl, h⟩
    · rcases Finset.mem_insert.mp hz with rfl | hzD
      · exact absurd rfl hzb
      · have hza : z ≠ a := fun e => ha (e ▸ hzD)
        have hd' : distance rest a ≤ distance rest b := by
          simp only [distance, hza, hzb, if_false] at hd
          omega
        obtain ⟨k', hk', h'⟩ := ih D a b k ha hb hd' h
        refine ⟨k', hk', ?_⟩
        simp only [FullRun]
        exact Or.inl ⟨Finset.mem_insert_of_mem hzD, h'⟩
    · simp only [Finset.mem_insert, not_or] at hz
      obtain ⟨_, hzD⟩ := hz
      by_cases hza : z = a
      · subst hza
        rcases Finset.mem_insert.mp hy with rfl | hyD
        · rw [Finset.erase_insert hb] at h
          refine ⟨k0, by omega, ?_⟩
          simp only [FullRun]
          exact Or.inl ⟨Finset.mem_insert_self _ _, h⟩
        · have hyb : b ≠ y := fun e => hb (e ▸ hyD)
          have hyz : y ≠ z := fun e => ha (e ▸ hyD)
          rw [insert_erase_insert z hyb] at h
          have h1 : y ∉ insert z (D.erase y) := by
            simp only [Finset.mem_insert, Finset.mem_erase, not_or, not_and]
            exact ⟨hyz, fun hne => absurd rfl hne⟩
          have h2 : b ∉ insert z (D.erase y) := by
            simp only [Finset.mem_insert, Finset.mem_erase, not_or, not_and]
            exact ⟨fun e => hzb e.symm, fun _ => hb⟩
          obtain ⟨k', hk', h'⟩ := fullRun_exchange rest _ y b k0 h1 h2 h
          rw [insert_insert_erase z hyD] at h'
          refine ⟨k', by omega, ?_⟩
          simp only [FullRun]
          exact Or.inl ⟨Finset.mem_insert_self _ _, h'⟩
      · have hnz : z ∉ insert a D := by
          simp only [Finset.mem_insert, not_or]
          exact ⟨hza, hzD⟩
        have hd' : distance rest a ≤ distance rest b := by
          simp only [distance, hza, hzb, if_false] at hd
          omega
        rcases Finset.mem_insert.mp hy with rfl | hyD
        · rw [Finset.erase_insert hb] at h
          refine ⟨k0 + 1, le_refl _, ?_⟩
          simp only [FullRun]
          refine Or.inr ⟨hnz, a, Finset.mem_insert_self _ _, k0, rfl, ?_⟩
          rw [Finset.erase_insert ha]; exact h
        · have hyb : b ≠ y := fun e => hb (e ▸ hyD)
          have hya : a ≠ y := fun e => ha (e ▸ hyD)
          rw [insert_erase_insert z hyb] at h
          have h1 : a ∉ insert z (D.erase y) := by
            simp only [Finset.mem_insert, Finset.mem_erase, not_or, not_and]
            exact ⟨fun e => hza e.symm, fun _ => ha⟩
          have h2 : b ∉ insert z (D.erase y) := by
            simp only [Finset.mem_insert, Finset.mem_erase, not_or, not_and]
            exact ⟨fun e => hzb e.symm, fun _ => hb⟩
          obtain ⟨k', hk', h'⟩ := ih _ a b k0 h1 h2 hd' h
          refine ⟨k' + 1, by omega, ?_⟩
          simp only [FullRun]
          refine Or.inr ⟨hnz, y, Finset.mem_insert_of_mem hyD, k', rfl, ?_⟩
          rw [insert_erase_insert z hya]; exact h'

theorem card_insert_erase {C : Finset (Int × Int)} {z y : Int × Int} (hz : z ∉ C)
    (hy : y ∈ C) : (insert z (C.erase y)).card = C.card := by
  have h1 : z ∉ C.erase y := fun h => hz (Finset.mem_of_mem_erase h)
  rw [Finset.card_insert_of_not_mem h1, Finset.card_erase_of_mem hy]
  have := Finset.card_pos.mpr ⟨y, hy⟩
  omega

/-- On a full table the demand-paging runs are the runs that replace a
resident page at every fault. -/
theorem demandRun_iff_fullRun (N : Nat) (refs : List (Int × Int)) :
    ∀ (C : Finset (Int × Int)) (k : Nat), C.card = N →
      (DemandRun N C refs k ↔ FullRun C refs k) := by
  induction refs with
  | nil => intro C k _; simp only [DemandRun, FullRun]
  | cons z rest ih =>
    intro C k hc
    simp only [DemandRun, FullRun]
    constructor
    · rintro (⟨hz, h⟩ | ⟨_, hlt, _⟩ | ⟨hz, _, y, hy, k0, hk, h⟩)
      · exact Or.inl ⟨hz, (ih C k hc).mp h⟩
      · omega
      · exact Or.inr ⟨hz, y, hy, k0, hk,
          (ih _ k0 ((card_insert_erase hz hy).trans hc)).mp h⟩
    · rintro (⟨hz, h⟩ | ⟨hz, y, hy, k0, hk, h⟩)
      · exact Or.inl ⟨hz, (ih C k hc).mpr h⟩
      · exact Or.inr (Or.inr ⟨hz, by omega, y, hy, k0, hk,
          (ih _ k0 ((card_insert_erase hz hy).trans hc)).mpr h⟩)

/-! ## The resident set of a frame table -/

theorem decode_injective :
    Function.Injective (fun m : Int => (m.tdiv 10000, m.tmod 10000)) := by
  intro m m' h
  simp only at h
  rw [← pack_decode m, ← pack_decode m', h]

theorem mem_residents {memory : List Int} {r : Int × Int} :
    r ∈ residents memory ↔ ∃ m ∈ memory, m ≠ -1 ∧ (m.tdiv 10000, m.tmod 10000) = r := by
  simp only [residents, List.mem_toFinset, List.mem_map, List.mem_filter, ne_eq,
    decide_eq_true_eq]
  constructor
  · rintro ⟨m, ⟨h1, h2⟩, h3⟩
    exact ⟨m, h1, h2, h3⟩
  · rintro ⟨m, h1, h2, h3⟩
    exact ⟨m, ⟨h1, h2⟩, h3⟩

theorem mem_residents_of_valid {memory : List Int} {x : Int × Int} (hv : Exact x) :
    x ∈ residents memory ↔ pack x ∈ memory := by
  rw [mem_residents]
  constructor
  · rintro ⟨m, hm, _, hd⟩
    rw [← hd, pack_decode]
    exact hm
  · intro h
    exact ⟨pack x, h, Exact.ne_empty_marker hv, Exact.decode_eq hv⟩

theorem decode_mem_residents {memory : List Int} {m : Int} (hm : m ∈ memory) (h : m ≠ -1) :
    (m.tdiv 10000, m.tmod 10000) ∈ residents memory :=
  mem_residents.mpr ⟨m, hm, h, rfl⟩

theorem residents_all_empty {memory : List Int} (h : ∀ m ∈ memory, m = -1) :
    residents memory = ∅ := by
  apply Finset.eq_empty_of_forall_not_mem
  intro r hr
  obtain ⟨m, hm, hne, _⟩ := mem_residents.mp hr
  exact hne (h m hm)

theorem residents_set_empty {memory : List Int} {i : Nat} {x : Int × Int}
    (hv : Exact x) (hi : memory[i]? = some (-1)) :
    residents (memory.set i (pack x)) = insert x (residents memory) := by
  have hp := filter_set_empty (Exact.ne_empty_marker hv) memory i hi
  unfold residents
  rw [List.toFinset_eq_of_perm _ _ (hp.map _)]
  simp only [List.map_cons, List.toFinset_cons]
  rw [Exact.decode_eq hv]

theorem residents_set_occupied {memory : List Int} {v : Nat} {old : Int} {x : Int × Int}
    (hv : Exact x) (hd : Distinct memory) (hvo : memory[v]? = some old)
    (hold : old ≠ -1) (hnr : pack x ∉ memory) :
    residents (memory.set v (pack x))
      = insert x ((residents memory).erase (old.tdiv 10000, old.tmod 10000)) := by
  have hp := filter_set_occupied (Exact.ne_empty_marker hv) hold memory v hvo
  have h1 : insert (old.tdiv 10000, old.tmod 10000) (residents (memory.set v (pack x)))
      = insert x (residents memory) := by
    unfold residents
    have := List.toFinset_eq_of_perm _ _
      (hp.map (fun m : Int => (m.tdiv 10000, m.tmod 10000)))
    simp only [List.map_cons, List.toFinset_cons] at this
    rw [this, Exact.decode_eq hv]
  have h2 : (old.tdiv 10000, old.tmod 10000) ∉ residents (memory.set v (pack x)) := by
    intro hin
    obtain ⟨m, hm, hne, hdm⟩ := mem_residents.mp hin
    have hmo : m = old := decode_injective hdm
    rcases mem_set_cases hm with h3 | ⟨j, hj, h3⟩
    · exact hnr (h3 ▸ hmo ▸ List.getElem?_mem hvo)
    · exact hj (hd j v old (hmo ▸ h3) hvo hold)
  have h3 : (old.tdiv 10000, old.tmod 10000) ≠ x := by
    intro e
    apply hnr
    rw [← e, pack_decode]
    exact List.getElem?_mem hvo
  rw [← Finset.erase_insert h2, h1, Finset.erase_insert_of_ne (Ne.symm h3)]

theorem card_residents {memory : List Int} (hd : Distinct memory) :
    (residents memory).card = occupied memory := by
  unfold residents
  rw [List.toFinset_card_of_nodup (hd.nodup_filter.map decode_injective), List.length_map,
    occupied_eq_length_filter]

theorem occupied_lt_length {memory : List Int} (h : (-1 : Int) ∈ memory) :
    occupied memory < memory.length := by
  rw [occupied_eq_length_filter, List.length_filter_lt_length_iff_exists]
  exact ⟨-1, h, by decide⟩

theorem occupied_eq_length {memory : List Int} (h : (-1 : Int) ∉ memory) :
    occupied memory = memory.length := by
  rw [occupied_eq_length_filter, filter_eq_self_of_full h]

/-! ## Optimal: the victim is referenced last -/

theorem nextUse_eq (fut : List (Int × Int)) (m : Int) :
    nextUse fut m
      = if (m.tdiv 10000, m.tmod 10000) ∈ fut
        then (distance fut (m.tdiv 10000, m.tmod 10000) : Int) else INT_MAX := by
  unfold nextUse
  rw [nextUseFrom_eq]
  simp

/-- With a lookahead whose indices fit in an `int`, a frame whose `nextUse` is
not smaller holds a page whose distance is not smaller. -/
theorem distance_le_of_nextUse_le {fut : List (Int × Int)} {m m' : Int}
    (hlen : (fut.length : Int) ≤ INT_MAX) (h : nextUse fut m ≤ nextUse fut m') :
    distance fut (m.tdiv 10000, m.tmod 10000)
      ≤ distance fut (m'.tdiv 10000, m'.tmod 10000) := by
  rw [nextUse_eq, nextUse_eq] at h
  by_cases h1 : (m.tdiv 10000, m.tmod 10000) ∈ fut <;>
    by_cases h2 : (m'.tdiv 10000, m'.tmod 10000) ∈ fut
  · simp only [h1, h2, if_true] at h; omega
  · have := distance_lt_length h1
    have := distance_eq_length h2
    omega
  · have := distance_lt_length h2
    have := distance_eq_length h1
    simp only [h1, h2, if_true, if_false] at h
    omega
  · have := distance_eq_length h1
    have := distance_eq_length h2
    omega

/-- The full-table fault of `optimalPageReplacement`: the frame it rewrites
held an occupant of maximal `nextUse`. -/
theorem optimal_step_farthest {s s' : MemoryManager} {p n : Int} {fut : List (Int × Int)}
    {r : Response} (hv : Exact (p, n)) (hne : s.memory ≠ [])
    (hfull : (-1 : Int) ∉ s.memory) (hnr : pack (p, n) ∉ s.memory)
    (h : optimalPageReplacement s p n fut = some (r, s')) :
    ∃ (v : Nat) (old : Int), s.memory[v]? = some old
      ∧ s'.memory = s.memory.set v (pack (p, n))
      ∧ s'.pageFaults = s.pageFaults + 1
      ∧ ∀ y ∈ s.memory, nextUse fut y ≤ nextUse fut old := by
  have hf : findResident s.memory p n = none := by
    rw [Exact.findResident_search hv]; exact findVictimFrame_none.mpr hnr
  have he : findEmpty s.memory = none := by
    rw [findEmpty_eq]; exact findVictimFrame_none.mpr hfull
  obtain ⟨v, old, hvo, hscan, _, hmax⟩ := optimalScan_found fut hne
  rw [optimal_evict hf he hscan, hv.packInt_eq] at h
  simp only [Option.some.injEq, Prod.mk.injEq] at h
  obtain ⟨_, rfl⟩ := h
  exact ⟨v, old, hvo, rfl, rfl, hmax⟩

theorem optimal_progress {s : MemoryManager} (p n : Int) (fut : List (Int × Int))
    (hne : s.memory ≠ []) : ∃ r s', optimalPageReplacement s p n fut = some (r, s') := by
  cases hf : findResident s.memory p n with
  | some i => exact ⟨_, _, optimal_hit hf⟩
  | none =>
    cases he : findEmpty s.memory with
    | some i => exact ⟨_, _, optimal_load hf he⟩
    | none =>
      obtain ⟨v, old, _, hscan, _, _⟩ := optimalScan_found fut hne
      exact ⟨_, _, optimal_evict hf he hscan⟩

theorem ne_nil_of_length_eq {l l' : List Int} (h : l'.length = l.length) (hne : l ≠ []) :
    l' ≠ [] := by
  intro e
  rw [e] at h
  exact hne (List.length_eq_zero.mp h.symm)

theorem optimal_run_total :
    ∀ (refs : List (Int × Int)) (s : MemoryManager), s.memory ≠ [] →
      ∃ out s', run s (optimalEvents refs) = some (out, s') := by
  intro refs
  induction refs with
  | nil => intro s _; exact ⟨[], s, rfl⟩
  | cons x rest ih =>
    intro s hne
    obtain ⟨r, s1, hstep⟩ := optimal_progress x.1 x.2 rest hne
    have hstep' : step s (Event.optimal x.1 x.2 rest) = some (r, s1) := hstep
    obtain ⟨rs, s2, hrun⟩ := ih s1 (ne_nil_of_length_eq (step_length hstep') hne)
    exact ⟨r :: rs, s2, run_cons_of hstep' hrun⟩

/-! ## Every run of the engine is a demand-paging run -/

theorem run_is_demandRun :
    ∀ (evs : List Event) (s s' : MemoryManager) (out : List Response),
      (∀ e ∈ evs, Exact e.ref) → Distinct s.memory → run s evs = some (out, s') →
      ∃ k : Nat, s'.pageFaults = s.pageFaults + (k : Int)
        ∧ DemandRun s.memory.length (residents s.memory) (evs.map Event.ref) k := by
  intro evs
  induction evs with
  | nil =>
    intro s s' out _ _ h
    simp only [run, Option.some.injEq, Prod.mk.injEq] at h
    obtain ⟨_, rfl⟩ := h
    exact ⟨0, by simp, rfl⟩
  | cons e es ih =>
    intro s s' out hvalid hd h
    obtain ⟨r, s1, rs, h1, h2, _⟩ := run_cons_some h
    have hve := hvalid e (List.mem_cons_self _ _)
    have htr := step_transition hve h1
    have hlen := htr.length_eq
    obtain ⟨k, hk, hrun⟩ := ih s1 s' rs (fun x hx => hvalid x (List.mem_cons_of_mem _ hx))
      (htr.distinct hd) h2
    rw [hlen] at hrun
    obtain ⟨_, _, _, hc | hc | hc⟩ := htr
    · obtain ⟨_, _, hres, hm, _, hpf, _⟩ := hc
      rw [hm] at hrun
      refine ⟨k, by rw [hk, hpf], ?_⟩
      simp only [List.map_cons, DemandRun]
      exact Or.inl ⟨(mem_residents_of_valid hve).mpr hres, hrun⟩
    · obtain ⟨_, _, hnr, ⟨i, hi, hm, _⟩, _, hpf, _⟩ := hc
      rw [hm, residents_set_empty hve hi.1] at hrun
      refine ⟨k + 1, by rw [hk, hpf]; push_cast; omega, ?_⟩
      simp only [List.map_cons, DemandRun]
      refine Or.inr (Or.inl ⟨fun hin => hnr ((mem_residents_of_valid hve).mp hin), ?_,
        k, rfl, hrun⟩)
      rw [card_residents hd]
      exact occupied_lt_length hi.mem
    · obtain ⟨_, hnr, hfull, ⟨v, old, hvo, _, hm, _⟩, _, hpf, _⟩ := hc
      have hold : old ≠ -1 := fun e => hfull (e ▸ List.getElem?_mem hvo)
      rw [hm, residents_set_occupied hve hd hvo hold hnr] at hrun
      refine ⟨k + 1, by rw [hk, hpf]; push_cast; omega, ?_⟩
      simp only [List.map_cons, DemandRun]
      refine Or.inr (Or.inr ⟨fun hin => hnr ((mem_residents_of_valid hve).mp hin), ?_,
        _, decode_mem_residents (List.getElem?_mem hvo) hold, k, rfl, hrun⟩)
      rw [card_residents hd, occupied_eq_length hfull]

theorem optimalEvents_ref (refs : List (Int × Int)) :
    (optimalEvents refs).map Event.ref = refs := by
  induction refs with
  | nil => rfl
  | cons x rest ih => simp only [optimalEvents, List.map_cons, Event.ref, ih]

theorem fifoEvents_ref (refs : List (Int × Int)) :
    (fifoEvents refs).map Event.ref = refs := by
  induction refs with
  | nil => rfl
  | cons x rest ih =>
    simp only [fifoEvents, List.map_cons, Event.ref] at ih ⊢
    rw [ih]

theorem lruEvents_ref (refs : List (Int × Int)) :
    (lruEvents refs).map Event.ref = refs := by
  induction refs with
  | nil => rfl
  | cons x rest ih =>
    simp only [lruEvents, List.map_cons, Event.ref] at ih ⊢
    rw [ih]

/-! ## Optimal has the fewest faults -/

/-- The faults of the optimal run are at most those of any demand-paging run
from the same resident set over the same string. -/
theorem optimal_run_le_demandRun :
    ∀ (refs : List (Int × Int)) (s s' : MemoryManager) (out : List Response) (k : Nat),
      (∀ x ∈ refs, Exact x) → (refs.length : Int) ≤ INT_MAX →
      Distinct s.memory → s.memory ≠ [] →
      run s (optimalEvents refs) = some (out, s') →
      DemandRun s.memory.length (residents s.memory) refs k →
      s'.pageFaults ≤ s.pageFaults + (k : Int) := by
  intro refs
  induction refs with
  | nil =>
    intro s s' out k _ _ _ _ h _
    simp only [optimalEvents, run, Option.some.injEq, Prod.mk.injEq] at h
    rw [← h.2]
    omega
  | cons x rest ih =>
    intro s s' out k hvalid hlen hd hne h hdr
    obtain ⟨r, s1, rs, h1, h2, _⟩ := run_cons_some h
    have hvx : Exact (x.1, x.2) := hvalid x (List.mem_cons_self _ _)
    have hvx' : Exact x := hvalid x (List.mem_cons_self _ _)
    have hvr : ∀ y ∈ rest, Exact y := fun y hy => hvalid y (List.mem_cons_of_mem _ hy)
    have hlr : (rest.length : Int) ≤ INT_MAX := by
      simp only [List.length_cons] at hlen
      push_cast at hlen
      omega
    have h1' : optimalPageReplacement s x.1 x.2 rest = some (r, s1) := h1
    obtain ⟨htr, _, _, _⟩ := optimal_step hvx h1'
    have hlen1 := htr.length_eq
    have hd1 := htr.distinct hd
    have hne1 := ne_nil_of_length_eq hlen1 hne
    have hpx : pack (x.1, x.2) = pack x := rfl
    simp only [DemandRun] at hdr
    obtain ⟨_, _, _, hc | hc | hc⟩ := htr
    · -- hit
      obtain ⟨_, _, hres, hm, _, hpf, _⟩ := hc
      have hin : x ∈ residents s.memory := (mem_residents_of_valid hvx').mpr hres
      rcases hdr with ⟨_, hdr⟩ | ⟨hnin, _⟩ | ⟨hnin, _⟩
      · have := ih s1 s' rs k hvr hlr hd1 hne1 h2 (by rw [hlen1, hm]; exact hdr)
        rw [hpf] at this
        exact this
      · exact absurd hin hnin
      · exact absurd hin hnin
    · -- load into an empty frame
      obtain ⟨_, _, hnr, ⟨i, hi, hm, _⟩, _, hpf, _⟩ := hc
      have hcard : (residents s.memory).card < s.memory.length := by
        rw [card_residents hd]; exact occupied_lt_length hi.mem
      rcases hdr with ⟨hin, _⟩ | ⟨_, _, k0, rfl, hdr⟩ | ⟨_, hge, _⟩
      · exact absurd ((mem_residents_of_valid hvx').mp hin) hnr
      · have := ih s1 s' rs k0 hvr hlr hd1 hne1 h2
          (by rw [hlen1, hm, hpx, residents_set_empty hvx' hi.1]; exact hdr)
        rw [hpf] at this
        push_cast
        omega
      · omega
    · -- replacement on a full table
      obtain ⟨_, hnr, hfull, _, _, _, _, _⟩ := hc
      obtain ⟨v, old, hvo, hm, hpf, hmax⟩ := optimal_step_farthest hvx hne hfull hnr h1'
      have hold : old ≠ -1 := fun e => hfull (e ▸ List.getElem?_mem hvo)
      have hcard : (residents s.memory).card = s.memory.length := by
        rw [card_residents hd, occupied_eq_length hfull]
      have hxn : x ∉ residents s.memory :=
        fun hin => hnr ((mem_residents_of_valid hvx').mp hin)
      have hyo := decode_mem_residents (List.getElem?_mem hvo) hold
      rcases hdr with ⟨hin, _⟩ | ⟨_, hlt, _⟩ | ⟨_, _, y, hy, k0, rfl, hdr⟩
      · exact absurd hin hxn
      · omega
      · -- the competitor evicts `y`, the engine evicts the occupant `old`
        have hres1 : residents s1.memory
            = insert x ((residents s.memory).erase (old.tdiv 10000, old.tmod 10000)) := by
          rw [hm, hpx, residents_set_occupied hvx' hd hvo hold hnr]
        have hgoal : ∃ k', k' ≤ k0 ∧ DemandRun s.memory.length (residents s1.memory) rest k' := by
          by_cases hyeq : y = (old.tdiv 10000, old.tmod 10000)
          · exact ⟨k0, le_refl _, by rw [hres1, ← hyeq]; exact hdr⟩
          · obtain ⟨m, hmm, _, hmy⟩ := mem_residents.mp hy
            have hdist : distance rest y
                ≤ distance rest (old.tdiv 10000, old.tmod 10000) := by
              rw [← hmy]
              exact distance_le_of_nextUse_le hlr (hmax m hmm)
            have hyx : y ≠ x := fun e => hxn (e ▸ hy)
            have hox : (old.tdiv 10000, old.tmod 10000) ≠ x := fun e => hxn (e ▸ hyo)
            -- both tables are `D` plus one page
            have hB : insert x ((residents s.memory).erase y)
                = insert (old.tdiv 10000, old.tmod 10000)
                    (insert x (((residents s.memory).erase y).erase
                      (old.tdiv 10000, old.tmod 10000))) := by
              rw [Finset.Insert.comm, Finset.insert_erase]
              exact Finset.mem_erase.mpr ⟨fun e => hyeq e.symm, hyo⟩
            have hA : insert x ((residents s.memory).erase (old.tdiv 10000, old.tmod 10000))
                = insert y
                    (insert x (((residents s.memory).erase y).erase
                      (old.tdiv 10000, old.tmod 10000))) := by
              rw [Finset.erase_right_comm, Finset.Insert.comm, Finset.insert_erase]
              exact Finset.mem_erase.mpr ⟨hyeq, hy⟩
            have ha : y ∉ insert x (((residents s.memory).erase y).erase
                (old.tdiv 10000, old.tmod 10000)) := by
              simp only [Finset.mem_insert, Finset.mem_erase, not_or, not_and]
              exact ⟨hyx, fun _ hne => absurd rfl hne⟩
            have hb : (old.tdiv 10000, old.tmod 10000) ∉
                insert x (((residents s.memory).erase y).erase
                  (old.tdiv 10000, old.tmod 10000)) := by
              simp only [Finset.mem_insert, Finset.mem_erase, not_or, not_and]
              exact ⟨hox, fun hne => absurd rfl hne⟩
            have hcB : (insert x ((residents s.memory).erase y)).card = s.memory.length :=
              (card_insert_erase hxn hy).trans hcard
            have hcA : (insert x ((residents s.memory).erase
                (old.tdiv 10000, old.tmod 10000))).card = s.memory.length :=
              (card_insert_erase hxn hyo).trans hcard
            have hfr := (demandRun_iff_fullRun _ rest _ k0 hcB).mp hdr
            rw [hB] at hfr
            obtain ⟨k', hk', hfr'⟩ := fullRun_sooner rest _ y _ k0 ha hb hdist hfr
            rw [← hA] at hfr'
            exact ⟨k', hk', by
              rw [hres1]; exact (demandRun_iff_fullRun _ rest _ k' hcA).mpr hfr'⟩
        obtain ⟨k', hk', hdr'⟩ := hgoal
        have := ih s1 s' rs k' hvr hlr hd1 hne1 h2 (by rw [hlen1]; exact hdr')
        rw [hpf] at this
        push_cast
        omega

/-- C13, the claim as stated fails: on one frame the string `(214749, 0)`,
`(214749, 0)` (`processId >= 0`, `0 <= pageNumber < 10000`) costs
`optimalPageReplacement` two faults, because the frame value -2147477296
written for the first reference is not recognised as the page at the second
one, while a demand-paging run on one frame faults once. -/
theorem optimal_overflow_counterexample :
    ∃ s0 out s, MemoryManager.create 4 = some s0 ∧ s0.numFrames = 1
      ∧ (∀ x ∈ [((214749 : Int), (0 : Int)), (214749, 0)], ValidRef x)
      ∧ run s0 (optimalEvents [(214749, 0), (214749, 0)]) = some (out, s)
      ∧ out.map (fun r => r.type) = ["MISS", "MISS"]
      ∧ s.pageFaults = 2
      ∧ DemandRun s0.numFrames.toNat ∅ [(214749, 0), (214749, 0)] 1 := by
  refine ⟨_, _, _, rfl, rfl, by decide, rfl, by decide, rfl, ?_⟩
  exact Or.inr (Or.inl ⟨by simp, by decide, 0, rfl, Or.inl ⟨by simp, rfl⟩⟩)

/-- C13 (amended): for every frame count `N >= 1` and every reference string
(`processId >= 0`, `0 <= pageNumber < 10000`,
`processId * 10000 + pageNumber <= INT_MAX`, at most `INT_MAX` references),
running `optimalPageReplacement` over the string on a freshly constructed
engine, each call given the remainder of the string as `futureReferences`,
returns at every step and ends with a minimal `pageFaults`: the run is itself a
demand-paging run, and no demand-paging run over the same string on `N` frames
(a page is loaded only on a fault; a full-table fault may evict any resident
page) has fewer faults.  In particular `fifoPageReplacement` and
`lruPageReplacement` over the same string from fresh engines have no fewer
faults. -/
theorem optimal_faults_minimal (ramKB : Int) (s0 : MemoryManager) (refs : List (Int × Int))
    (hnew : MemoryManager.create ramKB = some s0) (hN : 1 ≤ s0.numFrames)
    (hvalid : ∀ x ∈ refs, ValidRef x) (hfit : ∀ x ∈ refs, pack x ≤ INT_MAX)
    (hlen : (refs.length : Int) ≤ INT_MAX) :
    ∃ out s, run s0 (optimalEvents refs) = some (out, s)
      ∧ (∃ k : Nat, s.pageFaults = (k : Int) ∧ DemandRun s0.numFrames.toNat ∅ refs k)
      ∧ (∀ k : Nat, DemandRun s0.numFrames.toNat ∅ refs k → s.pageFaults ≤ (k : Int))
      ∧ (∃ outF sF, run s0 (fifoEvents refs) = some (outF, sF)
          ∧ s.pageFaults ≤ sF.pageFaults)
      ∧ (∃ outL sL, run s0 (lruEvents refs) = some (outL, sL)
          ∧ s.pageFaults ≤ sL.pageFaults) := by
  obtain ⟨_, hm, hpf, _⟩ := create_spec hnew
  have hne := create_ne_nil hnew hN
  have hd := create_distinct hnew
  have hres : residents s0.memory = ∅ := residents_all_empty (create_all_empty hnew)
  have hl : s0.memory.length = s0.numFrames.toNat := by
    rw [hm, List.length_replicate]
  have hex : ∀ x ∈ refs, Exact x := fun x hx => exact_of_valid (hvalid x hx) (hfit x hx)
  have hvo : ∀ e ∈ optimalEvents refs, Exact e.ref := by
    intro e he
    have : e.ref ∈ (optimalEvents refs).map Event.ref := List.mem_map_of_mem _ he
    rw [optimalEvents_ref] at this
    exact hex _ this
  have hvf : ∀ e ∈ fifoEvents refs, Exact e.ref := by
    intro e he
    have : e.ref ∈ (fifoEvents refs).map Event.ref := List.mem_map_of_mem _ he
    rw [fifoEvents_ref] at this
    exact hex _ this
  have hvl : ∀ e ∈ lruEvents refs, Exact e.ref := by
    intro e he
    have : e.ref ∈ (lruEvents refs).map Event.ref := List.mem_map_of_mem _ he
    rw [lruEvents_ref] at this
    exact hex _ this
  have hpolF : ∀ e ∈ fifoEvents refs, e.policy = Policy.FIFO := by
    intro e he
    simp only [fifoEvents, List.mem_map] at he
    obtain ⟨x, _, rfl⟩ := he
    rfl
  have hpolL : ∀ e ∈ lruEvents refs, e.policy = Policy.LRU := by
    intro e he
    simp only [lruEvents, List.mem_map] at he
    obtain ⟨x, _, rfl⟩ := he
    rfl
  obtain ⟨out, s, hrun⟩ := optimal_run_total refs s0 hne
  have hbound : ∀ k : Nat, DemandRun s0.numFrames.toNat ∅ refs k → s.pageFaults ≤ (k : Int) := by
    intro k hk
    have := optimal_run_le_demandRun refs s0 s out k hex hlen hd hne hrun
      (by rw [hl, hres]; exact hk)
    rw [hpf] at this
    omega
  have hother : ∀ (evs : List Event) (out' : List Response) (s' : MemoryManager),
      (∀ e ∈ evs, Exact e.ref) → evs.map Event.ref = refs →
      run s0 evs = some (out', s') →
      ∃ k : Nat, s'.pageFaults = (k : Int) ∧ DemandRun s0.numFrames.toNat ∅ refs k := by
    intro evs out' s' hv href hr
    obtain ⟨k, hk, hdr⟩ := run_is_demandRun evs s0 s' out' hv hd hr
    rw [hl, hres, href] at hdr
    exact ⟨k, by rw [hk, hpf]; omega, hdr⟩
  refine ⟨out, s, hrun, hother _ out s hvo (optimalEvents_ref refs) hrun, hbound, ?_, ?_⟩
  · obtain ⟨outF, sF, hrF, _⟩ :=
      fifo_run (fifoEvents refs) s0 hpolF hvf (create_fifoInv hnew) hne
    obtain ⟨k, hk, hdr⟩ := hother _ outF sF hvf (fifoEvents_ref refs) hrF
    exact ⟨outF, sF, hrF, by rw [hk]; exact hbound k hdr⟩
  · have hlenL : ((lruEvents refs).length : Int) ≤ LONG_MAX := by
      simp only [lruEvents, List.length_map]
      have : INT_MAX ≤ LONG_MAX := by decide
      omega
    obtain ⟨outL, sL, hrL, _⟩ := lru_run_fresh hnew hN hpolL hvl hlenL
    obtain ⟨k, hk, hdr⟩ := hother _ outL sL hvl (lruEvents_ref refs) hrL
    exact ⟨outL, sL, hrL, by rw [hk]; exact hbound k hdr⟩

/-- Witness of C13 (amended): on three frames the string
`1, 2, 3, 4, 1, 2, 5, 1, 2, 3, 4, 5` costs 7 faults under Optimal, 9 under FIFO
and 10 under LRU. -/
theorem optimal_faults_minimal_witness :
    ∃ s0, MemoryManager.create 12 = some s0
      ∧ (run s0 (optimalEvents beladySample)).map (fun x => x.2.pageFaults) = some 7
      ∧ (run s0 (fifoEvents beladySample)).map (fun x => x.2.pageFaults) = some 9
      ∧ (run s0 (lruEvents beladySample)).map (fun x => x.2.pageFaults) = some 10
      ∧ ∃ out s, run s0 (optimalEvents beladySample) = some (out, s)
        ∧ (∃ k : Nat, s.pageFaults = (k : Int)
            ∧ DemandRun s0.numFrames.toNat ∅ beladySample k)
        ∧ (∀ k : Nat, DemandRun s0.numFrames.toNat ∅ beladySample k → s.pageFaults ≤ (k : Int))
        ∧ (∃ outF sF, run s0 (fifoEvents beladySample) = some (outF, sF)
            ∧ s.pageFaults ≤ sF.pageFaults)
        ∧ (∃ outL sL, run s0 (lruEvents beladySample) = some (outL, sL)
            ∧ s.pageFaults ≤ sL.pageFaults) := by
  refine ⟨_, rfl, by decide, by decide, by decide, ?_⟩
  exact optimal_faults_minimal 12 _ beladySample rfl (by decide) (by decide) (by decide)
    (by decide)

end SwapStore
